/-
Verification of the LRU cache implementations of the LRUCacheTest repository.

The repository provides six implementations (LRUCacheV1.h .. LRUCacheV6.h) of a
bounded key-value cache with least-recently-used eviction, all exposing
  get(key)        -> value pointer or null
  put(key, value) -> bool (true iff the call introduced a new key)
and a test harness (LRUCacheTest.cpp) that checks the implementations agree.

This file gives a shallow embedding of each implementation:

* LRUCacheV4 (boost::multi_index_container with a sequenced index): the
  sequenced index is a list of (key, value) pairs ordered LRU -> MRU; the
  hashed/ordered key index of the multi_index_container is a pure lookup
  capability over those pairs and is rendered by searching the sequence for
  the unique pair with the given key.

* LRUCacheV2 (std::list of QueueItem + a map from key to list iterator):
  every map entry's queueLocation points at the unique queue node whose
  mapLocation points back at that map entry, so the map content is exactly
  "the keys stored in the queue nodes"; the state is rendered by the queue,
  a list of (key, value) pairs LRU -> MRU, and map find is rendered by
  searching the queue for the node with the given mapLocation key.

* LRUCacheV3 (arena vector + boost::intrusive::list + intrusive set): the
  intrusive list links the arena entries themselves; every arena entry is
  always linked and indexed, so the state is rendered by the intrusive list
  of (key, value) entries LRU -> MRU plus the arena size used in the
  capacity test.

* LRUCacheV6 (emilib::HashMap from key to Entry{value, keyLocation} +
  boost::intrusive::list over the map's entries): rendered by the map as an
  association list of (key, value) and the intrusive list as the list of
  keys of the linked entries, LRU -> MRU.

* LRUCacheV1 / LRUCacheV5 (hand made doubly linked list over std::vector
  with a sentinel at index 0, plus a map from key to vector index): rendered
  faithfully as a list of Entry records with next/prev indices, value and
  keyLocation, plus the key index.  The key index backend (std::map,
  std::unordered_map, boost variants, emilib::HashMap) is a template
  parameter of the C++ class; it is rendered as a KeyIndex structure whose
  canonical instance is an association list, matching the contract the cache
  code relies on (find, try_emplace, erase through an iterator, size).

Machine integers (size_t) are rendered as Nat: all values involved are
bounded by the number of operations performed, so no overflow behaviour is
observable in the C++ program for any realizable workload.

Undefined behaviour is rendered by Option: popping or reading the front of
an empty recency queue (LRUCacheV2.h line 299, LRUCacheV3.h line 122,
LRUCacheV4.h line 114, LRUCacheV6.h line 81) and erasing a
default-constructed map iterator (LRUCacheV1.h line 298 reached with the
sentinel's keyLocation) return none.
-/
import Mathlib

set_option linter.unusedVariables false
set_option linter.unusedSectionVars false

/-- A public cache operation: a get with a key, or a put with a key and a value.
This is the alphabet driven by LRUCacheTest.cpp performanceTest1. -/
inductive CacheOp (K V : Type) where
  | get : K → CacheOp K V
  | put : K → V → CacheOp K V
deriving Repr, DecidableEq

/-- The observable outcome of one cache operation: the optional value returned
by get (null pointer rendered as none), or the bool returned by put. -/
inductive CacheOut (V : Type) where
  | got : Option V → CacheOut V
  | inserted : Bool → CacheOut V
deriving Repr, DecidableEq

/-- Whether an outcome is a put call that returned true, i.e. accepted a new
key; LRUCacheTest.cpp counts these as keyInsertionCount. -/
def CacheOut.isInsertedTrue {V : Type} : CacheOut V → Bool
  | CacheOut.inserted true => true
  | _ => false

namespace LRUCacheV4

/-- State of LRUCacheV4::LRUCache: the boost::multi_index_container with its
sequenced index, a sequence of (key, value) entries ordered LRU -> MRU
(relocate-to-end makes an entry MRU, pop_front evicts the LRU), plus the
immutable maxCacheSize. -/
structure Cache (K V : Type) where
  entries : List (K × V)
  maxCacheSize : Nat
deriving Repr, DecidableEq

/-- LRUCacheV4.h constructor: LRUCache(size_t cacheSize). -/
def mkCache (K V : Type) (cacheSize : Nat) : Cache K V :=
  { entries := [], maxCacheSize := cacheSize }

variable {K V : Type} [DecidableEq K]

/-- LRUCacheV4.h lines 84-92: get finds the entry by key in the key index;
on hit it relocates the entry to the end of the sequenced index (MRU) and
returns its value; on miss it returns null. -/
def get (c : Cache K V) (k : K) : Option V × Cache K V :=
  match c.entries.find? (fun p => p.1 == k) with
  | none => (none, c)
  | some it =>
    (some it.2,
     { c with entries := c.entries.eraseP (fun p => p.1 == k) ++ [it] })

/-- LRUCacheV4.h lines 104-118: put on an existing key overwrites the value
and relocates the entry to the MRU end, returning false; on a new key it
first pops the front (LRU) entry when entries.size() >= maxCacheSize
(undefined behaviour when the container is empty, rendered as none), then
appends the new entry at the MRU end and returns true. -/
def put (c : Cache K V) (k : K) (v : V) : Option (Bool × Cache K V) :=
  match c.entries.find? (fun p => p.1 == k) with
  | some _ =>
    some (false,
      { c with entries := c.entries.eraseP (fun p => p.1 == k) ++ [(k, v)] })
  | none =>
    if c.maxCacheSize ≤ c.entries.length then
      match c.entries with
      | [] => none
      | _ :: rest => some (true, { c with entries := rest ++ [(k, v)] })
    else
      some (true, { c with entries := c.entries ++ [(k, v)] })

/-- Runs a list of operations from a state, collecting the outcomes;
none when an operation runs into undefined behaviour. -/
def run : Cache K V → List (CacheOp K V) → Option (List (CacheOut V) × Cache K V)
  | c, [] => some ([], c)
  | c, CacheOp.get k :: ops =>
    (run (get c k).2 ops).map (fun s => (CacheOut.got (get c k).1 :: s.1, s.2))
  | c, CacheOp.put k v :: ops =>
    (put c k v).bind fun r =>
      (run r.2 ops).map (fun s => (CacheOut.inserted r.1 :: s.1, s.2))

end LRUCacheV4

namespace LRUCacheV2

/-- State of LRUCacheV2::LRUCache: the lruQueue (std::list of QueueItem,
front = LRU, back = MRU).  Each QueueItem holds a value and a mapLocation
iterator; the keyMap maps each such key to an Entry holding the
queueLocation iterator of that very node, so the map content is determined
by the queue: its keys are the mapLocation keys of the queue nodes.  A
QueueItem is rendered as the pair (mapLocation key, value). -/
structure Cache (K V : Type) where
  lruQueue : List (K × V)
  maxCacheSize : Nat
deriving Repr, DecidableEq

/-- LRUCacheV2.h constructor: LRUCache(size_t cacheSize); the queue starts
empty and the map bucket hint 2*cacheSize has no observable effect. -/
def mkCache (K V : Type) (cacheSize : Nat) : Cache K V :=
  { lruQueue := [], maxCacheSize := cacheSize }

variable {K V : Type} [DecidableEq K]

/-- LRUCacheV2.h lines 113-120: get looks the key up in keyMap; on hit it
splices the found queue node to the queue end (pushToQueueEnd, line 308)
and returns the node's value; on miss it returns null. -/
def get (c : Cache K V) (k : K) : Option V × Cache K V :=
  match c.lruQueue.find? (fun p => p.1 == k) with
  | none => (none, c)
  | some it =>
    (some it.2,
     { c with lruQueue := c.lruQueue.eraseP (fun p => p.1 == k) ++ [it] })

/-- LRUCacheV2.h lines 291-306 (finishPutOperation after insertIntoMap):
if the key already exists, overwrite the queue node's value, splice it to
the queue end and return false.  Otherwise the key was just inserted into
keyMap (so the map now has lruQueue.length + 1 entries); if that exceeds
maxCacheSize, the front (LRU) queue node is popped and its key erased from
the map (lruQueue.front() on an empty queue is undefined behaviour,
rendered as none); finally the new (value, key) node is appended at the
queue end and true is returned. -/
def put (c : Cache K V) (k : K) (v : V) : Option (Bool × Cache K V) :=
  match c.lruQueue.find? (fun p => p.1 == k) with
  | some _ =>
    some (false,
      { c with lruQueue := c.lruQueue.eraseP (fun p => p.1 == k) ++ [(k, v)] })
  | none =>
    if c.lruQueue.length + 1 > c.maxCacheSize then
      match c.lruQueue with
      | [] => none
      | _ :: rest => some (true, { c with lruQueue := rest ++ [(k, v)] })
    else
      some (true, { c with lruQueue := c.lruQueue ++ [(k, v)] })

/-- Runs a list of operations from a state, collecting the outcomes;
none when an operation runs into undefined behaviour. -/
def run : Cache K V → List (CacheOp K V) → Option (List (CacheOut V) × Cache K V)
  | c, [] => some ([], c)
  | c, CacheOp.get k :: ops =>
    (run (get c k).2 ops).map (fun s => (CacheOut.got (get c k).1 :: s.1, s.2))
  | c, CacheOp.put k v :: ops =>
    (put c k v).bind fun r =>
      (run r.2 ops).map (fun s => (CacheOut.inserted r.1 :: s.1, s.2))

end LRUCacheV2

namespace LRUCacheV3

/-- State of LRUCacheV3::LRUCache: the arena vector of entries, the
intrusive lruQueue linking those entries (front = LRU, back = MRU) and the
intrusive keyMap indexing them by key.  Every arena entry is always both
linked and indexed, so the live content is rendered by the queue as a list
of (key, value) entries; the arena size, used in the capacity test of
put_CommitPhase, is kept as a separate field mirroring entries.size(). -/
structure Cache (K V : Type) where
  lruQueue : List (K × V)
  arenaSize : Nat
  maxCacheSize : Nat
deriving Repr, DecidableEq

/-- LRUCacheV3.h constructor: LRUCache(size_t cacheSize); the arena starts
empty (reserve only affects capacity, not size). -/
def mkCache (K V : Type) (cacheSize : Nat) : Cache K V :=
  { lruQueue := [], arenaSize := 0, maxCacheSize := cacheSize }

variable {K V : Type} [DecidableEq K]

/-- LRUCacheV3.h lines 66-73: get looks the key up in the intrusive set; on
hit it splices the entry to the queue end (pushToQueueEnd, line 136) and
returns its value; on miss it returns null. -/
def get (c : Cache K V) (k : K) : Option V × Cache K V :=
  match c.lruQueue.find? (fun p => p.1 == k) with
  | none => (none, c)
  | some it =>
    (some it.2,
     { c with lruQueue := c.lruQueue.eraseP (fun p => p.1 == k) ++ [it] })

/-- LRUCacheV3.h lines 101-134: put_CheckPhase updates the value and
splices the entry to the queue end when the key is already indexed,
making put return false.  Otherwise put_CommitPhase runs: if
entries.size() == maxCacheSize the front (LRU) entry is recycled -- its
key and value are overwritten, it is spliced to the queue end, the old key
leaves the index and the new key enters it (lruQueue.front() on an empty
queue is undefined behaviour, rendered as none); if the arena is not yet
full a new entry is appended to the arena, linked at the queue end and
indexed.  Both commit paths make put return true. -/
def put (c : Cache K V) (k : K) (v : V) : Option (Bool × Cache K V) :=
  match c.lruQueue.find? (fun p => p.1 == k) with
  | some _ =>
    some (false,
      { c with lruQueue := c.lruQueue.eraseP (fun p => p.1 == k) ++ [(k, v)] })
  | none =>
    if c.arenaSize = c.maxCacheSize then
      match c.lruQueue with
      | [] => none
      | _ :: rest => some (true, { c with lruQueue := rest ++ [(k, v)] })
    else
      some (true,
        { c with lruQueue := c.lruQueue ++ [(k, v)],
                 arenaSize := c.arenaSize + 1 })

/-- Runs a list of operations from a state, collecting the outcomes;
none when an operation runs into undefined behaviour. -/
def run : Cache K V → List (CacheOp K V) → Option (List (CacheOut V) × Cache K V)
  | c, [] => some ([], c)
  | c, CacheOp.get k :: ops =>
    (run (get c k).2 ops).map (fun s => (CacheOut.got (get c k).1 :: s.1, s.2))
  | c, CacheOp.put k v :: ops =>
    (put c k v).bind fun r =>
      (run r.2 ops).map (fun s => (CacheOut.inserted r.1 :: s.1, s.2))

end LRUCacheV3

namespace LRUCacheV6

/-- State of LRUCacheV6: the emilib::HashMap from key to
Entry{value, keyLocation}, rendered as an association list of (key, value)
(the keyLocation of an entry is the iterator to its own map node, so it is
determined), and the intrusive lruQueue linking the map's entries,
rendered as the list of their keys, front = LRU, back = MRU. -/
structure Cache (K V : Type) where
  keyMap : List (K × V)
  lruQueue : List K
  maxCacheSize : Nat
deriving Repr, DecidableEq

/-- LRUCacheV6.h constructor: LRUCacheV6(size_t cacheSize); reserve has no
observable effect. -/
def mkCache (K V : Type) (cacheSize : Nat) : Cache K V :=
  { keyMap := [], lruQueue := [], maxCacheSize := cacheSize }

variable {K V : Type} [DecidableEq K]

/-- LRUCacheV6.h lines 45-53: get looks the key up in keyMap; on hit it
splices the entry to the queue end (pushToQueueEnd, line 91) and returns
the entry's value; on miss it returns null. -/
def get (c : Cache K V) (k : K) : Option V × Cache K V :=
  match c.keyMap.find? (fun p => p.1 == k) with
  | none => (none, c)
  | some it =>
    (some it.2,
     { c with lruQueue := c.lruQueue.eraseP (fun x => x == k) ++ [k] })

/-- LRUCacheV6.h lines 55-90: put calls keyMap.try_emplace(key, value) and
then finishPutOperation.  If the key already existed, the entry's value is
overwritten, the entry is spliced to the queue end and false is returned.
Otherwise the new entry is already in the map; if the map size now exceeds
maxCacheSize, the front (LRU) queue entry is popped and erased from the map
through its keyLocation (lruQueue.front() on an empty queue is undefined
behaviour, rendered as none); finally the new entry is linked at the queue
end and true is returned. -/
def put (c : Cache K V) (k : K) (v : V) : Option (Bool × Cache K V) :=
  match c.keyMap.find? (fun p => p.1 == k) with
  | some _ =>
    some (false,
      { c with
        keyMap := c.keyMap.map (fun p => if p.1 == k then (p.1, v) else p),
        lruQueue := c.lruQueue.eraseP (fun x => x == k) ++ [k] })
  | none =>
    let keyMap1 := c.keyMap ++ [(k, v)]
    if keyMap1.length > c.maxCacheSize then
      match c.lruQueue with
      | [] => none
      | kf :: rest =>
        some (true,
          { c with keyMap := keyMap1.eraseP (fun p => p.1 == kf),
                   lruQueue := rest ++ [k] })
    else
      some (true, { c with keyMap := keyMap1, lruQueue := c.lruQueue ++ [k] })

/-- Runs a list of operations from a state, collecting the outcomes;
none when an operation runs into undefined behaviour. -/
def run : Cache K V → List (CacheOp K V) → Option (List (CacheOut V) × Cache K V)
  | c, [] => some ([], c)
  | c, CacheOp.get k :: ops =>
    (run (get c k).2 ops).map (fun s => (CacheOut.got (get c k).1 :: s.1, s.2))
  | c, CacheOp.put k v :: ops =>
    (put c k v).bind fun r =>
      (run r.2 ops).map (fun s => (CacheOut.inserted r.1 :: s.1, s.2))

end LRUCacheV6

namespace LRUCacheV1

/-- One slot of the entries vector of LRUCacheV1::LRUCache (LRUCacheV1.h
lines 317-327): next/prev vector indices of the neighbours in the recency
list, the stored value, and the keyLocation iterator into the key map,
rendered as the key of the map node it points to (none for the
default-constructed iterator stored in the sentinel). -/
structure Entry (K V : Type) where
  next : Nat
  prev : Nat
  value : V
  keyLocation : Option K
deriving Repr, DecidableEq

/-- The key index backend of LRUCacheV1::LRUCache, a template parameter of
the C++ class (std::map, boost::container::map, std::unordered_map,
boost::unordered_map, or emilib::HashMap in LRUCacheV5).  The cache code
uses exactly this capability set: construction with a bucket-count hint,
find, try_emplace (emulated through emplace for the boost::unordered_map
backend, which already inserts only if absent), assignment through a found
iterator, erase through a stored iterator (rendered by the key of the node
it points to), and size. -/
structure KeyIndex (K : Type) where
  State : Type
  empty : Nat → State
  find : State → K → Option Nat
  tryEmplace : State → K → Nat → State × Nat × Bool
  updateAt : State → K → Nat → State
  eraseAt : State → K → State
  size : State → Nat
  Good : State → Prop

/-- Key lookup in the association-list rendering of the key map. -/
def mapFind {K : Type} [DecidableEq K] (m : List (K × Nat)) (k : K) :
    Option Nat :=
  (m.find? (fun p => p.1 == k)).map Prod.snd

/-- try_emplace on the association list: return the existing node when the
key is present, otherwise append a node with the given mapped value. -/
def mapTryEmplace {K : Type} [DecidableEq K] (m : List (K × Nat)) (k : K)
    (idx : Nat) : List (K × Nat) × Nat × Bool :=
  match mapFind m k with
  | some i => (m, i, false)
  | none => (m ++ [(k, idx)], idx, true)

/-- Assignment through the iterator returned for key k
(the l.first->second = entryIndex statement of LRUCacheV1.h line 296). -/
def mapUpdateAt {K : Type} [DecidableEq K] (m : List (K × Nat)) (k : K)
    (idx : Nat) : List (K × Nat) :=
  m.map (fun p => if p.1 == k then (p.1, idx) else p)

/-- Erasing the single map node a stored iterator points to, rendered by
the key of that node. -/
def mapEraseAt {K : Type} [DecidableEq K] (m : List (K × Nat)) (k : K) :
    List (K × Nat) :=
  m.eraseP (fun p => p.1 == k)

/-- The canonical key index: an association list from keys to entry
indices.  Good states are those with pairwise distinct keys, which every
C++ map backend maintains by construction. -/
def assocIndex (K : Type) [DecidableEq K] : KeyIndex K where
  State := List (K × Nat)
  empty := fun _ => []
  find := mapFind
  tryEmplace := mapTryEmplace
  updateAt := mapUpdateAt
  eraseAt := mapEraseAt
  size := List.length
  Good := fun m => (m.map Prod.fst).Nodup

/-- State of LRUCacheV1::LRUCache (LRUCacheV1.h lines 328-332): the entries
vector whose zeroth element is the sentinel of the circular recency list,
the key map, and the immutable maxCacheSize. -/
structure CacheG (K V : Type) (σ : Type) where
  entries : List (Entry K V)
  keyMap : σ
  maxCacheSize : Nat

/-- Unchecked vector indexing entries[i], as used by the C++ code; all
indices reached in a well-formed state are in bounds. -/
def geti {K V : Type} [Inhabited V] (es : List (Entry K V)) (i : Nat) :
    Entry K V :=
  (es[i]?).getD { next := 0, prev := 0, value := default, keyLocation := none }

/-- Writing one slot of the entries vector. -/
def seti {K V : Type} (es : List (Entry K V)) (i : Nat) (e : Entry K V) :
    List (Entry K V) :=
  es.set i e

/-- LRUCacheV1.h lines 305-315, pushIntoQueue: splice entry entryIndex out
of the recency list and relink it in front of the sentinel, making it the
MRU entry.  Each C++ statement is rendered in order; reads through the
references e and sentinel observe the writes of the preceding
statements. -/
def pushIntoQueue {K V : Type} [Inhabited V] (es0 : List (Entry K V))
    (entryIndex : Nat) : List (Entry K V) :=
  let es1 := seti es0 (geti es0 entryIndex).prev
      { geti es0 (geti es0 entryIndex).prev with next := (geti es0 entryIndex).next }
  let es2 := seti es1 (geti es1 entryIndex).next
      { geti es1 (geti es1 entryIndex).next with prev := (geti es1 entryIndex).prev }
  let es3 := seti es2 entryIndex { geti es2 entryIndex with prev := (geti es2 0).prev }
  let es4 := seti es3 entryIndex { geti es3 entryIndex with next := 0 }
  let es5 := seti es4 (geti es4 0).prev
      { geti es4 (geti es4 0).prev with next := entryIndex }
  seti es5 0 { geti es5 0 with prev := entryIndex }

/-- LRUCacheV1.h lines 279-304, finishPutOperation: l is the result of
insertIntoMap, rendered as the inserted key, the insertion flag and the
index stored at the key's map node.  When the key already existed the
entry's value is overwritten and the entry promoted to MRU, returning
false.  When the key is new and the vector still has room
(entryIndex <= maxCacheSize) a fresh self-linked entry is appended and
promoted.  Otherwise the LRU entry entries[0].next is recycled: the map
node of the new key is pointed at it, its old key is erased from the map
through the stored iterator (undefined behaviour on the sentinel's
default-constructed iterator, rendered as none), and its value and
keyLocation are overwritten before promoting it to MRU. -/
def finishPutOperation {K V : Type} [Inhabited V] (M : KeyIndex K)
    (c : CacheG K V M.State) (k : K) (insertedNew : Bool) (entryIndex : Nat)
    (value : V) : Option (Bool × CacheG K V M.State) :=
  if insertedNew = false then
    let es := seti c.entries entryIndex
      { geti c.entries entryIndex with value := value }
    some (false, { c with entries := pushIntoQueue es entryIndex })
  else if entryIndex ≤ c.maxCacheSize then
    let es := c.entries ++
      [{ next := entryIndex, prev := entryIndex, value := value,
         keyLocation := some k }]
    some (true, { c with entries := pushIntoQueue es entryIndex })
  else
    let entryIndex2 := (geti c.entries 0).next
    let km1 := M.updateAt c.keyMap k entryIndex2
    match (geti c.entries entryIndex2).keyLocation with
    | none => none
    | some kOld =>
      let km2 := M.eraseAt km1 kOld
      let es := seti c.entries entryIndex2
        { geti c.entries entryIndex2 with value := value, keyLocation := some k }
      some (true, { c with entries := pushIntoQueue es entryIndex2, keyMap := km2 })

/-- LRUCacheV1.h lines 88-95, the constructor: reserve space, then add the
sentinel entry with self links, a default value and a default-constructed
map iterator. -/
def mkCache {K : Type} (M : KeyIndex K) (V : Type) [Inhabited V]
    (cacheSize : Nat) : CacheG K V M.State :=
  { entries := [{ next := 0, prev := 0, value := default, keyLocation := none }],
    keyMap := M.empty (2 * cacheSize),
    maxCacheSize := cacheSize }

/-- LRUCacheV1.h lines 97-105, get: look the key up in the map; on hit,
promote the entry to MRU and return the address of its value (read after
the splice); on miss return null. -/
def get {K V : Type} [Inhabited V] (M : KeyIndex K) (c : CacheG K V M.State)
    (k : K) : Option V × CacheG K V M.State :=
  match M.find c.keyMap k with
  | none => (none, c)
  | some l =>
    let es := pushIntoQueue c.entries l
    (some (geti es l).value, { c with entries := es })

/-- LRUCacheV1.h lines 107-128 and 239-277: put runs insertIntoMap, which
is keyMap.try_emplace(key, keyMap.size() + 1) (the + 1 accounts for the
sentinel), and hands the result to finishPutOperation. -/
def put {K V : Type} [Inhabited V] (M : KeyIndex K) (c : CacheG K V M.State)
    (k : K) (v : V) : Option (Bool × CacheG K V M.State) :=
  let r := M.tryEmplace c.keyMap k (M.size c.keyMap + 1)
  finishPutOperation M { c with keyMap := r.1 } k r.2.2 r.2.1 v

/-- Runs a list of operations from a state, collecting the outcomes;
none when an operation runs into undefined behaviour. -/
def run {K V : Type} [Inhabited V] (M : KeyIndex K) :
    CacheG K V M.State → List (CacheOp K V) →
    Option (List (CacheOut V) × CacheG K V M.State)
  | c, [] => some ([], c)
  | c, CacheOp.get k :: ops =>
    (run M (get M c k).2 ops).map
      (fun s => (CacheOut.got (get M c k).1 :: s.1, s.2))
  | c, CacheOp.put k v :: ops =>
    (put M c k v).bind fun r =>
      (run M r.2 ops).map (fun s => (CacheOut.inserted r.1 :: s.1, s.2))

end LRUCacheV1

namespace LRUCacheV5

/-- State of LRUCacheV5 (LRUCacheV5.h lines 109-124): the same entries
vector with sentinel, key map and maxCacheSize as LRUCacheV1, with
emilib::HashMap as the key index backend. -/
abbrev CacheG (K V : Type) (σ : Type) := LRUCacheV1.CacheG K V σ

/-- LRUCacheV5.h lines 30-35, the constructor: add the sentinel, reserve
map buckets. -/
def mkCache {K : Type} (M : LRUCacheV1.KeyIndex K) (V : Type) [Inhabited V]
    (cacheSize : Nat) : CacheG K V M.State :=
  LRUCacheV1.mkCache M V cacheSize

/-- LRUCacheV5.h lines 43-51: get, line for line the body of
LRUCacheV1::LRUCache::get with try_get in place of find. -/
def get {K V : Type} [Inhabited V] (M : LRUCacheV1.KeyIndex K)
    (c : CacheG K V M.State) (k : K) : Option V × CacheG K V M.State :=
  LRUCacheV1.get M c k

/-- LRUCacheV5.h lines 53-95: put computes entryIndex = keyMap.size() + 1,
calls keyMap.try_emplace(key, entryIndex) and then finishPutOperation,
whose body (lines 70-95) is line for line that of
LRUCacheV1::LRUCache::finishPutOperation; pushIntoQueue (lines 97-107) is
line for line LRUCacheV1's. -/
def put {K V : Type} [Inhabited V] (M : LRUCacheV1.KeyIndex K)
    (c : CacheG K V M.State) (k : K) (v : V) :
    Option (Bool × CacheG K V M.State) :=
  LRUCacheV1.put M c k v

/-- Runs a list of operations from a state, collecting the outcomes. -/
def run {K V : Type} [Inhabited V] (M : LRUCacheV1.KeyIndex K) :
    CacheG K V M.State → List (CacheOp K V) →
    Option (List (CacheOut V) × CacheG K V M.State) :=
  LRUCacheV1.run M

end LRUCacheV5

namespace KeyedList

variable {K V : Type} [DecidableEq K]

/-- The keys of a list of key-value pairs. -/
def keys (l : List (K × V)) : List K := l.map Prod.fst

theorem keys_append (l₁ l₂ : List (K × V)) :
    keys (l₁ ++ l₂) = keys l₁ ++ keys l₂ := by
  simp [keys]

theorem mem_keys_of_mem {l : List (K × V)} {p : K × V} (h : p ∈ l) :
    p.1 ∈ keys l :=
  List.mem_map_of_mem Prod.fst h

theorem find?_eq_none_iff {l : List (K × V)} {k : K} :
    l.find? (fun p => p.1 == k) = none ↔ k ∉ keys l := by
  rw [List.find?_eq_none]
  constructor
  · intro h hk
    obtain ⟨p, hp, he⟩ := List.mem_map.1 hk
    exact h p hp (by simp [he])
  · intro h p hp hpk
    exact h (by
      have : p.1 = k := by simpa using hpk
      exact this ▸ mem_keys_of_mem hp)

theorem find?_of_split {l₁ l₂ : List (K × V)} {k : K} {v : V}
    (h : k ∉ keys l₁) :
    (l₁ ++ (k, v) :: l₂).find? (fun p => p.1 == k) = some (k, v) := by
  rw [List.find?_append, find?_eq_none_iff.2 h]
  simp

theorem eraseP_of_split {l₁ l₂ : List (K × V)} {k : K} {v : V}
    (h : k ∉ keys l₁) :
    (l₁ ++ (k, v) :: l₂).eraseP (fun p => p.1 == k) = l₁ ++ l₂ := by
  rw [List.eraseP_append_right, List.eraseP_cons_of_pos (by simp)]
  intro b hb hpb
  have : b.1 = k := by simpa using hpb
  exact h (this ▸ mem_keys_of_mem hb)

theorem split_of_find? {l : List (K × V)} {k : K} {p : K × V}
    (h : l.find? (fun q => q.1 == k) = some p) :
    p.1 = k ∧ ∃ l₁ l₂, l = l₁ ++ p :: l₂ ∧ k ∉ keys l₁ := by
  rw [List.find?_eq_some] at h
  obtain ⟨hpk, l₁, l₂, hl, hl₁⟩ := h
  have hk : p.1 = k := by simpa using hpk
  refine ⟨hk, l₁, l₂, hl, fun hmem => ?_⟩
  obtain ⟨q, hq, hqe⟩ := List.mem_map.1 hmem
  have := hl₁ q hq
  simp [hqe] at this

theorem not_mem_keys_right_of_nodup {l₁ l₂ : List (K × V)} {k : K} {v : V}
    (hnd : (keys (l₁ ++ (k, v) :: l₂)).Nodup) : k ∉ keys l₂ := by
  have h : (keys l₁ ++ k :: keys l₂).Nodup := by simpa [keys] using hnd
  exact (List.nodup_cons.1 (List.nodup_append.1 h).2.1).1

theorem not_mem_keys_left_of_nodup {l₁ l₂ : List (K × V)} {k : K} {v : V}
    (hnd : (keys (l₁ ++ (k, v) :: l₂)).Nodup) : k ∉ keys l₁ := by
  rw [keys_append] at hnd
  intro hk
  exact (List.nodup_append.1 hnd).2.2 hk (by simp [keys])

end KeyedList

/-- C6: for every cache state and every key k that is not present, get(k)
returns absent and leaves the entire cache state unchanged, so the present
keys, their values and the recency order (hence all future eviction
decisions) are as before the call.  Stated for LRUCacheV1::LRUCache::get
(with an arbitrary key index backend) and LRUCacheV2::LRUCache::get; in
both, absence of the key means the key-map lookup misses. -/
theorem get_absent_no_side_effects {K V : Type} [DecidableEq K] [Inhabited V]
    (M : LRUCacheV1.KeyIndex K) (c1 : LRUCacheV1.CacheG K V M.State)
    (c2 : LRUCacheV2.Cache K V) (k : K)
    (h1 : M.find c1.keyMap k = none)
    (h2 : k ∉ KeyedList.keys c2.lruQueue) :
    LRUCacheV1.get M c1 k = (none, c1) ∧ LRUCacheV2.get c2 k = (none, c2) := by
  constructor
  · unfold LRUCacheV1.get
    rw [h1]
  · unfold LRUCacheV2.get
    rw [KeyedList.find?_eq_none_iff.2 h2]

/-- Witness for get_absent_no_side_effects: a concrete miss on a cache of
capacity 2 holding the key 7, probed with the absent key 3. -/
theorem get_absent_no_side_effects_witness :
    (LRUCacheV1.assocIndex Nat).find
      (LRUCacheV1.mkCache (LRUCacheV1.assocIndex Nat) Nat 2).keyMap 3 = none ∧
    3 ∉ KeyedList.keys (LRUCacheV2.Cache.mk [(7, 70)] 2).lruQueue ∧
    LRUCacheV1.get (LRUCacheV1.assocIndex Nat)
      (LRUCacheV1.mkCache (LRUCacheV1.assocIndex Nat) Nat 2) 3 =
      (none, LRUCacheV1.mkCache (LRUCacheV1.assocIndex Nat) Nat 2) ∧
    LRUCacheV2.get (LRUCacheV2.Cache.mk [(7, 70)] 2) 3 =
      (none, LRUCacheV2.Cache.mk [(7, 70)] 2) :=
  ⟨rfl, by simp [KeyedList.keys], by
    have := get_absent_no_side_effects (LRUCacheV1.assocIndex Nat)
      (LRUCacheV1.mkCache (LRUCacheV1.assocIndex Nat) Nat 2)
      (LRUCacheV2.Cache.mk [(7, 70)] 2) 3 rfl (by simp [KeyedList.keys])
    exact this.1, by
    have := get_absent_no_side_effects (LRUCacheV1.assocIndex Nat)
      (LRUCacheV1.mkCache (LRUCacheV1.assocIndex Nat) Nat 2)
      (LRUCacheV2.Cache.mk [(7, 70)] 2) 3 rfl (by simp [KeyedList.keys])
    exact this.2⟩

/-- C5: the spec declares a capacity-0 cache legal with every put completing
and every get missing.  The code disagrees: on a cache constructed with
capacity 0, the very first put of a new key reads the front of an empty
recency queue (LRUCacheV2.h line 299, LRUCacheV3.h line 122, LRUCacheV4.h
line 114, LRUCacheV6.h line 81) or erases the sentinel's
default-constructed map iterator (LRUCacheV1.h line 298, LRUCacheV5.h
line 89) -- undefined behaviour, rendered none in every embedding. -/
theorem capacity_zero_put_hits_undefined_behaviour :
    LRUCacheV1.put (LRUCacheV1.assocIndex Nat)
      (LRUCacheV1.mkCache (LRUCacheV1.assocIndex Nat) Nat 0) 1 2 = none ∧
    LRUCacheV2.put (LRUCacheV2.mkCache Nat Nat 0) 1 2 = none ∧
    LRUCacheV3.put (LRUCacheV3.mkCache Nat Nat 0) 1 2 = none ∧
    LRUCacheV4.put (LRUCacheV4.mkCache Nat Nat 0) 1 2 = none ∧
    LRUCacheV5.put (LRUCacheV1.assocIndex Nat)
      (LRUCacheV5.mkCache (LRUCacheV1.assocIndex Nat) Nat 0) 1 2 = none ∧
    LRUCacheV6.put (LRUCacheV6.mkCache Nat Nat 0) 1 2 = none :=
  ⟨rfl, rfl, rfl, rfl, rfl, rfl⟩

namespace KeyedList

variable {K V : Type} [DecidableEq K]

theorem find?_update {l : List (K × V)} {k : K} {v : V} :
    (l.map (fun p => if p.1 == k then (p.1, v) else p)).find?
        (fun p => p.1 == k) =
      (l.find? (fun p => p.1 == k)).map (fun p => (p.1, v)) := by
  induction l with
  | nil => rfl
  | cons p l ih =>
    simp only [List.map_cons]
    by_cases h : p.1 = k
    · rw [if_pos (by simpa using h), List.find?_cons_of_pos _ (by simpa using h),
        List.find?_cons_of_pos _ (by simpa using h)]
      rfl
    · rw [if_neg (by simpa using h), List.find?_cons_of_neg _ (by simpa using h),
        List.find?_cons_of_neg _ (by simpa using h)]
      exact ih

end KeyedList

/-- C7: get is idempotent on the recency order.  For a LRUCacheV2 state
with pairwise distinct present keys and a present key k, performing get(k)
twice yields exactly the same returned value and the same cache state
(hence the same present keys, values and future eviction decisions) as
performing it once, and one get(k) already leaves k at the MRU end of the
queue. -/
theorem get_idempotent_on_recency {K V : Type} [DecidableEq K]
    (c : LRUCacheV2.Cache K V) (k : K)
    (hnd : (KeyedList.keys c.lruQueue).Nodup)
    (hk : k ∈ KeyedList.keys c.lruQueue) :
    LRUCacheV2.get (LRUCacheV2.get c k).2 k = LRUCacheV2.get c k ∧
    (KeyedList.keys ((LRUCacheV2.get c k).2).lruQueue).getLast? = some k := by
  obtain ⟨p, hp⟩ : ∃ p, c.lruQueue.find? (fun q => q.1 == k) = some p := by
    cases hfind : c.lruQueue.find? (fun q => q.1 == k) with
    | none => exact absurd (KeyedList.find?_eq_none_iff.1 hfind) (by simpa using hk)
    | some p => exact ⟨p, rfl⟩
  obtain ⟨hpk, l₁, l₂, hl, hl₁⟩ := KeyedList.split_of_find? hp
  have hpeq : p = (k, p.2) := by
    cases p
    cases hpk
    rfl
  rw [hpeq] at hl
  have hl₂ : k ∉ KeyedList.keys l₂ := KeyedList.not_mem_keys_right_of_nodup (hl ▸ hnd)
  have h1 : LRUCacheV2.get c k =
      (some p.2, { c with lruQueue := (l₁ ++ l₂) ++ [(k, p.2)] }) := by
    unfold LRUCacheV2.get
    rw [hl, KeyedList.find?_of_split hl₁, KeyedList.eraseP_of_split hl₁]
  have h12 : k ∉ KeyedList.keys (l₁ ++ l₂) := by
    rw [KeyedList.keys_append]
    simp only [List.mem_append]
    rintro (h | h)
    · exact hl₁ h
    · exact hl₂ h
  constructor
  · rw [h1]
    unfold LRUCacheV2.get
    simp only
    rw [show (l₁ ++ l₂) ++ [(k, p.2)] = (l₁ ++ l₂) ++ (k, p.2) :: [] from rfl,
      KeyedList.find?_of_split h12, KeyedList.eraseP_of_split h12]
    simp
  · rw [h1]
    simp only [KeyedList.keys, List.map_append, List.map_cons, List.map_nil]
    exact List.getLast?_concat _

/-- Witness for get_idempotent_on_recency: capacity-2 cache holding keys
1 and 2, probed twice with key 1. -/
theorem get_idempotent_on_recency_witness :
    (KeyedList.keys (LRUCacheV2.Cache.mk [(1, 10), (2, 20)] 2).lruQueue).Nodup ∧
    1 ∈ KeyedList.keys (LRUCacheV2.Cache.mk [(1, 10), (2, 20)] 2).lruQueue ∧
    (LRUCacheV2.get
        (LRUCacheV2.get (LRUCacheV2.Cache.mk [(1, 10), (2, 20)] 2) 1).2 1 =
      LRUCacheV2.get (LRUCacheV2.Cache.mk [(1, 10), (2, 20)] 2) 1 ∧
     (KeyedList.keys
        ((LRUCacheV2.get (LRUCacheV2.Cache.mk [(1, 10), (2, 20)] 2) 1).2).lruQueue).getLast?
        = some 1) :=
  ⟨by simp [KeyedList.keys], by simp [KeyedList.keys],
   get_idempotent_on_recency (LRUCacheV2.Cache.mk [(1, 10), (2, 20)] 2) 1
     (by simp [KeyedList.keys]) (by simp [KeyedList.keys])⟩

/-- C3: put(k, v) returns true exactly when k was absent; when k was
present, the map size is unchanged, a subsequent get(k) returns v, and k is
moved to the MRU end of the recency queue (so of the currently present
keys it is the last in eviction order).  Stated for LRUCacheV6::put; the
outcome some (b, state) is the completed call. -/
theorem put_existing_key_updates {K V : Type} [DecidableEq K]
    (c : LRUCacheV6.Cache K V) (k : K) (v : V) (b : Bool)
    (c' : LRUCacheV6.Cache K V)
    (h : LRUCacheV6.put c k v = some (b, c')) :
    (b = false ↔ k ∈ KeyedList.keys c.keyMap) ∧
    (k ∈ KeyedList.keys c.keyMap →
      c'.keyMap.length = c.keyMap.length ∧
      (LRUCacheV6.get c' k).1 = some v ∧
      c'.lruQueue = c.lruQueue.eraseP (fun x => x == k) ++ [k] ∧
      c'.lruQueue.getLast? = some k) := by
  unfold LRUCacheV6.put at h
  cases hfind : c.keyMap.find? (fun p => p.1 == k) with
  | some p =>
    rw [hfind] at h
    simp only [Option.some.injEq, Prod.mk.injEq] at h
    obtain ⟨hb, hc⟩ := h
    have hmem : k ∈ KeyedList.keys c.keyMap := by
      have h1 := List.mem_of_find?_eq_some hfind
      have h2 : p.1 = k := by simpa using List.find?_some hfind
      exact h2 ▸ KeyedList.mem_keys_of_mem h1
    refine ⟨by simp [← hb, hmem], fun _ => ?_⟩
    subst hc
    refine ⟨by simp, ?_, rfl, List.getLast?_concat _⟩
    unfold LRUCacheV6.get
    simp only
    rw [KeyedList.find?_update, hfind]
    rfl
  | none =>
    rw [hfind] at h
    have hmem : k ∉ KeyedList.keys c.keyMap := KeyedList.find?_eq_none_iff.1 hfind
    have hb : b = true := by
      by_cases hcap : (c.keyMap ++ [(k, v)]).length > c.maxCacheSize
      · simp only [hcap, if_pos] at h
        cases hq : c.lruQueue with
        | nil => rw [hq] at h; simp at h
        | cons kf rest =>
          rw [hq] at h
          simp only [Option.some.injEq, Prod.mk.injEq] at h
          exact h.1.symm
      · simp only [hcap, if_neg, not_false_iff] at h
        simp only [Option.some.injEq, Prod.mk.injEq] at h
        exact h.1.symm
    exact ⟨by simp [hb, hmem], fun hk => absurd hk hmem⟩

/-- Witness for put_existing_key_updates: capacity-2 cache holding keys 1
and 2, put(1, 99) updates in place. -/
theorem put_existing_key_updates_witness :
    LRUCacheV6.put (LRUCacheV6.Cache.mk [(1, 10), (2, 20)] [1, 2] 2) 1 99 =
      some (false, LRUCacheV6.Cache.mk [(1, 99), (2, 20)] [2, 1] 2) ∧
    ((false = true ↔ false) ∧ True → True) ∧
    ((false = false ↔ 1 ∈ KeyedList.keys
        (LRUCacheV6.Cache.mk [(1, 10), (2, 20)] [1, 2] 2).keyMap) ∧
     (1 ∈ KeyedList.keys (LRUCacheV6.Cache.mk [(1, 10), (2, 20)] [1, 2] 2).keyMap →
       (LRUCacheV6.Cache.mk [(1, 99), (2, 20)] [2, 1] 2).keyMap.length =
         (LRUCacheV6.Cache.mk [(1, 10), (2, 20)] [1, 2] 2).keyMap.length ∧
       (LRUCacheV6.get (LRUCacheV6.Cache.mk [(1, 99), (2, 20)] [2, 1] 2) 1).1 = some 99 ∧
       (LRUCacheV6.Cache.mk [(1, 99), (2, 20)] [2, 1] 2).lruQueue =
         (LRUCacheV6.Cache.mk [(1, 10), (2, 20)] [1, 2] 2).lruQueue.eraseP
           (fun x => x == 1) ++ [1] ∧
       (LRUCacheV6.Cache.mk [(1, 99), (2, 20)] [2, 1] 2).lruQueue.getLast? = some 1)) :=
  ⟨rfl, fun _ => trivial,
   put_existing_key_updates (LRUCacheV6.Cache.mk [(1, 10), (2, 20)] [1, 2] 2)
     1 99 false (LRUCacheV6.Cache.mk [(1, 99), (2, 20)] [2, 1] 2) rfl⟩

namespace KeyedList

variable {K V : Type} [DecidableEq K]

theorem nodup_keys_append_singleton {l : List (K × V)} {k : K} {v : V}
    (hnd : (keys l).Nodup) (hk : k ∉ keys l) :
    (keys (l ++ [(k, v)])).Nodup := by
  rw [keys_append]
  refine List.nodup_append.2 ⟨hnd, List.nodup_singleton k, fun a ha hb => ?_⟩
  have : a = k := by simpa [keys] using hb
  exact hk (this ▸ ha)

theorem nodup_keys_promote {l₁ l₂ : List (K × V)} {k : K} {v w : V}
    (hnd : (keys (l₁ ++ (k, w) :: l₂)).Nodup) :
    (keys (l₁ ++ l₂ ++ [(k, v)])).Nodup := by
  have h : (keys l₁ ++ k :: keys l₂).Nodup := by simpa [keys] using hnd
  have h1 : List.Perm ([k] ++ keys l₂) (keys l₂ ++ [k]) := List.perm_append_comm
  have hperm : List.Perm (keys l₁ ++ k :: keys l₂) ((keys l₁ ++ keys l₂) ++ [k]) := by
    have h2 := List.Perm.append_left (keys l₁) h1
    simpa [List.append_assoc] using h2
  have := hperm.nodup h
  simpa [keys] using this

end KeyedList

namespace LRUCacheV2

/-- Shape of a completed put on a state with pairwise distinct present keys:
the capacity field is unchanged, the keys stay pairwise distinct, and the
queue length is unchanged on an update, unchanged on an eviction (which
only happens when the queue already holds at least maxCacheSize entries)
and grown by one otherwise. -/
theorem put_shape {K V : Type} [DecidableEq K] (c : Cache K V) (k : K) (v : V)
    (b : Bool) (c₁ : Cache K V)
    (hnd : (KeyedList.keys c.lruQueue).Nodup)
    (h : put c k v = some (b, c₁)) :
    c₁.maxCacheSize = c.maxCacheSize ∧ (KeyedList.keys c₁.lruQueue).Nodup ∧
    ((b = false ∧ c₁.lruQueue.length = c.lruQueue.length) ∨
     (b = true ∧ c.maxCacheSize ≤ c.lruQueue.length ∧
       c₁.lruQueue.length = c.lruQueue.length) ∨
     (b = true ∧ c.lruQueue.length < c.maxCacheSize ∧
       c₁.lruQueue.length = c.lruQueue.length + 1)) := by
  unfold put at h
  cases hfind : c.lruQueue.find? (fun p => p.1 == k) with
  | some p =>
    rw [hfind] at h
    simp only [Option.some.injEq, Prod.mk.injEq] at h
    obtain ⟨hb, hc⟩ := h
    obtain ⟨hpk, l₁, l₂, hl, hl₁⟩ := KeyedList.split_of_find? hfind
    have hpeq : p = (k, p.2) := by
      cases p
      cases hpk
      rfl
    rw [hpeq] at hl
    subst hc
    refine ⟨rfl, ?_, Or.inl ⟨hb.symm, ?_⟩⟩
    · rw [hl, KeyedList.eraseP_of_split hl₁]
      exact KeyedList.nodup_keys_promote (hl ▸ hnd)
    · rw [hl, KeyedList.eraseP_of_split hl₁]
      simp only [List.length_append, List.length_cons, List.length_nil]
      omega
  | none =>
    rw [hfind] at h
    have hk : k ∉ KeyedList.keys c.lruQueue := KeyedList.find?_eq_none_iff.1 hfind
    by_cases hcap : c.lruQueue.length + 1 > c.maxCacheSize
    · rw [if_pos hcap] at h
      cases hq : c.lruQueue with
      | nil => rw [hq] at h; simp at h
      | cons q0 rest =>
        rw [hq] at h hcap hnd hk
        simp only [Option.some.injEq, Prod.mk.injEq] at h
        obtain ⟨hb, hc⟩ := h
        subst hc
        have hndr : (KeyedList.keys rest).Nodup :=
          (List.nodup_cons.1 (by simpa [KeyedList.keys] using hnd)).2
        have hkr : k ∉ KeyedList.keys rest := by
          intro hmem
          refine hk ?_
          simp only [KeyedList.keys, List.map_cons, List.mem_cons]
          exact Or.inr (by simpa [KeyedList.keys] using hmem)
        refine ⟨rfl, KeyedList.nodup_keys_append_singleton hndr hkr,
          Or.inr (Or.inl ⟨hb.symm, by omega, ?_⟩)⟩
        simp
    · rw [if_neg hcap] at h
      simp only [Option.some.injEq, Prod.mk.injEq] at h
      obtain ⟨hb, hc⟩ := h
      subst hc
      refine ⟨rfl, KeyedList.nodup_keys_append_singleton hnd hk,
        Or.inr (Or.inr ⟨hb.symm, by omega, by simp⟩)⟩


/-- Running a sequence of put operations from a state whose queue length is
min maxCacheSize t for some tally t of previously accepted insertions keeps
the keys pairwise distinct and keeps the length equal to
min maxCacheSize (t + newly accepted insertions). -/
theorem runPuts_length_invariant {K V : Type} [DecidableEq K]
    (ops : List (CacheOp K V)) :
    ∀ (c : Cache K V) (t : Nat) (outs : List (CacheOut V)) (c' : Cache K V),
      (∀ op ∈ ops, ∃ k v, op = CacheOp.put k v) →
      (KeyedList.keys c.lruQueue).Nodup →
      c.lruQueue.length = min c.maxCacheSize t →
      run c ops = some (outs, c') →
      c'.maxCacheSize = c.maxCacheSize ∧
      (KeyedList.keys c'.lruQueue).Nodup ∧
      c'.lruQueue.length = min c.maxCacheSize
        (t + outs.countP CacheOut.isInsertedTrue) := by
  induction ops with
  | nil =>
    intro c t outs c' hops hnd hlen h
    simp only [run, Option.some.injEq, Prod.mk.injEq] at h
    obtain ⟨ho, hc⟩ := h
    subst hc
    subst ho
    simpa using ⟨hnd, hlen⟩
  | cons op ops ih =>
    intro c t outs c' hops hnd hlen h
    obtain ⟨k, v, rfl⟩ := hops op (by simp)
    simp only [run] at h
    cases hput : put c k v with
    | none => rw [hput] at h; simp at h
    | some r =>
      rw [hput] at h
      simp only [Option.some_bind] at h
      cases hrun : run r.2 ops with
      | none => rw [hrun] at h; simp at h
      | some s =>
        rw [hrun] at h
        simp only [Option.map_some', Option.some.injEq, Prod.mk.injEq] at h
        obtain ⟨ho, hc⟩ := h
        subst hc
        obtain ⟨hmax, hnd₁, hshape⟩ :=
          put_shape c k v r.1 r.2 hnd (by rw [hput])
        have hcount : ∀ b : Bool,
            (CacheOut.inserted b :: s.1).countP CacheOut.isInsertedTrue =
              s.1.countP CacheOut.isInsertedTrue + (if b then 1 else 0) := by
          intro b
          cases b <;> simp [List.countP_cons, CacheOut.isInsertedTrue]
        rcases hshape with ⟨hb, hlen₁⟩ | ⟨hb, hge, hlen₁⟩ | ⟨hb, hlt, hlen₁⟩
        · obtain ⟨hm, hn, hl⟩ := ih r.2 t s.1 s.2
            (fun op hop => hops op (by simp [hop])) hnd₁
            (by rw [hlen₁, hmax, hlen]) hrun
          rw [← ho]
          refine ⟨by rw [hm, hmax], hn, ?_⟩
          rw [hb]
          simp [List.countP_cons, CacheOut.isInsertedTrue, hl, hmax]
        · have hcap : c.lruQueue.length = c.maxCacheSize := by omega
          have htc : c.maxCacheSize ≤ t := by omega
          obtain ⟨hm, hn, hl⟩ := ih r.2 (t + 1) s.1 s.2
            (fun op hop => hops op (by simp [hop])) hnd₁
            (by rw [hlen₁, hmax, hcap]; omega) hrun
          rw [← ho]
          refine ⟨by rw [hm, hmax], hn, ?_⟩
          rw [hb]
          simp [List.countP_cons, CacheOut.isInsertedTrue]
          rw [hl, hmax]
          omega
        · have ht : t = c.lruQueue.length := by omega
          obtain ⟨hm, hn, hl⟩ := ih r.2 (t + 1) s.1 s.2
            (fun op hop => hops op (by simp [hop])) hnd₁
            (by rw [hlen₁, hmax]; omega) hrun
          rw [← ho]
          refine ⟨by rw [hm, hmax], hn, ?_⟩
          rw [hb]
          simp [List.countP_cons, CacheOut.isInsertedTrue]
          rw [hl, hmax]
          omega

end LRUCacheV2

/-- C2: for every capacity and every sequence of put calls that completes,
the present keys stay pairwise distinct, their number equals
min capacity (number of puts that returned true), hence never exceeds the
capacity and equals the capacity as soon as capacity insertions have been
accepted.  Stated for LRUCacheV2::LRUCache; a prefix of a put sequence is
again a put sequence, so instantiating the theorem at each prefix gives the
bound after every individual put. -/
theorem size_bounded_by_capacity {K V : Type} [DecidableEq K] (cap : Nat)
    (ops : List (CacheOp K V)) (outs : List (CacheOut V))
    (c' : LRUCacheV2.Cache K V)
    (hops : ∀ op ∈ ops, ∃ k v, op = CacheOp.put k v)
    (h : LRUCacheV2.run (LRUCacheV2.mkCache K V cap) ops = some (outs, c')) :
    (KeyedList.keys c'.lruQueue).Nodup ∧
    c'.lruQueue.length = min cap (outs.countP CacheOut.isInsertedTrue) ∧
    c'.lruQueue.length ≤ cap ∧
    (cap ≤ outs.countP CacheOut.isInsertedTrue →
      c'.lruQueue.length = cap) := by
  obtain ⟨hm, hn, hl⟩ := LRUCacheV2.runPuts_length_invariant ops
    (LRUCacheV2.mkCache K V cap) 0 outs c' hops
    (by simp [LRUCacheV2.mkCache, KeyedList.keys])
    (by simp [LRUCacheV2.mkCache]) h
  rw [show (LRUCacheV2.mkCache K V cap).maxCacheSize = cap from rfl,
    Nat.zero_add] at hl
  refine ⟨hn, hl, ?_, ?_⟩
  · rw [hl]
    exact Nat.min_le_left _ _
  · intro hc
    rw [hl]
    exact Nat.min_eq_left hc

/-- Witness for size_bounded_by_capacity: three puts of distinct keys on a
capacity-2 cache end with exactly 2 entries. -/
theorem size_bounded_by_capacity_witness :
    (∀ op ∈ [CacheOp.put 1 11, CacheOp.put 2 12, CacheOp.put 3 13],
      ∃ k v, op = CacheOp.put k (v : Nat)) ∧
    LRUCacheV2.run (LRUCacheV2.mkCache Nat Nat 2)
        [CacheOp.put 1 11, CacheOp.put 2 12, CacheOp.put 3 13] =
      some ([CacheOut.inserted true, CacheOut.inserted true, CacheOut.inserted true],
        LRUCacheV2.Cache.mk [(2, 12), (3, 13)] 2) ∧
    ((KeyedList.keys (LRUCacheV2.Cache.mk [(2, 12), (3, 13)] 2).lruQueue).Nodup ∧
     (LRUCacheV2.Cache.mk [(2, 12), (3, 13)] 2).lruQueue.length =
       min 2 (([CacheOut.inserted true, CacheOut.inserted true,
         CacheOut.inserted true] : List (CacheOut Nat)).countP
           CacheOut.isInsertedTrue) ∧
     (LRUCacheV2.Cache.mk [(2, 12), (3, 13)] 2).lruQueue.length ≤ 2 ∧
     (2 ≤ ([CacheOut.inserted true, CacheOut.inserted true,
         CacheOut.inserted true] : List (CacheOut Nat)).countP
           CacheOut.isInsertedTrue →
       (LRUCacheV2.Cache.mk [(2, 12), (3, 13)] 2).lruQueue.length = 2)) :=
  ⟨by rintro op hop
      simp only [List.mem_cons, List.not_mem_nil, or_false] at hop
      rcases hop with rfl | rfl | rfl
      · exact ⟨1, 11, rfl⟩
      · exact ⟨2, 12, rfl⟩
      · exact ⟨3, 13, rfl⟩,
   by decide,
   size_bounded_by_capacity 2
     [CacheOp.put 1 11, CacheOp.put 2 12, CacheOp.put 3 13] _ _
     (by rintro op hop
         simp only [List.mem_cons, List.not_mem_nil, or_false] at hop
         rcases hop with rfl | rfl | rfl
         · exact ⟨1, 11, rfl⟩
         · exact ⟨2, 12, rfl⟩
         · exact ⟨3, 13, rfl⟩)
     (by decide)⟩

namespace KeyedList

theorem find?_of_mem_nodup {K V : Type} [DecidableEq K] {l : List (K × V)}
    {p : K × V} (hnd : (keys l).Nodup) (hp : p ∈ l) :
    l.find? (fun q => q.1 == p.1) = some p := by
  induction l with
  | nil => cases hp
  | cons q l ih =>
    rcases List.mem_cons.1 hp with rfl | hp2
    · exact List.find?_cons_of_pos _ (by simp)
    · have hq : q.1 ∉ keys l :=
        (List.nodup_cons.1 (by simpa [keys] using hnd)).1
      have hne : (q.1 == p.1) = false := by
        simp only [beq_eq_false_iff_ne, ne_eq]
        intro he
        exact hq (he ▸ mem_keys_of_mem hp2)
      rw [List.find?_cons, hne]
      exact ih (by simpa [keys] using (List.nodup_cons.1 (by simpa [keys] using hnd)).2) hp2

end KeyedList

namespace LRUCacheV4

/-- Running a block of puts whose keys are fresh and pairwise distinct from
a state with at most maxCacheSize entries (capacity at least 1) keeps the
oldest entries only as far as the capacity allows: the final sequence is
the old entries followed by the new pairs, with the overflow dropped from
the LRU end. -/
theorem run_new_puts {K V : Type} [DecidableEq K] (ps : List (K × V)) :
    ∀ (c : Cache K V),
      (KeyedList.keys (c.entries ++ ps)).Nodup →
      c.entries.length ≤ c.maxCacheSize →
      1 ≤ c.maxCacheSize →
      ∃ outs, run c (ps.map (fun p => CacheOp.put p.1 p.2)) =
        some (outs, { c with entries := ((c.entries ++ ps).drop
          (c.entries.length + ps.length - c.maxCacheSize)) }) := by
  induction ps with
  | nil =>
    intro c hnd hlen hcap
    refine ⟨[], ?_⟩
    simp [run, Nat.sub_eq_zero_of_le hlen]
  | cons p ps ih =>
    intro c hnd hlen hcap
    obtain ⟨k, v⟩ := p
    have hk : k ∉ KeyedList.keys c.entries := by
      intro hmem
      have h2 : (KeyedList.keys c.entries ++ k :: KeyedList.keys ps).Nodup := by
        simpa [KeyedList.keys] using hnd
      exact (List.nodup_append.1 h2).2.2 hmem (by simp)
    have hfind : c.entries.find? (fun q => q.1 == k) = none :=
      KeyedList.find?_eq_none_iff.2 hk
    simp only [List.map_cons, run]
    by_cases hful : c.maxCacheSize ≤ c.entries.length
    · have hlen0 : c.entries.length = c.maxCacheSize := Nat.le_antisymm hlen hful
      cases hes : c.entries with
      | nil => rw [hes] at hlen0; simp at hlen0; omega
      | cons e rest =>
        have hput : put c k v =
            some (true, { c with entries := rest ++ [(k, v)] }) := by
          unfold put
          rw [hfind, if_pos hful, hes]
        rw [hput]
        simp only [Option.some_bind]
        have hnd₁ : (KeyedList.keys ((rest ++ [(k, v)]) ++ ps)).Nodup := by
          have h2 : (KeyedList.keys (rest ++ (k, v) :: ps)).Nodup := by
            have h3 : (KeyedList.keys ((e :: rest) ++ (k, v) :: ps)).Nodup := hes ▸ hnd
            exact (List.nodup_cons.1 (by simpa [KeyedList.keys] using h3)).2
          simpa [KeyedList.keys] using h2
        have hlen₁ : (rest ++ [(k, v)]).length ≤ c.maxCacheSize := by
          rw [hes] at hlen0
          simp only [List.length_append, List.length_cons, List.length_nil] at hlen0 ⊢
          omega
        obtain ⟨outs, hrun⟩ := ih { c with entries := rest ++ [(k, v)] }
          hnd₁ hlen₁ hcap
        rw [hrun]
        refine ⟨CacheOut.inserted true :: outs, ?_⟩
        simp only [Option.map_some', Option.some.injEq, Prod.mk.injEq]
        refine ⟨trivial, ?_⟩
        have hdl : (rest ++ [(k, v)]) ++ ps = rest ++ (k, v) :: ps := by simp
        have hm : (rest ++ [(k, v)]).length + ps.length - c.maxCacheSize =
            ps.length := by
          rw [hes] at hlen0
          simp only [List.length_append, List.length_cons, List.length_nil] at hlen0 ⊢
          omega
        have hn : (e :: rest).length + ((k, v) :: ps).length - c.maxCacheSize =
            ps.length + 1 := by
          rw [hes] at hlen0
          simp only [List.length_append, List.length_cons, List.length_nil] at hlen0 ⊢
          omega
        rw [hdl, hm, hn]
        simp only [List.cons_append, List.drop_succ_cons]
    · have hput : put c k v =
          some (true, { c with entries := c.entries ++ [(k, v)] }) := by
        unfold put
        rw [hfind, if_neg hful]
      rw [hput]
      simp only [Option.some_bind]
      have hnd₁ : (KeyedList.keys ((c.entries ++ [(k, v)]) ++ ps)).Nodup := by
        simpa [KeyedList.keys] using hnd
      have hlen₁ : (c.entries ++ [(k, v)]).length ≤ c.maxCacheSize := by
        simp only [List.length_append, List.length_cons, List.length_nil]
        omega
      obtain ⟨outs, hrun⟩ := ih { c with entries := c.entries ++ [(k, v)] }
        hnd₁ hlen₁ hcap
      rw [hrun]
      refine ⟨CacheOut.inserted true :: outs, ?_⟩
      simp only [Option.map_some', Option.some.injEq, Prod.mk.injEq]
      refine ⟨trivial, ?_⟩
      have hdl : (c.entries ++ [(k, v)]) ++ ps = c.entries ++ (k, v) :: ps := by simp
      have hm : (c.entries ++ [(k, v)]).length + ps.length =
          c.entries.length + ((k, v) :: ps).length := by
        simp only [List.length_append, List.length_cons, List.length_nil]
        omega
      rw [hdl, hm]

end LRUCacheV4

/-- C1: for every capacity N >= 1 and N+1 puts of pairwise distinct keys
k1..k(N+1) from a freshly constructed cache with no intervening get, the
run completes, the remaining entries are exactly those of k2..k(N+1) (k1,
the LRU, was evicted by the last put), get(k1) reports absent, and get(ki)
returns the value stored for ki for every i in 2..N+1.  Stated for
LRUCacheV4::LRUCache. -/
theorem eviction_order_after_distinct_puts {K V : Type} [DecidableEq K]
    (N : Nat) (hN : 1 ≤ N) (p0 : K × V) (prest : List (K × V))
    (hlen : (p0 :: prest).length = N + 1)
    (hnd : (KeyedList.keys (p0 :: prest)).Nodup) :
    ∃ outs c', LRUCacheV4.run (LRUCacheV4.mkCache K V N)
        ((p0 :: prest).map (fun p => CacheOp.put p.1 p.2)) = some (outs, c') ∧
      c'.entries = prest ∧
      (LRUCacheV4.get c' p0.1).1 = none ∧
      ∀ p ∈ prest, (LRUCacheV4.get c' p.1).1 = some p.2 := by
  obtain ⟨outs, hrun⟩ := LRUCacheV4.run_new_puts (p0 :: prest)
    (LRUCacheV4.mkCache K V N) (by simpa [LRUCacheV4.mkCache] using hnd)
    (by simp [LRUCacheV4.mkCache]) hN
  have hdrop : (((LRUCacheV4.mkCache K V N).entries ++ p0 :: prest).drop
      ((LRUCacheV4.mkCache K V N).entries.length + (p0 :: prest).length -
        (LRUCacheV4.mkCache K V N).maxCacheSize)) = prest := by
    simp only [LRUCacheV4.mkCache, List.nil_append, List.length_nil, Nat.zero_add]
    rw [hlen, Nat.add_sub_cancel_left, List.drop_one]
    rfl
  rw [hdrop] at hrun
  refine ⟨outs, _, hrun, rfl, ?_, ?_⟩
  · have hk : p0.1 ∉ KeyedList.keys prest :=
      (List.nodup_cons.1 (by simpa [KeyedList.keys] using hnd)).1
    unfold LRUCacheV4.get
    rw [KeyedList.find?_eq_none_iff.2 hk]
  · intro p hp
    have hndr : (KeyedList.keys prest).Nodup :=
      (List.nodup_cons.1 (by simpa [KeyedList.keys] using hnd)).2
    unfold LRUCacheV4.get
    rw [KeyedList.find?_of_mem_nodup hndr hp]

/-- Witness for eviction_order_after_distinct_puts: capacity 2, keys
1, 2, 3; after the third put, key 1 is absent and keys 2 and 3 hold their
values. -/
theorem eviction_order_after_distinct_puts_witness :
    1 ≤ 2 ∧ ([(1, 11), (2, 12), (3, 13)] : List (Nat × Nat)).length = 2 + 1 ∧
    (KeyedList.keys ([(1, 11), (2, 12), (3, 13)] : List (Nat × Nat))).Nodup ∧
    (∃ outs c', LRUCacheV4.run (LRUCacheV4.mkCache Nat Nat 2)
        (([(1, 11), (2, 12), (3, 13)] : List (Nat × Nat)).map
          (fun p => CacheOp.put p.1 p.2)) = some (outs, c') ∧
      c'.entries = [(2, 12), (3, 13)] ∧
      (LRUCacheV4.get c' 1).1 = none ∧
      ∀ p ∈ ([(2, 12), (3, 13)] : List (Nat × Nat)),
        (LRUCacheV4.get c' p.1).1 = some p.2) :=
  ⟨by decide, by decide, by decide,
   eviction_order_after_distinct_puts 2 (by decide) (1, 11) [(2, 12), (3, 13)]
     (by decide) (by decide)⟩

namespace KeyedList

theorem find?_update_ne {K V : Type} [DecidableEq K] {l : List (K × V)}
    {k k' : K} {v : V} (hne : k' ≠ k) :
    (l.map (fun p => if p.1 == k then (p.1, v) else p)).find?
        (fun p => p.1 == k') =
      l.find? (fun p => p.1 == k') := by
  induction l with
  | nil => rfl
  | cons p l ih =>
    simp only [List.map_cons]
    by_cases h : p.1 = k
    · rw [if_pos (by simpa using h)]
      have hne2 : ((p.1, v).1 == k') = false := by
        simp only [beq_eq_false_iff_ne, ne_eq]
        intro he
        exact hne (by rw [← he, h])
      have hne3 : (p.1 == k') = false := by simpa using hne2
      rw [List.find?_cons, List.find?_cons]
      simp only [hne3]
      exact ih
    · rw [if_neg (by simpa using h)]
      rw [List.find?_cons, List.find?_cons]
      cases hpk : (p.1 == k') with
      | true => rfl
      | false => exact ih

theorem find?_eraseP_ne {K V : Type} [DecidableEq K] {l : List (K × V)}
    {k k' : K} (hnd : (keys l).Nodup) (hne : k' ≠ k) :
    (l.eraseP (fun p => p.1 == k)).find? (fun p => p.1 == k') =
      l.find? (fun p => p.1 == k') := by
  cases hfind : l.find? (fun p => p.1 == k) with
  | none =>
    rw [List.eraseP_eq_self_iff.2 ?_]
    intro p hp hpk
    have h1 : l.find? (fun p => p.1 == k) ≠ none := by
      intro h2
      rw [List.find?_eq_none] at h2
      exact h2 p hp hpk
    exact h1 hfind
  | some p =>
    obtain ⟨hpk, l₁, l₂, hl, hl₁⟩ := split_of_find? hfind
    have hpeq : p = (k, p.2) := by
      cases p
      cases hpk
      rfl
    rw [hpeq] at hl
    rw [hl, eraseP_of_split hl₁]
    rw [List.find?_append, List.find?_append, List.find?_cons]
    have : ((k, p.2).1 == k') = false := by
      simp only [beq_eq_false_iff_ne, ne_eq]
      intro he
      exact hne he.symm
    simp only [this]

theorem find?_eraseP_self {K V : Type} [DecidableEq K] {l : List (K × V)}
    {k : K} (hnd : (keys l).Nodup) :
    (l.eraseP (fun p => p.1 == k)).find? (fun p => p.1 == k) = none := by
  cases hfind : l.find? (fun p => p.1 == k) with
  | none =>
    rw [List.eraseP_eq_self_iff.2 ?_]
    · exact hfind
    · intro p hp hpk
      have h1 : l.find? (fun p => p.1 == k) ≠ none := by
        intro h2
        rw [List.find?_eq_none] at h2
        exact h2 p hp hpk
      exact h1 hfind
  | some p =>
    obtain ⟨hpk, l₁, l₂, hl, hl₁⟩ := split_of_find? hfind
    have hpeq : p = (k, p.2) := by
      cases p
      cases hpk
      rfl
    rw [hpeq] at hl
    have hl₂ : k ∉ keys l₂ := not_mem_keys_right_of_nodup (hl ▸ hnd)
    rw [hl, eraseP_of_split hl₁]
    rw [find?_eq_none_iff, keys_append]
    simp only [List.mem_append]
    rintro (h | h)
    · exact hl₁ h
    · exact hl₂ h

theorem keys_map_update {K V : Type} [DecidableEq K] (l : List (K × V))
    (k : K) (v : V) :
    keys (l.map (fun p => if p.1 == k then (p.1, v) else p)) = keys l := by
  induction l with
  | nil => rfl
  | cons p l ih =>
    simp only [List.map_cons, keys, List.map_cons] at ih ⊢
    by_cases h : p.1 = k
    · rw [if_pos (by simpa using h)]
      simpa using ih
    · rw [if_neg (by simpa using h)]
      simpa using ih

theorem nodup_keys_eraseP {K V : Type} [DecidableEq K] {l : List (K × V)}
    {k : K} (hnd : (keys l).Nodup) :
    (keys (l.eraseP (fun p => p.1 == k))).Nodup := by
  have hsub : (l.eraseP (fun p => p.1 == k)).Sublist l := List.eraseP_sublist l
  exact List.Nodup.sublist (List.Sublist.map Prod.fst hsub) hnd

end KeyedList

namespace LRUCacheV1

/-- The behavioural contract of a Key Index backend, stated over its Good
states (states an actual map can be in, e.g. with pairwise distinct keys):
find/insert-if-absent/assign-through-iterator/erase-through-iterator/size
behave as an associative container.  Every map backend offered by the C++
templates (std::map, boost::container::map, std::unordered_map,
boost::unordered_map, emilib::HashMap) satisfies this contract regardless
of its hash function or allocator. -/
structure LawfulKeyIndex {K : Type} [DecidableEq K] (M : KeyIndex K) : Prop where
  good_empty : ∀ n, M.Good (M.empty n)
  find_empty : ∀ n k, M.find (M.empty n) k = none
  size_empty : ∀ n, M.size (M.empty n) = 0
  tryEmplace_found : ∀ s k i j, M.Good s → M.find s k = some i →
    M.tryEmplace s k j = (s, i, false)
  tryEmplace_ret : ∀ s k j, M.Good s → M.find s k = none →
    (M.tryEmplace s k j).2 = (j, true)
  good_tryEmplace : ∀ s k j, M.Good s → M.Good (M.tryEmplace s k j).1
  find_tryEmplace : ∀ s k j k', M.Good s → M.find s k = none →
    M.find (M.tryEmplace s k j).1 k' = if k' = k then some j else M.find s k'
  size_tryEmplace : ∀ s k j, M.Good s → M.find s k = none →
    M.size (M.tryEmplace s k j).1 = M.size s + 1
  good_updateAt : ∀ s k j, M.Good s → M.Good (M.updateAt s k j)
  find_updateAt : ∀ s k j k' i, M.Good s → M.find s k = some i →
    M.find (M.updateAt s k j) k' = if k' = k then some j else M.find s k'
  size_updateAt : ∀ s k j, M.Good s → M.size (M.updateAt s k j) = M.size s
  good_eraseAt : ∀ s k, M.Good s → M.Good (M.eraseAt s k)
  find_eraseAt : ∀ s k k', M.Good s →
    M.find (M.eraseAt s k) k' = if k' = k then none else M.find s k'
  size_eraseAt : ∀ s k, M.Good s →
    M.size (M.eraseAt s k) =
      if (M.find s k).isSome then M.size s - 1 else M.size s

theorem mapFind_eq_none_iff {K : Type} [DecidableEq K] {s : List (K × Nat)}
    {k : K} :
    mapFind s k = none ↔ s.find? (fun p => p.1 == k) = none := by
  unfold mapFind
  cases s.find? (fun p => p.1 == k) <;> simp

theorem mapFind_append_fresh {K : Type} [DecidableEq K] {s : List (K × Nat)}
    {k : K} {j : Nat} (hf : s.find? (fun p => p.1 == k) = none) (k' : K) :
    mapFind (s ++ [(k, j)]) k' = if k' = k then some j else mapFind s k' := by
  unfold mapFind
  rw [List.find?_append]
  by_cases hk : k' = k
  · subst hk
    rw [hf]
    simp
  · have h5 : ([(k, j)] : List (K × Nat)).find? (fun p => p.1 == k') = none := by
      rw [List.find?_cons, List.find?_nil]
      have : ((k, j).1 == k') = false := by
        simp only [beq_eq_false_iff_ne, ne_eq]
        intro he
        exact hk he.symm
      simp only [this]
    rw [h5, if_neg hk]
    cases s.find? (fun p => p.1 == k') <;> rfl

/-- The canonical association-list Key Index satisfies the backend
contract. -/
theorem assocIndex_lawful (K : Type) [DecidableEq K] :
    LawfulKeyIndex (assocIndex K) := by
  refine ⟨?_, ?_, ?_, ?_, ?_, ?_, ?_, ?_, ?_, ?_, ?_, ?_, ?_, ?_⟩
  · intro n
    show (KeyedList.keys ([] : List (K × Nat))).Nodup
    simp [KeyedList.keys]
  · intro n k
    rfl
  · intro n
    rfl
  · intro s k i j hg hf
    show mapTryEmplace s k j = (s, i, false)
    unfold mapTryEmplace
    rw [show mapFind s k = some i from hf]
  · intro s k j hg hf
    show (mapTryEmplace s k j).2 = (j, true)
    unfold mapTryEmplace
    rw [show mapFind s k = none from hf]
  · intro s k j hg
    show (KeyedList.keys (mapTryEmplace s k j).1).Nodup
    have hg' : (KeyedList.keys s).Nodup := hg
    unfold mapTryEmplace
    cases hf : mapFind s k with
    | some i => exact hg'
    | none =>
      exact KeyedList.nodup_keys_append_singleton hg'
        (KeyedList.find?_eq_none_iff.1 (mapFind_eq_none_iff.1 hf))
  · intro s k j k' hg hf
    show mapFind (mapTryEmplace s k j).1 k' =
      if k' = k then some j else mapFind s k'
    unfold mapTryEmplace
    rw [show mapFind s k = none from hf]
    exact mapFind_append_fresh (mapFind_eq_none_iff.1 hf) k'
  · intro s k j hg hf
    show ((mapTryEmplace s k j).1).length = s.length + 1
    unfold mapTryEmplace
    rw [show mapFind s k = none from hf]
    simp
  · intro s k j hg
    show (KeyedList.keys (mapUpdateAt s k j)).Nodup
    have hg' : (KeyedList.keys s).Nodup := hg
    unfold mapUpdateAt
    rw [KeyedList.keys_map_update]
    exact hg'
  · intro s k j k' i hg hf
    show mapFind (mapUpdateAt s k j) k' = if k' = k then some j else mapFind s k'
    by_cases hk : k' = k
    · subst hk
      have hf' : Option.map Prod.snd (s.find? (fun p => p.1 == k')) = some i := hf
      cases h3 : s.find? (fun p => p.1 == k') with
      | none => rw [h3] at hf'; simp at hf'
      | some p =>
        unfold mapUpdateAt mapFind
        rw [KeyedList.find?_update, h3, if_pos rfl]
        rfl
    · unfold mapUpdateAt mapFind
      rw [KeyedList.find?_update_ne hk, if_neg hk]
  · intro s k j hg
    show (mapUpdateAt s k j).length = s.length
    unfold mapUpdateAt
    simp
  · intro s k hg
    show (KeyedList.keys (mapEraseAt s k)).Nodup
    have hg' : (KeyedList.keys s).Nodup := hg
    unfold mapEraseAt
    exact KeyedList.nodup_keys_eraseP hg'
  · intro s k k' hg
    show mapFind (mapEraseAt s k) k' = if k' = k then none else mapFind s k'
    have hg' : (KeyedList.keys s).Nodup := hg
    unfold mapEraseAt mapFind
    by_cases hk : k' = k
    · subst hk
      rw [KeyedList.find?_eraseP_self hg', if_pos rfl]
      rfl
    · rw [KeyedList.find?_eraseP_ne hg' hk, if_neg hk]
  · intro s k hg
    show (mapEraseAt s k).length =
      if (mapFind s k).isSome then s.length - 1 else s.length
    unfold mapEraseAt mapFind
    cases hfind : s.find? (fun p => p.1 == k) with
    | none =>
      rw [List.eraseP_eq_self_iff.2 ?_]
      · simp
      · intro p hp hpk
        rw [List.find?_eq_none] at hfind
        exact hfind p hp hpk
    | some p =>
      have hmem := List.mem_of_find?_eq_some hfind
      have hpk := List.find?_some hfind
      rw [List.length_eraseP_of_mem hmem hpk]
      simp

end LRUCacheV1

namespace LRUCacheV1

/-- Two backend states that agree on find and size drive get to the same
outcome and the same entries, without touching either key map. -/
theorem get_backend_step {K V : Type} [DecidableEq K] [Inhabited V]
    (M₁ M₂ : KeyIndex K) (c₁ : CacheG K V M₁.State) (c₂ : CacheG K V M₂.State)
    (he : c₁.entries = c₂.entries)
    (hf : ∀ k', M₁.find c₁.keyMap k' = M₂.find c₂.keyMap k') (k : K) :
    (get M₁ c₁ k).1 = (get M₂ c₂ k).1 ∧
    (get M₁ c₁ k).2.entries = (get M₂ c₂ k).2.entries ∧
    (get M₁ c₁ k).2.keyMap = c₁.keyMap ∧
    (get M₂ c₂ k).2.keyMap = c₂.keyMap ∧
    (get M₁ c₁ k).2.maxCacheSize = c₁.maxCacheSize ∧
    (get M₂ c₂ k).2.maxCacheSize = c₂.maxCacheSize := by
  unfold get
  rw [hf k, he]
  cases M₂.find c₂.keyMap k with
  | none => exact ⟨rfl, he, rfl, rfl, rfl, rfl⟩
  | some i => exact ⟨rfl, rfl, rfl, rfl, rfl, rfl⟩

/-- Two backend states that agree on find and size drive put to the same
result: both hit the same undefined behaviour, or both produce the same
bool and entries and their key maps agree again. -/
theorem put_backend_step {K V : Type} [DecidableEq K] [Inhabited V]
    (M₁ M₂ : KeyIndex K) (h₁ : LawfulKeyIndex M₁) (h₂ : LawfulKeyIndex M₂)
    (c₁ : CacheG K V M₁.State) (c₂ : CacheG K V M₂.State)
    (he : c₁.entries = c₂.entries) (hm : c₁.maxCacheSize = c₂.maxCacheSize)
    (hg₁ : M₁.Good c₁.keyMap) (hg₂ : M₂.Good c₂.keyMap)
    (hf : ∀ k', M₁.find c₁.keyMap k' = M₂.find c₂.keyMap k')
    (hs : M₁.size c₁.keyMap = M₂.size c₂.keyMap) (k : K) (v : V) :
    (put M₁ c₁ k v = none ∧ put M₂ c₂ k v = none) ∨
    (∃ b d₁ d₂, put M₁ c₁ k v = some (b, d₁) ∧ put M₂ c₂ k v = some (b, d₂) ∧
      d₁.entries = d₂.entries ∧ d₁.maxCacheSize = c₁.maxCacheSize ∧
      d₂.maxCacheSize = c₂.maxCacheSize ∧
      M₁.Good d₁.keyMap ∧ M₂.Good d₂.keyMap ∧
      (∀ k', M₁.find d₁.keyMap k' = M₂.find d₂.keyMap k') ∧
      M₁.size d₁.keyMap = M₂.size d₂.keyMap) := by
  cases hfk : M₁.find c₁.keyMap k with
  | some i =>
    have hfk₂ : M₂.find c₂.keyMap k = some i := by rw [← hf k, hfk]
    have htr₁ := h₁.tryEmplace_found c₁.keyMap k i (M₁.size c₁.keyMap + 1) hg₁ hfk
    have htr₂ := h₂.tryEmplace_found c₂.keyMap k i (M₂.size c₂.keyMap + 1) hg₂ hfk₂
    have hput₁ : put M₁ c₁ k v = some (false, { c₁ with entries := (pushIntoQueue
        (seti c₁.entries i { geti c₁.entries i with value := v }) i) }) := by
      unfold put
      rw [htr₁]
      rfl
    have hput₂ : put M₂ c₂ k v = some (false, { c₂ with entries := (pushIntoQueue
        (seti c₂.entries i { geti c₂.entries i with value := v }) i) }) := by
      unfold put
      rw [htr₂]
      rfl
    have hent : pushIntoQueue (seti c₁.entries i
          { geti c₁.entries i with value := v }) i =
        pushIntoQueue (seti c₂.entries i
          { geti c₂.entries i with value := v }) i := by
      rw [he]
    exact Or.inr ⟨false, _, _, hput₁, hput₂, hent, rfl, rfl, hg₁, hg₂, hf, hs⟩
  | none =>
    have hfk₂ : M₂.find c₂.keyMap k = none := by rw [← hf k, hfk]
    have hret₁ := h₁.tryEmplace_ret c₁.keyMap k (M₁.size c₁.keyMap + 1) hg₁ hfk
    have hret₂ := h₂.tryEmplace_ret c₂.keyMap k (M₂.size c₂.keyMap + 1) hg₂ hfk₂
    set km₁ := (M₁.tryEmplace c₁.keyMap k (M₁.size c₁.keyMap + 1)).1 with hkm₁
    set km₂ := (M₂.tryEmplace c₂.keyMap k (M₂.size c₂.keyMap + 1)).1 with hkm₂
    have hgood₁ : M₁.Good km₁ :=
      h₁.good_tryEmplace c₁.keyMap k (M₁.size c₁.keyMap + 1) hg₁
    have hgood₂ : M₂.Good km₂ :=
      h₂.good_tryEmplace c₂.keyMap k (M₂.size c₂.keyMap + 1) hg₂
    have hfind₁ : ∀ k', M₁.find km₁ k' =
        if k' = k then some (M₁.size c₁.keyMap + 1) else M₁.find c₁.keyMap k' :=
      fun k' => h₁.find_tryEmplace c₁.keyMap k (M₁.size c₁.keyMap + 1) k' hg₁ hfk
    have hfind₂ : ∀ k', M₂.find km₂ k' =
        if k' = k then some (M₂.size c₂.keyMap + 1) else M₂.find c₂.keyMap k' :=
      fun k' => h₂.find_tryEmplace c₂.keyMap k (M₂.size c₂.keyMap + 1) k' hg₂ hfk₂
    have hsize₁ : M₁.size km₁ = M₁.size c₁.keyMap + 1 :=
      h₁.size_tryEmplace c₁.keyMap k (M₁.size c₁.keyMap + 1) hg₁ hfk
    have hsize₂ : M₂.size km₂ = M₂.size c₂.keyMap + 1 :=
      h₂.size_tryEmplace c₂.keyMap k (M₂.size c₂.keyMap + 1) hg₂ hfk₂
    have hfind12 : ∀ k', M₁.find km₁ k' = M₂.find km₂ k' := by
      intro k'
      rw [hfind₁ k', hfind₂ k', hs, hf k']
    have hsize12 : M₁.size km₁ = M₂.size km₂ := by rw [hsize₁, hsize₂, hs]
    have hput₁ : put M₁ c₁ k v = finishPutOperation M₁
        { c₁ with keyMap := km₁ } k true (M₁.size c₁.keyMap + 1) v := by
      unfold put
      have hh : M₁.tryEmplace c₁.keyMap k (M₁.size c₁.keyMap + 1) =
          (km₁, M₁.size c₁.keyMap + 1, true) := by
        rw [hkm₁, ← hret₁]
      rw [hh]
    have hput₂ : put M₂ c₂ k v = finishPutOperation M₂
        { c₂ with keyMap := km₂ } k true (M₂.size c₂.keyMap + 1) v := by
      unfold put
      have hh : M₂.tryEmplace c₂.keyMap k (M₂.size c₂.keyMap + 1) =
          (km₂, M₂.size c₂.keyMap + 1, true) := by
        rw [hkm₂, ← hret₂]
      rw [hh]
    rw [hput₁, hput₂]
    unfold finishPutOperation
    rw [if_neg (by decide : ¬(true = false)), if_neg (by decide : ¬(true = false))]
    simp only
    rw [← hs, ← hm, ← he]
    by_cases hcap : M₁.size c₁.keyMap + 1 ≤ c₁.maxCacheSize
    · rw [if_pos hcap, if_pos hcap]
      exact Or.inr ⟨true, _, _, rfl, rfl, rfl, rfl, by rw [hm],
        hgood₁, hgood₂, hfind12, hsize12⟩
    · rw [if_neg hcap, if_neg hcap]
      cases hloc : (geti c₁.entries (geti c₁.entries 0).next).keyLocation with
      | none => exact Or.inl ⟨rfl, rfl⟩
      | some kOld =>
        have hidx : M₁.find km₁ k = some (M₁.size c₁.keyMap + 1) := by
          rw [hfind₁ k]
          simp
        have hidx₂ : M₂.find km₂ k = some (M₂.size c₂.keyMap + 1) := by
          rw [hfind₂ k]
          simp
        set q := (geti c₁.entries 0).next with hq
        have hup₁ : ∀ k', M₁.find (M₁.updateAt km₁ k q) k' =
            if k' = k then some q else M₁.find km₁ k' :=
          fun k' => h₁.find_updateAt km₁ k q k' (M₁.size c₁.keyMap + 1) hgood₁ hidx
        have hup₂ : ∀ k', M₂.find (M₂.updateAt km₂ k q) k' =
            if k' = k then some q else M₂.find km₂ k' :=
          fun k' => h₂.find_updateAt km₂ k q k' (M₂.size c₂.keyMap + 1) hgood₂ hidx₂
        have hgup₁ := h₁.good_updateAt km₁ k q hgood₁
        have hgup₂ := h₂.good_updateAt km₂ k q hgood₂
        have hsup₁ := h₁.size_updateAt km₁ k q hgood₁
        have hsup₂ := h₂.size_updateAt km₂ k q hgood₂
        have hfindu : ∀ k', M₁.find (M₁.updateAt km₁ k q) k' =
            M₂.find (M₂.updateAt km₂ k q) k' := by
          intro k'
          rw [hup₁ k', hup₂ k', hfind12 k']
        have hsizeu : M₁.size (M₁.updateAt km₁ k q) =
            M₂.size (M₂.updateAt km₂ k q) := by
          rw [hsup₁, hsup₂, hsize12]
        refine Or.inr ⟨true, _, _, rfl, rfl, rfl, rfl, by rw [hm],
          h₁.good_eraseAt _ kOld hgup₁, h₂.good_eraseAt _ kOld hgup₂, ?_, ?_⟩
        · intro k'
          rw [h₁.find_eraseAt _ kOld k' hgup₁, h₂.find_eraseAt _ kOld k' hgup₂,
            hfindu k']
        · rw [h₁.size_eraseAt _ kOld hgup₁, h₂.size_eraseAt _ kOld hgup₂,
            hfindu kOld, hsizeu]

end LRUCacheV1

namespace LRUCacheV1

/-- Runs over two lawful Key Index backends agree step by step: either both
hit the same undefined behaviour, or they produce the same outcome list and
end with the same entries and key maps that agree on every lookup. -/
theorem run_backend_agree {K V : Type} [DecidableEq K] [Inhabited V]
    (M₁ M₂ : KeyIndex K) (h₁ : LawfulKeyIndex M₁) (h₂ : LawfulKeyIndex M₂)
    (ops : List (CacheOp K V)) :
    ∀ (c₁ : CacheG K V M₁.State) (c₂ : CacheG K V M₂.State),
      c₁.entries = c₂.entries → c₁.maxCacheSize = c₂.maxCacheSize →
      M₁.Good c₁.keyMap → M₂.Good c₂.keyMap →
      (∀ k, M₁.find c₁.keyMap k = M₂.find c₂.keyMap k) →
      M₁.size c₁.keyMap = M₂.size c₂.keyMap →
      ((run M₁ c₁ ops = none ∧ run M₂ c₂ ops = none) ∨
       (∃ o d₁ d₂, run M₁ c₁ ops = some (o, d₁) ∧ run M₂ c₂ ops = some (o, d₂) ∧
         d₁.entries = d₂.entries ∧
         (∀ k, M₁.find d₁.keyMap k = M₂.find d₂.keyMap k))) := by
  induction ops with
  | nil =>
    intro c₁ c₂ he hm hg₁ hg₂ hf hs
    exact Or.inr ⟨[], c₁, c₂, rfl, rfl, he, hf⟩
  | cons op ops ih =>
    intro c₁ c₂ he hm hg₁ hg₂ hf hs
    cases op with
    | get k =>
      obtain ⟨ho, hent, hkm₁, hkm₂, hmax₁, hmax₂⟩ :=
        get_backend_step M₁ M₂ c₁ c₂ he hf k
      have hrec := ih (get M₁ c₁ k).2 (get M₂ c₂ k).2 hent
        (by rw [hmax₁, hmax₂, hm]) (by rw [hkm₁]; exact hg₁)
        (by rw [hkm₂]; exact hg₂) (by rw [hkm₁, hkm₂]; exact hf)
        (by rw [hkm₁, hkm₂]; exact hs)
      rcases hrec with ⟨hn₁, hn₂⟩ | ⟨o, d₁, d₂, hr₁, hr₂, hde, hdf⟩
      · left
        constructor <;> simp [run, hn₁, hn₂]
      · right
        refine ⟨CacheOut.got ((get M₁ c₁ k).1) :: o, d₁, d₂, ?_, ?_, hde, hdf⟩
        · simp [run, hr₁]
        · simp [run, hr₂, ← ho]
    | put k v =>
      rcases put_backend_step M₁ M₂ h₁ h₂ c₁ c₂ he hm hg₁ hg₂ hf hs k v with
        ⟨hn₁, hn₂⟩ | ⟨b, d₁, d₂, hp₁, hp₂, hde, hdm₁, hdm₂, hdg₁, hdg₂, hdf, hds⟩
      · left
        constructor <;> simp [run, hn₁, hn₂]
      · have hrec := ih d₁ d₂ hde (by rw [hdm₁, hdm₂, hm]) hdg₁ hdg₂ hdf hds
        rcases hrec with ⟨hn₁, hn₂⟩ | ⟨o, e₁, e₂, hr₁, hr₂, hee, hef⟩
        · left
          constructor <;> simp [run, hp₁, hp₂, hn₁, hn₂]
        · right
          refine ⟨CacheOut.inserted b :: o, e₁, e₂, ?_, ?_, hee, hef⟩
          · simp [run, hp₁, hr₁]
          · simp [run, hp₂, hr₂]

end LRUCacheV1

/-- C10: get and put are deterministic and independent of the Key Index
backend: for any two lawful backends (covering every hash function and
allocator choice of the C++ templates), caches constructed with the same
capacity and driven by the same operation sequence either both run into the
same undefined behaviour or produce the identical outcome list and end in
observationally identical states (same entries vector, key maps agreeing
on every lookup).  Outputs at every step are the prefix outputs of a longer
run, so instantiating the theorem at each prefix gives agreement after
every operation. -/
theorem run_independent_of_key_index_backend {K V : Type} [DecidableEq K]
    [Inhabited V] (M₁ M₂ : LRUCacheV1.KeyIndex K)
    (h₁ : LRUCacheV1.LawfulKeyIndex M₁) (h₂ : LRUCacheV1.LawfulKeyIndex M₂)
    (cap : Nat) (ops : List (CacheOp K V)) :
    (LRUCacheV1.run M₁ (LRUCacheV1.mkCache M₁ V cap) ops = none ∧
     LRUCacheV1.run M₂ (LRUCacheV1.mkCache M₂ V cap) ops = none) ∨
    (∃ o d₁ d₂,
      LRUCacheV1.run M₁ (LRUCacheV1.mkCache M₁ V cap) ops = some (o, d₁) ∧
      LRUCacheV1.run M₂ (LRUCacheV1.mkCache M₂ V cap) ops = some (o, d₂) ∧
      d₁.entries = d₂.entries ∧
      (∀ k, M₁.find d₁.keyMap k = M₂.find d₂.keyMap k)) :=
  LRUCacheV1.run_backend_agree M₁ M₂ h₁ h₂ ops
    (LRUCacheV1.mkCache M₁ V cap) (LRUCacheV1.mkCache M₂ V cap) rfl rfl
    (h₁.good_empty (2 * cap)) (h₂.good_empty (2 * cap))
    (fun k => by
      simp only [LRUCacheV1.mkCache]
      rw [h₁.find_empty, h₂.find_empty])
    (by
      simp only [LRUCacheV1.mkCache]
      rw [h₁.size_empty, h₂.size_empty])

/-- Witness for run_independent_of_key_index_backend: both backends are the
association-list index, capacity 1, four operations. -/
theorem run_independent_of_key_index_backend_witness :
    LRUCacheV1.LawfulKeyIndex (LRUCacheV1.assocIndex Nat) ∧
    ((LRUCacheV1.run (LRUCacheV1.assocIndex Nat)
        (LRUCacheV1.mkCache (LRUCacheV1.assocIndex Nat) Nat 1)
        [CacheOp.put 1 2, CacheOp.get 1, CacheOp.put 3 4, CacheOp.get 1] = none ∧
      LRUCacheV1.run (LRUCacheV1.assocIndex Nat)
        (LRUCacheV1.mkCache (LRUCacheV1.assocIndex Nat) Nat 1)
        [CacheOp.put 1 2, CacheOp.get 1, CacheOp.put 3 4, CacheOp.get 1] = none) ∨
     (∃ o d₁ d₂,
       LRUCacheV1.run (LRUCacheV1.assocIndex Nat)
         (LRUCacheV1.mkCache (LRUCacheV1.assocIndex Nat) Nat 1)
         [CacheOp.put 1 2, CacheOp.get 1, CacheOp.put 3 4, CacheOp.get 1] =
           some (o, d₁) ∧
       LRUCacheV1.run (LRUCacheV1.assocIndex Nat)
         (LRUCacheV1.mkCache (LRUCacheV1.assocIndex Nat) Nat 1)
         [CacheOp.put 1 2, CacheOp.get 1, CacheOp.put 3 4, CacheOp.get 1] =
           some (o, d₂) ∧
       d₁.entries = d₂.entries ∧
       (∀ k, (LRUCacheV1.assocIndex Nat).find d₁.keyMap k =
         (LRUCacheV1.assocIndex Nat).find d₂.keyMap k))) :=
  ⟨LRUCacheV1.assocIndex_lawful Nat,
   run_independent_of_key_index_backend
     (LRUCacheV1.assocIndex Nat) (LRUCacheV1.assocIndex Nat)
     (LRUCacheV1.assocIndex_lawful Nat) (LRUCacheV1.assocIndex_lawful Nat) 1
     [CacheOp.put 1 2, CacheOp.get 1, CacheOp.put 3 4, CacheOp.get 1]⟩

namespace LRUCacheV1

variable {K V : Type} [Inhabited V]

/-- The next pointer of the recency-list node at index i. -/
def nextIdx (es : List (Entry K V)) (i : Nat) : Nat := (geti es i).next

/-- The prev pointer of the recency-list node at index i. -/
def prevIdx (es : List (Entry K V)) (i : Nat) : Nat := (geti es i).prev

theorem geti_seti (es : List (Entry K V)) (x j : Nat) (e : Entry K V) :
    geti (seti es x e) j =
      if x = j ∧ x < es.length then e else geti es j := by
  unfold geti seti
  rw [List.getElem?_set]
  by_cases h : x = j
  · subst h
    by_cases hl : x < es.length
    · simp [hl]
    · rw [List.getElem?_eq_none (Nat.le_of_not_lt hl)]
      simp [hl]
  · simp [h]

theorem geti_seti_self {es : List (Entry K V)} {x : Nat} (e : Entry K V)
    (h : x < es.length) : geti (seti es x e) x = e := by
  rw [geti_seti]
  simp [h]

theorem geti_seti_ne {es : List (Entry K V)} {x j : Nat} (e : Entry K V)
    (h : x ≠ j) : geti (seti es x e) j = geti es j := by
  rw [geti_seti]
  simp [h]

theorem length_seti (es : List (Entry K V)) (x : Nat) (e : Entry K V) :
    (seti es x e).length = es.length := List.length_set ..

theorem pushIntoQueue_length (es : List (Entry K V)) (i : Nat) :
    (pushIntoQueue es i).length = es.length := by
  unfold pushIntoQueue
  simp [seti, List.length_set]

/-- Two entry vectors carrying the same value and keyLocation at every
index; pushIntoQueue only rewires next/prev, so it preserves this. -/
def SameVK (es es' : List (Entry K V)) : Prop :=
  ∀ j, (geti es' j).value = (geti es j).value ∧
       (geti es' j).keyLocation = (geti es j).keyLocation

theorem SameVK.refl (es : List (Entry K V)) : SameVK es es :=
  fun _ => ⟨rfl, rfl⟩

theorem SameVK.trans {es₁ es₂ es₃ : List (Entry K V)}
    (h₁ : SameVK es₁ es₂) (h₂ : SameVK es₂ es₃) : SameVK es₁ es₃ :=
  fun j => ⟨(h₂ j).1.trans (h₁ j).1, (h₂ j).2.trans (h₁ j).2⟩

theorem sameVK_seti (es : List (Entry K V)) (x : Nat) (e : Entry K V)
    (hv : e.value = (geti es x).value)
    (hk : e.keyLocation = (geti es x).keyLocation) :
    SameVK es (seti es x e) := by
  intro j
  rw [geti_seti]
  by_cases h : x = j ∧ x < es.length
  · rw [if_pos h]
    rw [h.1] at hv hk
    exact ⟨hv, hk⟩
  · rw [if_neg h]
    exact ⟨rfl, rfl⟩

set_option maxHeartbeats 2000000 in
theorem pushIntoQueue_sameVK (es : List (Entry K V)) (i : Nat) :
    SameVK es (pushIntoQueue es i) := by
  unfold pushIntoQueue
  refine SameVK.trans ?_ (sameVK_seti _ _ _ rfl rfl)
  refine SameVK.trans ?_ (sameVK_seti _ _ _ rfl rfl)
  refine SameVK.trans ?_ (sameVK_seti _ _ _ rfl rfl)
  refine SameVK.trans ?_ (sameVK_seti _ _ _ rfl rfl)
  refine SameVK.trans ?_ (sameVK_seti _ _ _ rfl rfl)
  refine SameVK.trans ?_ (sameVK_seti _ _ _ rfl rfl)
  exact SameVK.refl es

/-- Chain es a l: starting from node a, the next pointers run through the
indices of l in order, with matching prev pointers back. -/
def Chain (es : List (Entry K V)) : Nat → List Nat → Prop
  | _, [] => True
  | a, b :: l => nextIdx es a = b ∧ prevIdx es b = a ∧ Chain es b l

/-- The entries form the circular doubly linked recency list
0 -> l1 -> ... -> lm -> 0 (sentinel first, LRU to MRU). -/
def RingOK (es : List (Entry K V)) (L : List Nat) : Prop :=
  Chain es 0 (L ++ [0])

theorem chain_append {es : List (Entry K V)} (l₁ l₂ : List Nat) :
    ∀ a, Chain es a (l₁ ++ l₂) ↔ Chain es a l₁ ∧ Chain es (l₁.getLastD a) l₂ := by
  induction l₁ with
  | nil =>
    intro a
    simp [Chain, List.getLastD_nil]
  | cons b l₁ ih =>
    intro a
    simp only [List.cons_append, Chain, List.getLastD_cons, List.append_eq,
      ih b, and_assoc]

theorem chain_frame {es es' : List (Entry K V)} :
    ∀ (a : Nat) (l : List Nat), Chain es a l →
    (∀ x ∈ (a :: l).dropLast, nextIdx es' x = nextIdx es x) →
    (∀ x ∈ l, prevIdx es' x = prevIdx es x) →
    Chain es' a l := by
  intro a l
  induction l generalizing a with
  | nil => intro _ _ _; trivial
  | cons b l ih =>
    intro h hn hp
    obtain ⟨h1, h2, h3⟩ := h
    refine ⟨?_, ?_, ih b h3 ?_ ?_⟩
    · rw [hn a (by rw [List.dropLast_cons₂]; exact List.mem_cons_self a _), h1]
    · rw [hp b (List.mem_cons_self b l), h2]
    · intro x hx
      exact hn x (by rw [List.dropLast_cons₂]; exact List.mem_cons_of_mem a hx)
    · intro x hx
      exact hp x (List.mem_cons_of_mem b hx)

end LRUCacheV1

namespace LRUCacheV1

theorem entry_next_eta {K V : Type} (r : Entry K V) {a : Nat} (h : r.next = a) :
    ({ r with next := a } : Entry K V) = r := by
  cases r
  cases h
  rfl

theorem entry_prev_eta {K V : Type} (r : Entry K V) {a : Nat} (h : r.prev = a) :
    ({ r with prev := a } : Entry K V) = r := by
  cases r
  cases h
  rfl


/-- Master pointwise description of the recency-list splice
pushIntoQueue (LRUCacheV1.h lines 305-315) for a node i linked inside the
ring: p is i's predecessor, b its successor (never the sentinel 0 here),
and m the sentinel's predecessor (the MRU node).  The splice rewires
p.next to b, b.prev to p, and relinks i between m and the sentinel; every
other link is unchanged.  The aliasings p = 0 (i is the LRU node) and
b = m (b is the MRU node) are permitted. -/
theorem pushIntoQueue_links {K V : Type} [Inhabited V] {es : List (Entry K V)}
    {i p b m : Nat}
    (hp : prevIdx es i = p) (hn : nextIdx es i = b) (hm : prevIdx es 0 = m)
    (hpi : p ≠ i) (hpb : p ≠ b) (hpm : p ≠ m)
    (hbi : b ≠ i) (hb0 : b ≠ 0)
    (hmi : m ≠ i) (hm0 : m ≠ 0) (hi0 : i ≠ 0)
    (hplen : p < es.length) (hblen : b < es.length) (hmlen : m < es.length)
    (hilen : i < es.length) (h0len : 0 < es.length) :
    ∀ x,
      nextIdx (pushIntoQueue es i) x =
        (if x = m then i else if x = i then 0 else if x = p then b
         else nextIdx es x) ∧
      prevIdx (pushIntoQueue es i) x =
        (if x = 0 then i else if x = i then m else if x = b then p
         else prevIdx es x) := by
  have hip := Ne.symm hpi
  have hib := Ne.symm hbi
  have him := Ne.symm hmi
  have hbp := Ne.symm hpb
  have hmp := Ne.symm hpm
  have h0i := Ne.symm hi0
  have h0b := Ne.symm hb0
  have h0m := Ne.symm hm0
  simp only [nextIdx, prevIdx] at hp hn hm
  intro x
  by_cases hp0 : p = 0
  · subst hp0
    by_cases hbm : b = m
    · subst hbm
      by_cases hxb : x = b
      · simp [pushIntoQueue, nextIdx, prevIdx, geti_seti, length_seti, *]
      · by_cases hxi : x = i
        · simp [pushIntoQueue, nextIdx, prevIdx, geti_seti, length_seti, *]
        · by_cases hx0 : x = 0
          · simp [pushIntoQueue, nextIdx, prevIdx, geti_seti, length_seti, *]
          · simp [pushIntoQueue, nextIdx, prevIdx, geti_seti, length_seti, *,
              Ne.symm hxb, Ne.symm hxi, Ne.symm hx0]
    · by_cases hxm : x = m
      · simp [pushIntoQueue, nextIdx, prevIdx, geti_seti, length_seti, *,
          Ne.symm hbm]
      · by_cases hxi : x = i
        · simp [pushIntoQueue, nextIdx, prevIdx, geti_seti, length_seti, *,
            Ne.symm hbm]
        · by_cases hxb : x = b
          · simp [pushIntoQueue, nextIdx, prevIdx, geti_seti, length_seti, *,
              Ne.symm hbm]
          · by_cases hx0 : x = 0
            · simp [pushIntoQueue, nextIdx, prevIdx, geti_seti, length_seti, *,
                Ne.symm hbm]
            · simp [pushIntoQueue, nextIdx, prevIdx, geti_seti, length_seti, *,
                Ne.symm hbm, Ne.symm hxm, Ne.symm hxi, Ne.symm hxb, Ne.symm hx0]
  · by_cases hbm : b = m
    · subst hbm
      by_cases hxb : x = b
      · simp [pushIntoQueue, nextIdx, prevIdx, geti_seti, length_seti, *,
          Ne.symm hp0]
      · by_cases hxi : x = i
        · simp [pushIntoQueue, nextIdx, prevIdx, geti_seti, length_seti, *,
            Ne.symm hp0]
        · by_cases hxp : x = p
          · simp [pushIntoQueue, nextIdx, prevIdx, geti_seti, length_seti, *,
              Ne.symm hp0]
          · by_cases hx0 : x = 0
            · simp [pushIntoQueue, nextIdx, prevIdx, geti_seti, length_seti, *,
                Ne.symm hp0]
            · simp [pushIntoQueue, nextIdx, prevIdx, geti_seti, length_seti, *,
                Ne.symm hp0, Ne.symm hxb, Ne.symm hxi, Ne.symm hxp, Ne.symm hx0]
    · by_cases hxm : x = m
      · simp [pushIntoQueue, nextIdx, prevIdx, geti_seti, length_seti, *,
          Ne.symm hp0, Ne.symm hbm]
      · by_cases hxi : x = i
        · simp [pushIntoQueue, nextIdx, prevIdx, geti_seti, length_seti, *,
            Ne.symm hp0, Ne.symm hbm]
        · by_cases hxp : x = p
          · simp [pushIntoQueue, nextIdx, prevIdx, geti_seti, length_seti, *,
              Ne.symm hp0, Ne.symm hbm]
          · by_cases hxb : x = b
            · simp [pushIntoQueue, nextIdx, prevIdx, geti_seti, length_seti, *,
                Ne.symm hp0, Ne.symm hbm]
            · by_cases hx0 : x = 0
              · simp [pushIntoQueue, nextIdx, prevIdx, geti_seti, length_seti, *,
                  Ne.symm hp0, Ne.symm hbm]
              · simp [pushIntoQueue, nextIdx, prevIdx, geti_seti, length_seti, *,
                  Ne.symm hp0, Ne.symm hbm, Ne.symm hxm, Ne.symm hxi,
                  Ne.symm hxp, Ne.symm hxb, Ne.symm hx0]


/-- pushIntoQueue applied to the node i that is already the MRU entry
(its successor is the sentinel and it is the sentinel's predecessor)
leaves every link of the ring unchanged: the temporary unlinking writes
are all undone by the relinking writes. -/
theorem pushIntoQueue_links_mru {K V : Type} [Inhabited V]
    {es : List (Entry K V)} {i p : Nat}
    (hp : prevIdx es i = p) (hn : nextIdx es i = 0) (hm : prevIdx es 0 = i)
    (hpn : nextIdx es p = i)
    (hpi : p ≠ i) (hi0 : i ≠ 0)
    (hplen : p < es.length) (hilen : i < es.length) (h0len : 0 < es.length) :
    ∀ x,
      nextIdx (pushIntoQueue es i) x = nextIdx es x ∧
      prevIdx (pushIntoQueue es i) x = prevIdx es x := by
  have hip := Ne.symm hpi
  have h0i := Ne.symm hi0
  simp only [nextIdx, prevIdx] at hp hn hm hpn
  intro x
  by_cases hp0 : p = 0
  · subst hp0
    by_cases hxi : x = i
    · simp [pushIntoQueue, nextIdx, prevIdx, geti_seti, length_seti, *]
    · by_cases hx0 : x = 0
      · simp [pushIntoQueue, nextIdx, prevIdx, geti_seti, length_seti, *]
      · simp [pushIntoQueue, nextIdx, prevIdx, geti_seti, length_seti, *,
          Ne.symm hxi, Ne.symm hx0]
  · by_cases hxi : x = i
    · simp [pushIntoQueue, nextIdx, prevIdx, geti_seti, length_seti, *,
        Ne.symm hp0]
    · by_cases hxp : x = p
      · simp [pushIntoQueue, nextIdx, prevIdx, geti_seti, length_seti, *,
          Ne.symm hp0]
      · by_cases hx0 : x = 0
        · simp [pushIntoQueue, nextIdx, prevIdx, geti_seti, length_seti, *,
            Ne.symm hp0]
        · simp [pushIntoQueue, nextIdx, prevIdx, geti_seti, length_seti, *,
            Ne.symm hp0, Ne.symm hxi, Ne.symm hxp, Ne.symm hx0]

/-- pushIntoQueue applied to a freshly appended self-linked node i (its
next and prev both point at itself, as built by finishPutOperation's
insertion branch) links i in front of the sentinel: the previous MRU m
now points at i, i points at the sentinel, and the sentinel's prev
becomes i.  The aliasing m = 0 (empty ring) is permitted. -/
theorem pushIntoQueue_links_fresh {K V : Type} [Inhabited V]
    {es : List (Entry K V)} {i m : Nat}
    (hni : nextIdx es i = i) (hpri : prevIdx es i = i) (hm : prevIdx es 0 = m)
    (hmi : m ≠ i) (hi0 : i ≠ 0)
    (hmlen : m < es.length) (hilen : i < es.length) (h0len : 0 < es.length) :
    ∀ x,
      nextIdx (pushIntoQueue es i) x =
        (if x = m then i else if x = i then 0 else nextIdx es x) ∧
      prevIdx (pushIntoQueue es i) x =
        (if x = 0 then i else if x = i then m else prevIdx es x) := by
  have him := Ne.symm hmi
  have h0i := Ne.symm hi0
  simp only [nextIdx, prevIdx] at hni hpri hm
  intro x
  by_cases hm0 : m = 0
  · subst hm0
    by_cases hxi : x = i
    · simp [pushIntoQueue, nextIdx, prevIdx, geti_seti, length_seti, *]
    · by_cases hx0 : x = 0
      · simp [pushIntoQueue, nextIdx, prevIdx, geti_seti, length_seti, *]
      · simp [pushIntoQueue, nextIdx, prevIdx, geti_seti, length_seti, *,
          Ne.symm hxi, Ne.symm hx0]
  · by_cases hxi : x = i
    · simp [pushIntoQueue, nextIdx, prevIdx, geti_seti, length_seti, *,
        Ne.symm hm0]
    · by_cases hxm : x = m
      · simp [pushIntoQueue, nextIdx, prevIdx, geti_seti, length_seti, *,
          Ne.symm hm0]
      · by_cases hx0 : x = 0
        · simp [pushIntoQueue, nextIdx, prevIdx, geti_seti, length_seti, *,
            Ne.symm hm0]
        · simp [pushIntoQueue, nextIdx, prevIdx, geti_seti, length_seti, *,
            Ne.symm hm0, Ne.symm hxi, Ne.symm hxm, Ne.symm hx0]

end LRUCacheV1

namespace LRUCacheV1

theorem mem_cons_getLastD {α : Type} (l : List α) (a : α) :
    l.getLastD a ∈ a :: l := by
  induction l generalizing a with
  | nil => simp [List.getLastD_nil]
  | cons b l ih =>
    rw [List.getLastD_cons]
    exact List.mem_cons_of_mem a (ih b)

theorem getLastD_not_mem_dropLast {α : Type} {a : α} {l : List α}
    (h : (a :: l).Nodup) : l.getLastD a ∉ (a :: l).dropLast := by
  induction l generalizing a with
  | nil => simp [List.getLastD_nil]
  | cons b l ih =>
    rw [List.getLastD_cons, List.dropLast_cons₂]
    intro hmem
    rcases List.mem_cons.1 hmem with he | hmem2
    · have ha : a ∉ b :: l := (List.nodup_cons.1 h).1
      exact ha (he ▸ mem_cons_getLastD l b)
    · exact ih (List.nodup_cons.1 h).2 hmem2

variable {K V : Type} [Inhabited V]

/-- Promotion surgery on the ring: splicing the linked node i out and
relinking it in front of the sentinel turns the ring A ++ i :: B into
A ++ B ++ [i]. -/
theorem ring_promote {es : List (Entry K V)} {A B : List Nat} {i : Nat}
    (hring : RingOK es (A ++ i :: B))
    (hnd : (0 :: (A ++ i :: B)).Nodup)
    (hb : ∀ j ∈ A ++ i :: B, j < es.length)
    (h0 : 0 < es.length) :
    RingOK (pushIntoQueue es i) (A ++ B ++ [i]) := by
  obtain ⟨h0notin, hndL⟩ := List.nodup_cons.1 hnd
  obtain ⟨hAnd, hiBnd, hdisj⟩ := List.nodup_append.1 hndL
  obtain ⟨hinotB, hBnd⟩ := List.nodup_cons.1 hiBnd
  have himem : i ∈ A ++ i :: B := List.mem_append_right A (List.mem_cons_self i B)
  have hi0 : i ≠ 0 := fun he => h0notin (he ▸ himem)
  have hilen : i < es.length := hb i himem
  have hchain : Chain es 0 (A ++ (i :: (B ++ [0]))) := by
    have he : (A ++ i :: B) ++ [0] = A ++ (i :: (B ++ [0])) := by simp
    exact he ▸ hring
  rw [chain_append] at hchain
  obtain ⟨hChA, hnpn, hprevI, hChB0⟩ := hchain
  have hpmem : A.getLastD 0 ∈ 0 :: A := mem_cons_getLastD A 0
  have hpi : A.getLastD 0 ≠ i := by
    rcases List.mem_cons.1 hpmem with he | hmem
    · rw [he]; exact Ne.symm hi0
    · exact fun hc => hdisj hmem (hc ▸ List.mem_cons_self i B)
  have hplen : A.getLastD 0 < es.length := by
    rcases List.mem_cons.1 hpmem with he | hmem
    · rw [he]; exact h0
    · exact hb _ (List.mem_append_left _ hmem)
  have hpnotA : A.getLastD 0 ∉ (0 :: A).dropLast :=
    getLastD_not_mem_dropLast (List.nodup_cons.2
      ⟨fun hm => h0notin (List.mem_append_left _ hm), hAnd⟩)
  cases B with
  | nil =>
    obtain ⟨hn, hm, -⟩ := hChB0
    have hL := pushIntoQueue_links_mru hprevI hn hm hnpn hpi hi0
      hplen hilen h0
    have hgoal : Chain (pushIntoQueue es i) 0 ((A ++ i :: ([] : List Nat)) ++ [0]) := by
      refine chain_frame 0 _ hring ?_ ?_
      · intro x _; exact (hL x).1
      · intro x _; exact (hL x).2
    show Chain (pushIntoQueue es i) 0 ((A ++ ([] : List Nat) ++ [i]) ++ [0])
    rw [show (A ++ ([] : List Nat) ++ [i]) ++ [0] = (A ++ i :: ([] : List Nat)) ++ [0]
      by simp]
    exact hgoal
  | cons b B' =>
    obtain ⟨hn, hprevB, hChB'⟩ := hChB0
    have hChB'' : Chain es b (B' ++ [0]) := hChB'
    rw [chain_append] at hChB''
    obtain ⟨hChB2, hmn, hm, -⟩ := hChB''
    have hmmem : B'.getLastD b ∈ b :: B' := mem_cons_getLastD B' b
    have hbmem : b ∈ A ++ i :: (b :: B') :=
      List.mem_append_right A (List.mem_cons_of_mem i (List.mem_cons_self b B'))
    have hmmem2 : B'.getLastD b ∈ A ++ i :: (b :: B') :=
      List.mem_append_right A (List.mem_cons_of_mem i hmmem)
    have hb0 : b ≠ 0 := fun he => h0notin (he ▸ hbmem)
    have hm0 : B'.getLastD b ≠ 0 := fun he => h0notin (he ▸ hmmem2)
    have hbi : b ≠ i := fun he => hinotB (he ▸ List.mem_cons_self b B')
    have hmi : B'.getLastD b ≠ i := fun he => hinotB (he ▸ hmmem)
    have hpb : A.getLastD 0 ≠ b := by
      rcases List.mem_cons.1 hpmem with he | hmem
      · rw [he]; exact Ne.symm hb0
      · exact fun hc => hdisj hmem (by
          rw [hc]; exact List.mem_cons_of_mem i (List.mem_cons_self b B'))
    have hpm : A.getLastD 0 ≠ B'.getLastD b := by
      rcases List.mem_cons.1 hpmem with he | hmem
      · rw [he]; exact Ne.symm hm0
      · exact fun hc => hdisj hmem (hc ▸ List.mem_cons_of_mem i hmmem)
    have hblen : b < es.length := hb b hbmem
    have hmlen : B'.getLastD b < es.length := hb _ hmmem2
    have hL := pushIntoQueue_links hprevI hn hm hpi hpb hpm hbi hb0 hmi hm0
      hi0 hplen hblen hmlen hilen h0
    have hfn : ∀ x, x ≠ A.getLastD 0 → x ≠ i → x ≠ B'.getLastD b →
        nextIdx (pushIntoQueue es i) x = nextIdx es x := by
      intro x h1 h2 h3
      have hx := (hL x).1
      rw [if_neg h3, if_neg h2, if_neg h1] at hx
      exact hx
    have hfp : ∀ x, x ≠ b → x ≠ i → x ≠ 0 →
        prevIdx (pushIntoQueue es i) x = prevIdx es x := by
      intro x h1 h2 h3
      have hx := (hL x).2
      rw [if_neg h3, if_neg h2, if_neg h1] at hx
      exact hx
    show Chain (pushIntoQueue es i) 0 ((A ++ (b :: B') ++ [i]) ++ [0])
    rw [show (A ++ (b :: B') ++ [i]) ++ [0] = A ++ (b :: (B' ++ [i, 0])) by simp]
    rw [chain_append]
    refine ⟨?_, ?_, ?_, ?_⟩
    · refine chain_frame 0 A hChA ?_ ?_
      · intro x hx
        have hxmem : x ∈ 0 :: A := (List.dropLast_sublist (0 :: A)).subset hx
        refine hfn x (fun hc => hpnotA (hc ▸ hx)) ?_ ?_
        · rcases List.mem_cons.1 hxmem with he2 | hmem
          · rw [he2]; exact Ne.symm hi0
          · exact fun hc => hdisj hmem (hc ▸ List.mem_cons_self i _)
        · rcases List.mem_cons.1 hxmem with he2 | hmem
          · rw [he2]; exact Ne.symm hm0
          · exact fun hc => hdisj hmem (hc ▸ List.mem_cons_of_mem i hmmem)
      · intro x hx
        refine hfp x ?_ ?_ ?_
        · exact fun hc => hdisj hx (by
            rw [hc]; exact List.mem_cons_of_mem i (List.mem_cons_self b B'))
        · exact fun hc => hdisj hx (by rw [hc]; exact List.mem_cons_self i _)
        · exact fun hc => h0notin (hc ▸ List.mem_append_left _ hx)
    · have hx := (hL (A.getLastD 0)).1
      rw [if_neg hpm, if_neg hpi, if_pos rfl] at hx
      exact hx
    · have hx := (hL b).2
      rw [if_neg hb0, if_neg hbi, if_pos rfl] at hx
      exact hx
    · rw [chain_append]
      refine ⟨?_, ?_, ?_, ?_, ?_⟩
      · refine chain_frame b B' hChB2 ?_ ?_
        · intro x hx
          have hxmem : x ∈ b :: B' := (List.dropLast_sublist (b :: B')).subset hx
          refine hfn x ?_ ?_ ?_
          · rcases List.mem_cons.1 hpmem with he2 | hmem
            · exact fun hc => h0notin (he2 ▸ hc ▸ List.mem_append_right A
                (List.mem_cons_of_mem i hxmem))
            · exact fun hc => hdisj hmem (hc ▸ List.mem_cons_of_mem i hxmem)
          · exact fun hc => hinotB (hc ▸ hxmem)
          · exact fun hc => getLastD_not_mem_dropLast hBnd (hc ▸ hx)
        · intro x hx
          refine hfp x ?_ ?_ ?_
          · exact fun hc => (List.nodup_cons.1 hBnd).1 (hc ▸ hx)
          · exact fun hc => hinotB (hc ▸ List.mem_cons_of_mem b hx)
          · exact fun hc => h0notin (hc ▸ List.mem_append_right A
              (List.mem_cons_of_mem i (List.mem_cons_of_mem b hx)))
      · have hx := (hL (B'.getLastD b)).1
        rw [if_pos rfl] at hx
        exact hx
      · have hx := (hL i).2
        rw [if_neg hi0, if_pos rfl] at hx
        exact hx
      · have hx := (hL i).1
        rw [if_neg (Ne.symm hmi), if_pos rfl] at hx
        exact hx
      · have hx := (hL 0).2
        rw [if_pos rfl] at hx
        exact ⟨hx, trivial⟩

end LRUCacheV1

namespace LRUCacheV1

variable {K V : Type} [Inhabited V]

/-- Insertion surgery on the ring: pushing a fresh self-linked node i
(not yet part of the ring) appends it at the MRU end, turning the ring L
into L ++ [i]. -/
theorem ring_fresh {es : List (Entry K V)} {L : List Nat} {i : Nat}
    (hring : RingOK es L) (hnd : (0 :: L).Nodup) (hiL : i ∉ 0 :: L)
    (hni : nextIdx es i = i) (hpri : prevIdx es i = i)
    (hb : ∀ j ∈ L, j < es.length) (hilen : i < es.length)
    (h0 : 0 < es.length) :
    RingOK (pushIntoQueue es i) (L ++ [i]) := by
  have hi0 : i ≠ 0 := fun he => hiL (he ▸ List.mem_cons_self 0 L)
  have hchain : Chain es 0 (L ++ [0]) := hring
  rw [chain_append] at hchain
  obtain ⟨hChL, hmn, hm, -⟩ := hchain
  have hmmem : L.getLastD 0 ∈ 0 :: L := mem_cons_getLastD L 0
  have hmi : L.getLastD 0 ≠ i := fun he => hiL (he ▸ hmmem)
  have hmlen : L.getLastD 0 < es.length := by
    rcases List.mem_cons.1 hmmem with he | hmem
    · rw [he]; exact h0
    · exact hb _ hmem
  have hL := pushIntoQueue_links_fresh hni hpri hm hmi hi0 hmlen hilen h0
  show Chain (pushIntoQueue es i) 0 ((L ++ [i]) ++ [0])
  rw [show (L ++ [i]) ++ [0] = L ++ [i, 0] by simp]
  rw [chain_append]
  refine ⟨?_, ?_, ?_, ?_, ?_⟩
  · refine chain_frame 0 L hChL ?_ ?_
    · intro x hx
      have hxmem : x ∈ 0 :: L := (List.dropLast_sublist (0 :: L)).subset hx
      have h1 : x ≠ L.getLastD 0 := fun hc => getLastD_not_mem_dropLast hnd (hc ▸ hx)
      have h2 : x ≠ i := fun hc => hiL (hc ▸ hxmem)
      have hxn := (hL x).1
      rw [if_neg h1, if_neg h2] at hxn
      exact hxn
    · intro x hx
      have h1 : x ≠ 0 := fun hc => (List.nodup_cons.1 hnd).1 (hc ▸ hx)
      have h2 : x ≠ i := fun hc => hiL (hc ▸ List.mem_cons_of_mem 0 hx)
      have hxp := (hL x).2
      rw [if_neg h1, if_neg h2] at hxp
      exact hxp
  · have hx := (hL (L.getLastD 0)).1
    rw [if_pos rfl] at hx
    exact hx
  · have hx := (hL i).2
    rw [if_neg hi0, if_pos rfl] at hx
    exact hx
  · have hx := (hL i).1
    rw [if_neg (Ne.symm hmi), if_pos rfl] at hx
    exact hx
  · have hx := (hL 0).2
    rw [if_pos rfl] at hx
    exact ⟨hx, trivial⟩

end LRUCacheV1

namespace LRUCacheV1

theorem forall2_append {α β : Type} {R : α → β → Prop} :
    ∀ {l₁ l₂ : List α} {q₁ q₂ : List β}, List.Forall₂ R l₁ q₁ →
      List.Forall₂ R l₂ q₂ → List.Forall₂ R (l₁ ++ l₂) (q₁ ++ q₂) := by
  intro l₁
  induction l₁ with
  | nil =>
    intro l₂ q₁ q₂ h1 h2
    cases h1
    exact h2
  | cons a l₁ ih =>
    intro l₂ q₁ q₂ h1 h2
    cases h1 with
    | cons hab h1' => exact List.Forall₂.cons hab (ih h1' h2)

theorem forall2_mem_right {α β : Type} {R : α → β → Prop} :
    ∀ {l : List α} {q : List β}, List.Forall₂ R l q → ∀ {b}, b ∈ q →
      ∃ a ∈ l, R a b := by
  intro l
  induction l with
  | nil =>
    intro q h b hb
    cases h
    cases hb
  | cons a l ih =>
    intro q h b hb
    cases h with
    | cons hab h' =>
      rcases List.mem_cons.1 hb with he | hm
      · exact ⟨a, List.mem_cons_self a l, he ▸ hab⟩
      · obtain ⟨a', ha', hr⟩ := ih h' hm
        exact ⟨a', List.mem_cons_of_mem a ha', hr⟩

theorem forall2_split_left {α β : Type} {R : α → β → Prop} :
    ∀ {A : List α} {j : α} {B : List α} {q : List β},
      List.Forall₂ R (A ++ j :: B) q →
      ∃ qA pr qB, q = qA ++ pr :: qB ∧ List.Forall₂ R A qA ∧ R j pr ∧
        List.Forall₂ R B qB ∧ qA.length = A.length := by
  intro A
  induction A with
  | nil =>
    intro j B q h
    cases h with
    | cons hab h' => exact ⟨[], _, _, rfl, List.Forall₂.nil, hab, h', rfl⟩
  | cons a A ih =>
    intro j B q h
    cases h with
    | cons hab h' =>
      obtain ⟨qA, pr, qB, he, h1, h2, h3, hl⟩ := ih h'
      exact ⟨_ :: qA, pr, qB, by rw [he]; rfl, List.Forall₂.cons hab h1, h2, h3,
        by simp [hl]⟩

theorem forall2_imp_entry {α β : Type} {R S : α → β → Prop}
    (h : ∀ a b, R a b → S a b) :
    ∀ {l : List α} {q : List β}, List.Forall₂ R l q → List.Forall₂ S l q := by
  intro l
  induction l with
  | nil =>
    intro q hf
    cases hf
    exact List.Forall₂.nil
  | cons a l ih =>
    intro q hf
    cases hf with
    | cons hab hf' => exact List.Forall₂.cons (h _ _ hab) (ih hf')

theorem forall2_length {α β : Type} {R : α → β → Prop} :
    ∀ {l : List α} {q : List β}, List.Forall₂ R l q → l.length = q.length := by
  intro l
  induction l with
  | nil =>
    intro q h
    cases h
    rfl
  | cons a l ih =>
    intro q h
    cases h with
    | cons _ h' => simp [ih h']

theorem perm_promote {α : Type} (A B : List α) (j : α) :
    (A ++ j :: B).Perm (A ++ B ++ [j]) := by
  have h1 : (A ++ j :: B).Perm (j :: (A ++ B)) := List.perm_middle
  have h2 : (j :: (A ++ B)).Perm ((A ++ B) ++ [j]) :=
    (List.perm_append_singleton j (A ++ B)).symm
  exact h1.trans h2

variable {K V : Type} [Inhabited V]

theorem geti_append_lt {es : List (Entry K V)} {j : Nat} (e : Entry K V)
    (h : j < es.length) : geti (es ++ [e]) j = geti es j := by
  unfold geti
  rw [List.getElem?_append, if_pos h]

theorem geti_append_len (es : List (Entry K V)) (e : Entry K V) :
    geti (es ++ [e]) es.length = e := by
  unfold geti
  rw [List.getElem?_concat_length]
  rfl

theorem links_seti_vk {es : List (Entry K V)} {j : Nat} {e : Entry K V}
    (hn : e.next = (geti es j).next) (hp : e.prev = (geti es j).prev) :
    ∀ x, nextIdx (seti es j e) x = nextIdx es x ∧
         prevIdx (seti es j e) x = prevIdx es x := by
  intro x
  simp only [nextIdx, prevIdx, geti_seti]
  by_cases h : j = x ∧ j < es.length
  · rw [if_pos h, hn, hp, h.1]
    exact ⟨rfl, rfl⟩
  · rw [if_neg h]
    exact ⟨rfl, rfl⟩

theorem chain_of_links_eq {es es' : List (Entry K V)}
    (h : ∀ x, nextIdx es' x = nextIdx es x ∧ prevIdx es' x = prevIdx es x) :
    ∀ {a : Nat} {l : List Nat}, Chain es a l → Chain es' a l := by
  intro a l hc
  exact chain_frame a l hc (fun x _ => (h x).1) (fun x _ => (h x).2)

theorem ringOK_append {es : List (Entry K V)} {L : List Nat} (e : Entry K V)
    (hring : RingOK es L) (hb : ∀ j ∈ L, j < es.length)
    (h0 : 0 < es.length) :
    RingOK (es ++ [e]) L := by
  refine chain_frame 0 (L ++ [0]) hring ?_ ?_
  · intro x hx
    have hxm : x ∈ 0 :: (L ++ [0]) := (List.dropLast_sublist _).subset hx
    have hlt : x < es.length := by
      rcases List.mem_cons.1 hxm with he | hm
      · rw [he]; exact h0
      · rcases List.mem_append.1 hm with h1 | h2
        · exact hb x h1
        · rw [List.mem_singleton.1 h2]; exact h0
    simp only [nextIdx, geti_append_lt e hlt]
  · intro x hx
    have hlt : x < es.length := by
      rcases List.mem_append.1 hx with h1 | h2
      · exact hb x h1
      · rw [List.mem_singleton.1 h2]; exact h0
    simp only [prevIdx, geti_append_lt e hlt]

/-- One live ring node viewed as a key/value pair of the sequenced
model. -/
def EntryAbs (es : List (Entry K V)) (j : Nat) (pr : K × V) : Prop :=
  (geti es j).keyLocation = some pr.1 ∧ (geti es j).value = pr.2

/-- Abstraction relation between an LRUCacheV1 state (entries vector with
its circular recency ring and a key-index state) and the sequenced model
of LRUCacheV4 (a key/value list ordered LRU to MRU): some listing L of the
ring's non-sentinel nodes from LRU to MRU matches the model list entry by
entry, and the key index maps exactly the keys of live nodes to their ring
positions. -/
def Abs (M : KeyIndex K) (c : CacheG K V M.State)
    (d : LRUCacheV4.Cache K V) : Prop :=
  c.maxCacheSize = d.maxCacheSize ∧
  M.Good c.keyMap ∧
  (KeyedList.keys d.entries).Nodup ∧
  M.size c.keyMap = d.entries.length ∧
  ∃ L : List Nat,
    RingOK c.entries L ∧
    (0 :: L).Nodup ∧
    (∀ j ∈ L, j < c.entries.length) ∧
    c.entries.length = L.length + 1 ∧
    List.Forall₂ (EntryAbs c.entries) L d.entries ∧
    (∀ k j, M.find c.keyMap k = some j ↔
      j ∈ L ∧ (geti c.entries j).keyLocation = some k)

theorem find4_none_of {K V : Type} [DecidableEq K] [Inhabited V]
    {es : List (Entry K V)} {L : List Nat} {q : List (K × V)}
    {M : KeyIndex K} {s : M.State}
    (hfa : List.Forall₂ (EntryAbs es) L q)
    (hmapc : ∀ k j, M.find s k = some j ↔
      j ∈ L ∧ (geti es j).keyLocation = some k)
    {k : K} (hf : M.find s k = none) :
    q.find? (fun p => p.1 == k) = none := by
  cases hq2 : q.find? (fun p => p.1 == k) with
  | none => rfl
  | some pr =>
    obtain ⟨hprk, l₁, l₂, hsplit, -⟩ := KeyedList.split_of_find? hq2
    have hprmem : pr ∈ q := by
      rw [hsplit]
      exact List.mem_append_right _ (List.mem_cons_self _ _)
    obtain ⟨j, hjL, hjabs⟩ := forall2_mem_right hfa hprmem
    have hc : M.find s k = some j :=
      (hmapc k j).2 ⟨hjL, by rw [hjabs.1, hprk]⟩
    rw [hf] at hc
    cases hc

end LRUCacheV1

namespace LRUCacheV1

variable {K V : Type} [DecidableEq K] [Inhabited V]

theorem get_sim {M : KeyIndex K} {c : CacheG K V M.State}
    {d : LRUCacheV4.Cache K V} (h : Abs M c d) (k : K) :
    (get M c k).1 = (LRUCacheV4.get d k).1 ∧
    Abs M (get M c k).2 (LRUCacheV4.get d k).2 := by
  obtain ⟨hcap, hgood, hknd, hsize, L, hring, hnd, hbound, hlen, hfa, hmapc⟩ := h
  cases hf : M.find c.keyMap k with
  | none =>
    have hq : d.entries.find? (fun p => p.1 == k) = none :=
      find4_none_of hfa hmapc hf
    simp only [get, LRUCacheV4.get, hf, hq]
    exact ⟨trivial, hcap, hgood, hknd, hsize, L, hring, hnd, hbound, hlen, hfa,
      hmapc⟩
  | some j =>
    obtain ⟨hjL, hjkl⟩ := (hmapc k j).1 hf
    obtain ⟨A, B, hLsplit⟩ := List.append_of_mem hjL
    subst hLsplit
    obtain ⟨qA, pr, qB, hqsplit, hfaA, hjpr, hfaB, hqAlen⟩ :=
      forall2_split_left hfa
    have hprk : pr.1 = k := by
      have h1 := hjkl
      rw [hjpr.1] at h1
      exact Option.some.inj h1
    have hpr : pr = (k, pr.2) := by rw [← hprk]
    have hkndsplit : (KeyedList.keys (qA ++ (k, pr.2) :: qB)).Nodup := by
      rw [← hpr, ← hqsplit]
      exact hknd
    have hkqA : k ∉ KeyedList.keys qA :=
      KeyedList.not_mem_keys_left_of_nodup hkndsplit
    have hfind4 : d.entries.find? (fun p => p.1 == k) = some pr := by
      rw [hqsplit, hpr]
      exact KeyedList.find?_of_split hkqA
    have herase : d.entries.eraseP (fun p => p.1 == k) = qA ++ qB := by
      rw [hqsplit, hpr]
      exact KeyedList.eraseP_of_split hkqA
    have hvk := pushIntoQueue_sameVK c.entries j
    have h0es : 0 < c.entries.length := by rw [hlen]; omega
    have hring' := ring_promote hring hnd hbound h0es
    have hperm : (A ++ j :: B).Perm (A ++ B ++ [j]) := perm_promote A B j
    have hmem : ∀ x, x ∈ A ++ B ++ [j] ↔ x ∈ A ++ j :: B := fun x =>
      (hperm.mem_iff).symm
    have hnd' : (0 :: (A ++ B ++ [j])).Nodup := (hperm.cons 0).nodup hnd
    have hsame : ∀ x pr2, EntryAbs c.entries x pr2 →
        EntryAbs (pushIntoQueue c.entries j) x pr2 := by
      intro x pr2 hx
      exact ⟨(hvk x).2.trans hx.1, (hvk x).1.trans hx.2⟩
    simp only [get, LRUCacheV4.get, hf, hfind4, herase]
    refine ⟨?_, hcap, hgood, ?_, ?_, A ++ B ++ [j], hring', hnd', ?_, ?_, ?_,
      ?_⟩
    · rw [(hvk j).1, hjpr.2]
    · rw [hpr]
      exact KeyedList.nodup_keys_promote hkndsplit
    · rw [hsize, hqsplit]
      simp
    · intro x hx
      rw [pushIntoQueue_length]
      exact hbound x ((hmem x).1 hx)
    · rw [pushIntoQueue_length, hlen, hperm.length_eq]
    · exact forall2_append
        (forall2_append (forall2_imp_entry hsame hfaA)
          (forall2_imp_entry hsame hfaB))
        (List.Forall₂.cons (hsame _ _ hjpr) List.Forall₂.nil)
    · intro k' j'
      constructor
      · intro hh
        obtain ⟨h1, h2⟩ := (hmapc k' j').1 hh
        exact ⟨(hmem j').2 h1, (hvk j').2.trans h2⟩
      · intro hh
        exact (hmapc k' j').2 ⟨(hmem j').1 hh.1, ((hvk j').2).symm.trans hh.2⟩

end LRUCacheV1

namespace LRUCacheV1

theorem forall2_imp_mem {α β : Type} {R S : α → β → Prop} :
    ∀ {l : List α} {q : List β}, (∀ a ∈ l, ∀ b, R a b → S a b) →
      List.Forall₂ R l q → List.Forall₂ S l q := by
  intro l
  induction l with
  | nil =>
    intro q _ hf
    cases hf
    exact List.Forall₂.nil
  | cons a l ih =>
    intro q h hf
    cases hf with
    | cons hab hf' =>
      exact List.Forall₂.cons (h a (List.mem_cons_self a l) _ hab)
        (ih (fun a' ha' => h a' (List.mem_cons_of_mem a ha')) hf')

variable {K V : Type} [DecidableEq K] [Inhabited V]

theorem put_sim_existing {M : KeyIndex K} (hM : LawfulKeyIndex M)
    {c : CacheG K V M.State} {d : LRUCacheV4.Cache K V}
    (h : Abs M c d) {k : K} {j : Nat} (hf : M.find c.keyMap k = some j)
    (v : V) :
    ∃ c' d', put M c k v = some (false, c') ∧
      LRUCacheV4.put d k v = some (false, d') ∧ Abs M c' d' := by
  obtain ⟨hcap, hgood, hknd, hsize, L, hring, hnd, hbound, hlen, hfa, hmapc⟩ := h
  have hr : M.tryEmplace c.keyMap k (M.size c.keyMap + 1) =
      (c.keyMap, j, false) := hM.tryEmplace_found _ _ _ _ hgood hf
  obtain ⟨hjL, hjkl⟩ := (hmapc k j).1 hf
  obtain ⟨A, B, hLsplit⟩ := List.append_of_mem hjL
  subst hLsplit
  obtain ⟨qA, pr, qB, hqsplit, hfaA, hjpr, hfaB, hqAlen⟩ :=
    forall2_split_left hfa
  have hprk : pr.1 = k := by
    have h1 := hjkl
    rw [hjpr.1] at h1
    exact Option.some.inj h1
  have hpr : pr = (k, pr.2) := by rw [← hprk]
  have hkndsplit : (KeyedList.keys (qA ++ (k, pr.2) :: qB)).Nodup := by
    rw [← hpr, ← hqsplit]
    exact hknd
  have hkqA : k ∉ KeyedList.keys qA :=
    KeyedList.not_mem_keys_left_of_nodup hkndsplit
  have hfind4 : d.entries.find? (fun p => p.1 == k) = some pr := by
    rw [hqsplit, hpr]
    exact KeyedList.find?_of_split hkqA
  have herase : d.entries.eraseP (fun p => p.1 == k) = qA ++ qB := by
    rw [hqsplit, hpr]
    exact KeyedList.eraseP_of_split hkqA
  have hjlen : j < c.entries.length :=
    hbound j (List.mem_append_right A (List.mem_cons_self j B))
  have hndL2 : (A ++ j :: B).Nodup := (List.nodup_cons.1 hnd).2
  have hjA : j ∉ A := fun hc =>
    (List.nodup_append.1 hndL2).2.2 hc (List.mem_cons_self j B)
  have hjB : j ∉ B :=
    (List.nodup_cons.1 (List.nodup_append.1 hndL2).2.1).1
  have hlinks := @links_seti_vk K V _ c.entries j
    { geti c.entries j with value := v } rfl rfl
  have hring1 : RingOK (seti c.entries j { geti c.entries j with value := v })
      (A ++ j :: B) := chain_of_links_eq hlinks hring
  have h0es : 0 < c.entries.length := by rw [hlen]; omega
  have hlen1 : (seti c.entries j { geti c.entries j with value := v }).length
      = c.entries.length := length_seti _ _ _
  have hring' := ring_promote hring1
    hnd (fun x hx => by rw [hlen1]; exact hbound x hx) (by rw [hlen1]; exact h0es)
  have hperm : (A ++ j :: B).Perm (A ++ B ++ [j]) := perm_promote A B j
  have hmem : ∀ x, x ∈ A ++ B ++ [j] ↔ x ∈ A ++ j :: B := fun x =>
    (hperm.mem_iff).symm
  have hnd' : (0 :: (A ++ B ++ [j])).Nodup := (hperm.cons 0).nodup hnd
  have hvk := pushIntoQueue_sameVK
    (seti c.entries j { geti c.entries j with value := v }) j
  have hself := @geti_seti_self K V _ c.entries j
    { geti c.entries j with value := v } hjlen
  have hgetix : ∀ x, x ≠ j →
      (geti (pushIntoQueue (seti c.entries j
        { geti c.entries j with value := v }) j) x).keyLocation =
        (geti c.entries x).keyLocation ∧
      (geti (pushIntoQueue (seti c.entries j
        { geti c.entries j with value := v }) j) x).value =
        (geti c.entries x).value := by
    intro x hx
    have hne := @geti_seti_ne K V _ c.entries j x
      { geti c.entries j with value := v } (fun hc => hx hc.symm)
    exact ⟨((hvk x).2).trans (by rw [hne]), ((hvk x).1).trans (by rw [hne])⟩
  have hklj : (geti (pushIntoQueue (seti c.entries j
      { geti c.entries j with value := v }) j) j).keyLocation = some k := by
    rw [(hvk j).2, hself]
    exact hjkl
  have hvj : (geti (pushIntoQueue (seti c.entries j
      { geti c.entries j with value := v }) j) j).value = v := by
    rw [(hvk j).1, hself]
  refine ⟨{ c with
      entries := (pushIntoQueue (seti c.entries j
        { geti c.entries j with value := v }) j),
      keyMap := c.keyMap },
    { d with entries := qA ++ qB ++ [(k, v)] }, ?_, ?_, ?_⟩
  · simp only [put, hr, finishPutOperation]
    rfl
  · simp only [LRUCacheV4.put, hfind4, herase]
  · refine ⟨hcap, hgood, ?_, ?_, A ++ B ++ [j], hring', hnd', ?_, ?_, ?_, ?_⟩
    · exact KeyedList.nodup_keys_promote hkndsplit
    · rw [hsize, hqsplit]
      simp
    · intro x hx
      rw [pushIntoQueue_length, hlen1]
      exact hbound x ((hmem x).1 hx)
    · rw [pushIntoQueue_length, hlen1, hlen, hperm.length_eq]
    · refine forall2_append (forall2_append ?_ ?_)
        (List.Forall₂.cons ⟨hklj, hvj⟩ List.Forall₂.nil)
      · refine forall2_imp_mem ?_ hfaA
        intro a ha b hab
        have hx := hgetix a (fun hc => hjA (hc ▸ ha))
        exact ⟨hx.1.trans hab.1, hx.2.trans hab.2⟩
      · refine forall2_imp_mem ?_ hfaB
        intro a ha b hab
        have hx := hgetix a (fun hc => hjB (hc ▸ ha))
        exact ⟨hx.1.trans hab.1, hx.2.trans hab.2⟩
    · intro k' j'
      by_cases hj' : j' = j
      · subst hj'
        rw [hklj]
        constructor
        · intro hh
          obtain ⟨h1, h2⟩ := (hmapc k' j').1 hh
          rw [hjkl] at h2
          exact ⟨(hmem j').2 h1, h2⟩
        · intro hh
          exact (hmapc k' j').2 ⟨(hmem j').1 hh.1, by rw [hjkl, hh.2]⟩
      · rw [(hgetix j' hj').1]
        constructor
        · intro hh
          obtain ⟨h1, h2⟩ := (hmapc k' j').1 hh
          exact ⟨(hmem j').2 h1, h2⟩
        · intro hh
          exact (hmapc k' j').2 ⟨(hmem j').1 hh.1, hh.2⟩

end LRUCacheV1

namespace LRUCacheV1

variable {K V : Type} [DecidableEq K] [Inhabited V]

/-- The freshly constructed entry of finishPutOperation's insertion branch
(LRUCacheV1.h lines 287-292): self-linked at its own index, carrying the
new value and key. -/
def freshEntry (k : K) (v : V) (i : Nat) : Entry K V :=
  { next := i, prev := i, value := v, keyLocation := some k }

theorem put_sim_new_room {M : KeyIndex K} (hM : LawfulKeyIndex M)
    {c : CacheG K V M.State} {d : LRUCacheV4.Cache K V}
    (h : Abs M c d) {k : K} (hf : M.find c.keyMap k = none)
    (hroom : M.size c.keyMap + 1 ≤ c.maxCacheSize) (v : V) :
    ∃ c' d', put M c k v = some (true, c') ∧
      LRUCacheV4.put d k v = some (true, d') ∧ Abs M c' d' := by
  obtain ⟨hcap, hgood, hknd, hsize, L, hring, hnd, hbound, hlen, hfa, hmapc⟩ := h
  have hfal : L.length = d.entries.length := forall2_length hfa
  have hidx : M.size c.keyMap + 1 = c.entries.length := by
    rw [hsize, hlen, hfal]
  have hr2 : (M.tryEmplace c.keyMap k (M.size c.keyMap + 1)).2 =
      (M.size c.keyMap + 1, true) := hM.tryEmplace_ret _ _ _ hgood hf
  have hq4 : d.entries.find? (fun p => p.1 == k) = none :=
    find4_none_of hfa hmapc hf
  have hknotin : k ∉ KeyedList.keys d.entries :=
    KeyedList.find?_eq_none_iff.1 hq4
  have hnotfull : ¬ d.maxCacheSize ≤ d.entries.length := by
    rw [← hcap]
    omega
  have h0es : 0 < c.entries.length := by rw [hlen]; omega
  have hlen1 : (c.entries ++
      [freshEntry k v (M.size c.keyMap + 1)]).length =
      c.entries.length + 1 := by simp
  have hni : nextIdx (c.entries ++ [freshEntry k v (M.size c.keyMap + 1)])
      (M.size c.keyMap + 1) = M.size c.keyMap + 1 := by
    simp only [nextIdx]
    rw [hidx, geti_append_len]
    rfl
  have hpri : prevIdx (c.entries ++ [freshEntry k v (M.size c.keyMap + 1)])
      (M.size c.keyMap + 1) = M.size c.keyMap + 1 := by
    simp only [prevIdx]
    rw [hidx, geti_append_len]
    rfl
  have hiL : (M.size c.keyMap + 1) ∉ 0 :: L := by
    intro hc
    rcases List.mem_cons.1 hc with he | hm
    · omega
    · have := hbound _ hm
      omega
  have hring1 : RingOK (c.entries ++ [freshEntry k v (M.size c.keyMap + 1)])
      L := ringOK_append _ hring hbound h0es
  have hringF := ring_fresh hring1 hnd hiL hni hpri
    (fun j hj => by rw [hlen1]; exact Nat.lt_succ_of_lt (hbound j hj))
    (by rw [hlen1, ← hidx]; omega) (by rw [hlen1]; omega)
  have hvk := pushIntoQueue_sameVK
    (c.entries ++ [freshEntry k v (M.size c.keyMap + 1)])
    (M.size c.keyMap + 1)
  have htransfer : ∀ x, x < c.entries.length →
      (geti (pushIntoQueue (c.entries ++
        [freshEntry k v (M.size c.keyMap + 1)])
        (M.size c.keyMap + 1)) x).keyLocation =
        (geti c.entries x).keyLocation ∧
      (geti (pushIntoQueue (c.entries ++
        [freshEntry k v (M.size c.keyMap + 1)])
        (M.size c.keyMap + 1)) x).value = (geti c.entries x).value := by
    intro x hx
    have ha := @geti_append_lt K V _ c.entries x
      (freshEntry k v (M.size c.keyMap + 1)) hx
    exact ⟨((hvk x).2).trans (by rw [ha]), ((hvk x).1).trans (by rw [ha])⟩
  have hklF : (geti (pushIntoQueue (c.entries ++
      [freshEntry k v (M.size c.keyMap + 1)])
      (M.size c.keyMap + 1)) (M.size c.keyMap + 1)).keyLocation =
      some k := by
    rw [(hvk _).2, hidx, geti_append_len]
    rfl
  have hvF : (geti (pushIntoQueue (c.entries ++
      [freshEntry k v (M.size c.keyMap + 1)])
      (M.size c.keyMap + 1)) (M.size c.keyMap + 1)).value = v := by
    rw [(hvk _).1, hidx, geti_append_len]
    rfl
  refine ⟨{ c with
      keyMap := (M.tryEmplace c.keyMap k (M.size c.keyMap + 1)).1,
      entries := (pushIntoQueue (c.entries ++
        [freshEntry k v (M.size c.keyMap + 1)]) (M.size c.keyMap + 1)) },
    { d with entries := d.entries ++ [(k, v)] }, ?_, ?_, ?_⟩
  · simp only [put, hr2, finishPutOperation, freshEntry]
    rw [if_neg (by decide : ¬(true = false)), if_pos hroom]
  · simp only [LRUCacheV4.put, hq4]
    rw [if_neg hnotfull]
  · refine ⟨hcap, hM.good_tryEmplace _ _ _ hgood, ?_, ?_,
      L ++ [M.size c.keyMap + 1], hringF, ?_, ?_, ?_, ?_, ?_⟩
    · exact KeyedList.nodup_keys_append_singleton hknd hknotin
    · rw [hM.size_tryEmplace _ _ _ hgood hf, hsize]
      simp
    · have hthis : ((0 :: L) ++ [M.size c.keyMap + 1]).Nodup :=
        List.nodup_append.2 ⟨hnd, List.nodup_singleton _,
          fun a ha hb => by rw [List.mem_singleton.1 hb] at ha; exact hiL ha⟩
      exact hthis
    · intro x hx
      rw [pushIntoQueue_length, hlen1]
      rcases List.mem_append.1 hx with h1 | h2
      · exact Nat.lt_succ_of_lt (hbound x h1)
      · rw [List.mem_singleton.1 h2, hidx]
        omega
    · rw [pushIntoQueue_length, hlen1, hlen]
      simp
    · refine forall2_append ?_
        (List.Forall₂.cons ⟨hklF, hvF⟩ List.Forall₂.nil)
      refine forall2_imp_mem ?_ hfa
      intro a ha b hab
      have hx := htransfer a (hbound a ha)
      exact ⟨hx.1.trans hab.1, hx.2.trans hab.2⟩
    · intro k' j'
      rw [hM.find_tryEmplace _ _ _ _ hgood hf]
      by_cases hkk : k' = k
      · subst hkk
        rw [if_pos rfl]
        constructor
        · intro hh
          have hj' : j' = M.size c.keyMap + 1 := (Option.some.inj hh).symm
          subst hj'
          exact ⟨List.mem_append_right _ (List.mem_singleton.2 rfl), hklF⟩
        · intro hh
          rcases List.mem_append.1 hh.1 with h1 | h2
          · have h3 := hh.2
            rw [(htransfer j' (hbound j' h1)).1] at h3
            have h4 := (hmapc k' j').2 ⟨h1, h3⟩
            rw [hf] at h4
            cases h4
          · rw [List.mem_singleton.1 h2]
      · rw [if_neg hkk]
        constructor
        · intro hh
          obtain ⟨h1, h2⟩ := (hmapc k' j').1 hh
          exact ⟨List.mem_append_left _ h1,
            ((htransfer j' (hbound j' h1)).1).trans h2⟩
        · intro hh
          rcases List.mem_append.1 hh.1 with h1 | h2
          · exact (hmapc k' j').2 ⟨h1,
              ((htransfer j' (hbound j' h1)).1).symm.trans hh.2⟩
          · exfalso
            have h3 := hh.2
            rw [List.mem_singleton.1 h2] at h3
            rw [hklF] at h3
            exact hkk (Option.some.inj h3).symm

end LRUCacheV1

namespace LRUCacheV1

variable {K V : Type} [DecidableEq K] [Inhabited V]

/-- The overwrite applied to the recycled LRU entry in
finishPutOperation's eviction branch (LRUCacheV1.h lines 299-301): value
and keyLocation replaced, links untouched. -/
def recycleEntry (e : Entry K V) (k : K) (v : V) : Entry K V :=
  { e with value := v, keyLocation := some k }

set_option maxHeartbeats 1000000 in
theorem put_sim_evict {M : KeyIndex K} (hM : LawfulKeyIndex M)
    {c : CacheG K V M.State} {d : LRUCacheV4.Cache K V}
    (h : Abs M c d) {k : K} (hf : M.find c.keyMap k = none)
    (hfull : ¬ M.size c.keyMap + 1 ≤ c.maxCacheSize)
    (hcap1 : 1 ≤ c.maxCacheSize) (v : V) :
    ∃ c' d', put M c k v = some (true, c') ∧
      LRUCacheV4.put d k v = some (true, d') ∧ Abs M c' d' := by
  obtain ⟨hcap, hgood, hknd, hsize, L, hring, hnd, hbound, hlen, hfa, hmapc⟩ := h
  have hfal : L.length = d.entries.length := forall2_length hfa
  have hr2 : (M.tryEmplace c.keyMap k (M.size c.keyMap + 1)).2 =
      (M.size c.keyMap + 1, true) := hM.tryEmplace_ret _ _ _ hgood hf
  have hq4 : d.entries.find? (fun p => p.1 == k) = none :=
    find4_none_of hfa hmapc hf
  have hknotin : k ∉ KeyedList.keys d.entries :=
    KeyedList.find?_eq_none_iff.1 hq4
  have hfull4 : d.maxCacheSize ≤ d.entries.length := by
    rw [← hcap, ← hsize]
    omega
  cases L with
  | nil =>
    exfalso
    rw [← hfal] at hfull4
    simp at hfull4
    omega
  | cons l0 Lr =>
    obtain ⟨pr0, qrest, hqsplit⟩ : ∃ pr0 qrest, d.entries = pr0 :: qrest := by
      cases hq : d.entries with
      | nil =>
        rw [hq] at hfal
        simp at hfal
      | cons a b => exact ⟨a, b, rfl⟩
    rw [hqsplit] at hfa hknd hsize hfal
    cases hfa with
    | cons h0pr htail =>
      have hchain : Chain c.entries 0 (l0 :: (Lr ++ [0])) := hring
      obtain ⟨hj2, -, -⟩ := hchain
      have hl0mem : l0 ∈ l0 :: Lr := List.mem_cons_self l0 Lr
      have hl0len : l0 < c.entries.length := hbound l0 hl0mem
      have h0es : 0 < c.entries.length := by rw [hlen]; omega
      have hndtail : (l0 :: Lr).Nodup := (List.nodup_cons.1 hnd).2
      have hl0Lr : l0 ∉ Lr := (List.nodup_cons.1 hndtail).1
      have hkl0 : (geti c.entries l0).keyLocation = some pr0.1 := h0pr.1
      have hfOld : M.find c.keyMap pr0.1 = some l0 :=
        (hmapc pr0.1 l0).2 ⟨hl0mem, hkl0⟩
      have hkk0 : k ≠ pr0.1 := by
        intro he
        rw [he, hfOld] at hf
        cases hf
      have hgood1 : M.Good (M.tryEmplace c.keyMap k (M.size c.keyMap + 1)).1 :=
        hM.good_tryEmplace _ _ _ hgood
      have hfind1 := hM.find_tryEmplace c.keyMap k (M.size c.keyMap + 1)
      have hfind1k : M.find (M.tryEmplace c.keyMap k (M.size c.keyMap + 1)).1 k
          = some (M.size c.keyMap + 1) := by
        rw [hfind1 k hgood hf, if_pos rfl]
      have hgood2 : M.Good (M.updateAt
          (M.tryEmplace c.keyMap k (M.size c.keyMap + 1)).1 k l0) :=
        hM.good_updateAt _ _ _ hgood1
      have hfind2 := fun k' => hM.find_updateAt _ k l0 k' _ hgood1 hfind1k
      have hgood3 : M.Good (M.eraseAt (M.updateAt
          (M.tryEmplace c.keyMap k (M.size c.keyMap + 1)).1 k l0) pr0.1) :=
        hM.good_eraseAt _ _ hgood2
      have hfind3 := fun k' => hM.find_eraseAt
        (M.updateAt (M.tryEmplace c.keyMap k (M.size c.keyMap + 1)).1 k l0)
        pr0.1 k' hgood2
      have hfindAll : ∀ k', M.find (M.eraseAt (M.updateAt
          (M.tryEmplace c.keyMap k (M.size c.keyMap + 1)).1 k l0) pr0.1) k' =
          if k' = pr0.1 then none
          else if k' = k then some l0
          else M.find c.keyMap k' := by
        intro k'
        rw [hfind3 k']
        by_cases h1 : k' = pr0.1
        · rw [if_pos h1, if_pos h1]
        · rw [if_neg h1, if_neg h1, hfind2 k']
          by_cases h2 : k' = k
          · rw [if_pos h2, if_pos h2]
          · rw [if_neg h2, if_neg h2, hfind1 k' hgood hf, if_neg h2]
      have hsize3 : M.size (M.eraseAt (M.updateAt
          (M.tryEmplace c.keyMap k (M.size c.keyMap + 1)).1 k l0) pr0.1) =
          M.size c.keyMap := by
        rw [hM.size_eraseAt _ _ hgood2]
        have hpresent : M.find (M.updateAt
            (M.tryEmplace c.keyMap k (M.size c.keyMap + 1)).1 k l0) pr0.1 =
            some l0 := by
          rw [hfind2 pr0.1, if_neg (fun hc => hkk0 hc.symm),
            hfind1 pr0.1 hgood hf, if_neg (fun hc => hkk0 hc.symm), hfOld]
        rw [hpresent]
        simp only [Option.isSome_some, if_pos]
        rw [hM.size_updateAt _ _ _ hgood1,
          hM.size_tryEmplace _ _ _ hgood hf]
        omega
      have hlinks := @links_seti_vk K V _ c.entries l0
        (recycleEntry (geti c.entries l0) k v) rfl rfl
      have hringv : RingOK
          (seti c.entries l0 (recycleEntry (geti c.entries l0) k v))
          (l0 :: Lr) := chain_of_links_eq hlinks hring
      have hlenv : (seti c.entries l0
          (recycleEntry (geti c.entries l0) k v)).length =
          c.entries.length := length_seti _ _ _
      have hring' := ring_promote (A := []) (B := Lr) (i := l0) hringv hnd
        (fun x hx => by rw [hlenv]; exact hbound x hx)
        (by rw [hlenv]; exact h0es)
      have hperm : (l0 :: Lr).Perm (Lr ++ [l0]) :=
        (List.perm_append_singleton l0 Lr).symm
      have hmem : ∀ x, x ∈ Lr ++ [l0] ↔ x ∈ l0 :: Lr := fun x =>
        (hperm.mem_iff).symm
      have hnd' : (0 :: (Lr ++ [l0])).Nodup := (hperm.cons 0).nodup hnd
      have hvk := pushIntoQueue_sameVK
        (seti c.entries l0 (recycleEntry (geti c.entries l0) k v)) l0
      have hself := @geti_seti_self K V _ c.entries l0
        (recycleEntry (geti c.entries l0) k v) hl0len
      have htr : ∀ x, x ≠ l0 →
          (geti (pushIntoQueue (seti c.entries l0
            (recycleEntry (geti c.entries l0) k v)) l0) x).keyLocation =
            (geti c.entries x).keyLocation ∧
          (geti (pushIntoQueue (seti c.entries l0
            (recycleEntry (geti c.entries l0) k v)) l0) x).value =
            (geti c.entries x).value := by
        intro x hx
        have hne := @geti_seti_ne K V _ c.entries l0 x
          (recycleEntry (geti c.entries l0) k v)
          (fun hc => hx hc.symm)
        exact ⟨((hvk x).2).trans (by rw [hne]), ((hvk x).1).trans (by rw [hne])⟩
      have hklL0 : (geti (pushIntoQueue (seti c.entries l0
          (recycleEntry (geti c.entries l0) k v)) l0) l0).keyLocation =
          some k := by
        rw [(hvk l0).2, hself]
        rfl
      have hvL0 : (geti (pushIntoQueue (seti c.entries l0
          (recycleEntry (geti c.entries l0) k v)) l0) l0).value = v := by
        rw [(hvk l0).1, hself]
        rfl
      have hj2' : (geti c.entries 0).next = l0 := hj2
      refine ⟨{ c with
          keyMap := (M.eraseAt (M.updateAt
            (M.tryEmplace c.keyMap k (M.size c.keyMap + 1)).1 k l0) pr0.1),
          entries := (pushIntoQueue (seti c.entries l0
            (recycleEntry (geti c.entries l0) k v)) l0) },
        { d with entries := qrest ++ [(k, v)] }, ?_, ?_, ?_⟩
      · simp only [put, hr2, finishPutOperation, recycleEntry]
        rw [if_neg (by decide : ¬(true = false)), if_neg hfull]
        simp only [hj2', hkl0]
      · simp only [LRUCacheV4.put]
        rw [hq4, if_pos (hqsplit ▸ hfull4), hqsplit]
      · refine ⟨hcap, hgood3, ?_, ?_, Lr ++ [l0],
          hring', hnd', ?_, ?_, ?_, ?_⟩
        · have hkndrest : (KeyedList.keys qrest).Nodup := by
            have hh : (pr0.1 :: KeyedList.keys qrest).Nodup := hknd
            exact (List.nodup_cons.1 hh).2
          refine KeyedList.nodup_keys_append_singleton hkndrest ?_
          intro hc
          exact hknotin (by
            rw [hqsplit]
            exact List.mem_cons_of_mem _ hc)
        · rw [hsize3, hsize]
          simp
        · intro x hx
          rw [pushIntoQueue_length, hlenv]
          exact hbound x ((hmem x).1 hx)
        · rw [pushIntoQueue_length, hlenv, hlen]
          simp
        · refine forall2_append ?_
            (List.Forall₂.cons ⟨hklL0, hvL0⟩ List.Forall₂.nil)
          refine forall2_imp_mem ?_ htail
          intro a ha b hab
          have hx := htr a (fun hc => hl0Lr (hc ▸ ha))
          exact ⟨hx.1.trans hab.1, hx.2.trans hab.2⟩
        · intro k' j'
          rw [hfindAll k']
          by_cases h1 : k' = pr0.1
          · subst h1
            rw [if_pos rfl]
            constructor
            · intro hh
              cases hh
            · intro hh
              exfalso
              rcases List.mem_append.1 hh.1 with hm1 | hm2
              · have hx := (htr j' (fun hc => hl0Lr (hc ▸ hm1))).1
                rw [hx] at hh
                have h4 := (hmapc pr0.1 j').2 ⟨List.mem_cons_of_mem l0 hm1, hh.2⟩
                rw [hfOld] at h4
                have h5 : j' = l0 := Option.some.inj h4.symm
                exact hl0Lr (h5 ▸ hm1)
              · have he := List.mem_singleton.1 hm2
                rw [he, hklL0] at hh
                exact hkk0 (Option.some.inj hh.2)
          · rw [if_neg h1]
            by_cases h2 : k' = k
            · subst h2
              rw [if_pos rfl]
              constructor
              · intro hh
                have hj' : j' = l0 := (Option.some.inj hh).symm
                subst hj'
                exact ⟨List.mem_append_right _ (List.mem_singleton.2 rfl),
                  hklL0⟩
              · intro hh
                rcases List.mem_append.1 hh.1 with hm1 | hm2
                · exfalso
                  have hx := (htr j' (fun hc => hl0Lr (hc ▸ hm1))).1
                  rw [hx] at hh
                  have h4 := (hmapc k' j').2 ⟨List.mem_cons_of_mem l0 hm1,
                    hh.2⟩
                  rw [hf] at h4
                  cases h4
                · rw [List.mem_singleton.1 hm2]
            · rw [if_neg h2]
              constructor
              · intro hh
                obtain ⟨hm, hkl⟩ := (hmapc k' j').1 hh
                rcases List.mem_cons.1 hm with he | hm2
                · exfalso
                  rw [he, hkl0] at hkl
                  exact h1 (Option.some.inj hkl).symm
                · refine ⟨List.mem_append_left _ hm2, ?_⟩
                  rw [(htr j' (fun hc => hl0Lr (hc ▸ hm2))).1]
                  exact hkl
              · intro hh
                rcases List.mem_append.1 hh.1 with hm1 | hm2
                · refine (hmapc k' j').2 ⟨List.mem_cons_of_mem l0 hm1, ?_⟩
                  rw [← (htr j' (fun hc => hl0Lr (hc ▸ hm1))).1]
                  exact hh.2
                · exfalso
                  have he := List.mem_singleton.1 hm2
                  rw [he, hklL0] at hh
                  exact h2 (Option.some.inj hh.2).symm

end LRUCacheV1

namespace LRUCacheV1

variable {K V : Type} [DecidableEq K] [Inhabited V]

theorem put_sim {M : KeyIndex K} (hM : LawfulKeyIndex M)
    {c : CacheG K V M.State} {d : LRUCacheV4.Cache K V}
    (h : Abs M c d) (hcap1 : 1 ≤ c.maxCacheSize) (k : K) (v : V) :
    ∃ b c' d', put M c k v = some (b, c') ∧
      LRUCacheV4.put d k v = some (b, d') ∧ Abs M c' d' := by
  cases hf : M.find c.keyMap k with
  | some j =>
    obtain ⟨c', d', h1, h2, h3⟩ := put_sim_existing hM h hf v
    exact ⟨false, c', d', h1, h2, h3⟩
  | none =>
    by_cases hroom : M.size c.keyMap + 1 ≤ c.maxCacheSize
    · obtain ⟨c', d', h1, h2, h3⟩ := put_sim_new_room hM h hf hroom v
      exact ⟨true, c', d', h1, h2, h3⟩
    · obtain ⟨c', d', h1, h2, h3⟩ := put_sim_evict hM h hf hroom hcap1 v
      exact ⟨true, c', d', h1, h2, h3⟩

theorem get_max {M : KeyIndex K} (c : CacheG K V M.State) (k : K) :
    (get M c k).2.maxCacheSize = c.maxCacheSize := by
  unfold get
  cases M.find c.keyMap k <;> rfl

theorem put_max {M : KeyIndex K} {c : CacheG K V M.State} {k : K} {v : V}
    {r : Bool × CacheG K V M.State} (h : put M c k v = some r) :
    r.2.maxCacheSize = c.maxCacheSize := by
  simp only [put, finishPutOperation] at h
  split at h
  · cases Option.some.inj h
    rfl
  · split at h
    · cases Option.some.inj h
      rfl
    · split at h
      · cases h
      · cases Option.some.inj h
        rfl

theorem run_sim {M : KeyIndex K} (hM : LawfulKeyIndex M) :
    ∀ (ops : List (CacheOp K V)) {c : CacheG K V M.State}
      {d : LRUCacheV4.Cache K V}, Abs M c d → 1 ≤ c.maxCacheSize →
    ∃ outs c' d', run M c ops = some (outs, c') ∧
      LRUCacheV4.run d ops = some (outs, d') ∧ Abs M c' d' := by
  intro ops
  induction ops with
  | nil =>
    intro c d h hcap
    exact ⟨[], c, d, rfl, rfl, h⟩
  | cons op ops ih =>
    intro c d h hcap
    cases op with
    | get k =>
      obtain ⟨hval, habs⟩ := get_sim h k
      obtain ⟨outs, c', d', h1, h2, h3⟩ := ih habs (by rw [get_max]; exact hcap)
      refine ⟨CacheOut.got (LRUCacheV4.get d k).1 :: outs, c', d', ?_, ?_, h3⟩
      · simp only [run, h1, Option.map_some', hval]
      · simp only [LRUCacheV4.run, h2, Option.map_some']
    | put k v =>
      obtain ⟨b, c1, d1, hp1, hp4, habs⟩ := put_sim hM h hcap k v
      obtain ⟨outs, c', d', h1, h2, h3⟩ := ih habs
        (by rw [put_max hp1]; exact hcap)
      refine ⟨CacheOut.inserted b :: outs, c', d', ?_, ?_, h3⟩
      · simp only [run, hp1, Option.some_bind, h1, Option.map_some']
      · simp only [LRUCacheV4.run, hp4, Option.some_bind, h2, Option.map_some']

theorem abs_init (M : KeyIndex K) (hM : LawfulKeyIndex M) (cap : Nat) :
    Abs M (mkCache M V cap) (LRUCacheV4.mkCache K V cap) := by
  refine ⟨rfl, hM.good_empty _, by simp [KeyedList.keys, LRUCacheV4.mkCache],
    ?_, [], ⟨rfl, rfl, trivial⟩, by simp, ?_, rfl, ?_, ?_⟩
  · rw [show (mkCache M V cap).keyMap = M.empty (2 * cap) from rfl,
      hM.size_empty]
    simp [LRUCacheV4.mkCache]
  · intro j hj
    cases hj
  · simp [LRUCacheV4.mkCache]
  · intro k j
    rw [show (mkCache M V cap).keyMap = M.empty (2 * cap) from rfl,
      hM.find_empty]
    constructor
    · intro hh
      cases hh
    · intro hh
      cases hh.1

end LRUCacheV1

namespace KeyedList

variable {K V : Type} [DecidableEq K]

theorem eraseP_length_of_find? {l : List (K × V)} {k : K} {it : K × V}
    (hf : l.find? (fun p => p.1 == k) = some it) :
    (l.eraseP (fun p => p.1 == k)).length + 1 = l.length := by
  obtain ⟨hk, l₁, l₂, hl, hn⟩ := split_of_find? hf
  have hpeq : it = (k, it.2) := by
    cases it
    cases hk
    rfl
  rw [hpeq] at hl
  rw [hl, eraseP_of_split hn]
  simp only [List.length_append, List.length_cons]
  omega

theorem keys_eraseP (l : List (K × V)) (k : K) :
    keys (l.eraseP (fun p => p.1 == k)) =
      (keys l).eraseP (fun x => x == k) := by
  induction l with
  | nil => rfl
  | cons p l ih =>
    by_cases h : p.1 = k
    · rw [List.eraseP_cons_of_pos (by simpa using h)]
      rw [show keys (p :: l) = p.1 :: keys l from rfl,
        List.eraseP_cons_of_pos (by simpa using h)]
    · rw [List.eraseP_cons_of_neg (by simpa using h)]
      rw [show keys (p :: l) = p.1 :: keys l from rfl,
        List.eraseP_cons_of_neg (by simpa using h)]
      show p.1 :: keys (l.eraseP (fun p => p.1 == k)) = _
      rw [ih]

theorem find?_append_fresh {l : List (K × V)} {k : K} {v : V}
    (hf : l.find? (fun p => p.1 == k) = none) (k' : K) :
    (l ++ [(k, v)]).find? (fun p => p.1 == k') =
      if k' = k then some (k, v) else l.find? (fun p => p.1 == k') := by
  rw [List.find?_append]
  by_cases hk : k' = k
  · subst hk
    rw [hf]
    simp
  · have h5 : ([(k, v)] : List (K × V)).find? (fun p => p.1 == k') = none := by
      rw [List.find?_cons, List.find?_nil]
      have hx : ((k, v).1 == k') = false := by
        simp only [beq_eq_false_iff_ne, ne_eq]
        intro he
        exact hk he.symm
      simp only [hx]
    rw [h5, if_neg hk]
    cases l.find? (fun p => p.1 == k') <;> rfl

theorem find?_promote {l : List (K × V)} {k : K} {it : K × V} {w : V}
    (hnd : (keys l).Nodup) (hf : l.find? (fun p => p.1 == k) = some it)
    (k' : K) :
    (l.eraseP (fun p => p.1 == k) ++ [(k, w)]).find? (fun p => p.1 == k') =
      if k' = k then some (k, w) else l.find? (fun p => p.1 == k') := by
  have hself : (l.eraseP (fun p => p.1 == k)).find? (fun p => p.1 == k) =
      none := find?_eraseP_self hnd
  rw [find?_append_fresh hself k']
  by_cases hk : k' = k
  · rw [if_pos hk, if_pos hk]
  · rw [if_neg hk, if_neg hk, find?_eraseP_ne hnd hk]

end KeyedList

namespace LRUCacheV4

variable {K V : Type} [DecidableEq K]

theorem run_append (ops1 ops2 : List (CacheOp K V)) :
    ∀ c : Cache K V, run c (ops1 ++ ops2) =
      (run c ops1).bind
        (fun s => (run s.2 ops2).map (fun t => (s.1 ++ t.1, t.2))) := by
  induction ops1 with
  | nil =>
    intro c
    show run c ops2 = (some ([], c)).bind
      (fun s => (run s.2 ops2).map (fun t => (s.1 ++ t.1, t.2)))
    rw [Option.some_bind]
    cases run c ops2 <;> simp
  | cons op ops1 ih =>
    intro c
    cases op with
    | get k =>
      simp only [List.cons_append, List.append_eq, run, ih]
      cases h1 : run (get c k).2 ops1 with
      | none => rfl
      | some s =>
        simp only [Option.some_bind, Option.map_some', Option.map_map]
        rfl
    | put k v =>
      simp only [List.cons_append, List.append_eq, run, ih]
      cases hput : put c k v with
      | none => rfl
      | some r =>
        simp only [Option.some_bind]
        cases h1 : run r.2 ops1 with
        | none => rfl
        | some s =>
          simp only [Option.some_bind, Option.map_some', Option.map_map]
          rfl

end LRUCacheV4

namespace LRUCacheV1

variable {K V : Type} [Inhabited V]

theorem forall2_mem_left {α β : Type} {R : α → β → Prop} :
    ∀ {l : List α} {q : List β}, List.Forall₂ R l q → ∀ {a}, a ∈ l →
      ∃ b ∈ q, R a b := by
  intro l
  induction l with
  | nil =>
    intro q _ a ha
    cases ha
  | cons x l ih =>
    intro q h a ha
    cases h with
    | cons hab h' =>
      rcases List.mem_cons.1 ha with he | hm
      · exact ⟨_, List.mem_cons_self _ _, he ▸ hab⟩
      · obtain ⟨b, hb, hr⟩ := ih h' hm
        exact ⟨b, List.mem_cons_of_mem _ hb, hr⟩

theorem ring_involution {es : List (Entry K V)} {L : List Nat}
    (hring : RingOK es L) :
    ∀ x ∈ 0 :: L, nextIdx es (prevIdx es x) = x ∧
      prevIdx es (nextIdx es x) = x := by
  intro x hx
  rcases List.mem_cons.1 hx with he | hm
  · subst he
    cases L with
    | nil =>
      obtain ⟨h1, h2, -⟩ := hring
      rw [h1, h2, h1]
      exact ⟨rfl, rfl⟩
    | cons l0 Lr =>
      have hchain : Chain es 0 (l0 :: (Lr ++ [0])) := hring
      obtain ⟨h1, h2, -⟩ := hchain
      have hchain2 : Chain es 0 ((l0 :: Lr) ++ [0]) := hring
      rw [chain_append] at hchain2
      obtain ⟨-, hmn, hm, -⟩ := hchain2
      rw [hm, hmn, h1, h2]
      exact ⟨rfl, rfl⟩
  · obtain ⟨A, B, hLsplit⟩ := List.append_of_mem hm
    subst hLsplit
    have hchain : Chain es 0 (A ++ (x :: (B ++ [0]))) := by
      have he : (A ++ x :: B) ++ [0] = A ++ (x :: (B ++ [0])) := by simp
      exact he ▸ hring
    rw [chain_append] at hchain
    obtain ⟨-, hnpn, hprevI, hChB0⟩ := hchain
    refine ⟨by rw [hprevI, hnpn], ?_⟩
    cases B with
    | nil =>
      obtain ⟨hn, hp0, -⟩ := hChB0
      rw [hn, hp0]
    | cons b B' =>
      obtain ⟨hn, hpb, -⟩ := hChB0
      rw [hn, hpb]

end LRUCacheV1

namespace LRUCacheV2

variable {K V : Type} [DecidableEq K]

/-- LRUCacheV2 is the sequenced model with the queue as the entry list:
its eviction test lruQueue.size() + 1 > maxCacheSize coincides with the
model's maxCacheSize <= entries.size(), and every other step is
identical. -/
theorem run_eq_sequenced_model :
    ∀ (ops : List (CacheOp K V)) (q : List (K × V)) (cap : Nat),
      run { lruQueue := q, maxCacheSize := cap } ops =
        (LRUCacheV4.run { entries := q, maxCacheSize := cap } ops).map
          (fun s => (s.1,
            { lruQueue := s.2.entries,
              maxCacheSize := s.2.maxCacheSize })) := by
  intro ops
  induction ops with
  | nil =>
    intro q cap
    rfl
  | cons op ops ih =>
    intro q cap
    cases op with
    | get k =>
      cases hf : q.find? (fun p => p.1 == k) with
      | none =>
        simp only [run, get, LRUCacheV4.run, LRUCacheV4.get, hf, ih,
          Option.map_map]
        rfl
      | some it =>
        simp only [run, get, LRUCacheV4.run, LRUCacheV4.get, hf, ih,
          Option.map_map]
        rfl
    | put k v =>
      cases hf : q.find? (fun p => p.1 == k) with
      | some it =>
        simp only [run, put, LRUCacheV4.run, LRUCacheV4.put, hf,
          Option.some_bind, ih, Option.map_map]
        rfl
      | none =>
        by_cases hc : cap ≤ q.length
        · cases q with
          | nil =>
            simp only [run, put, LRUCacheV4.run, LRUCacheV4.put, hf]
            rw [if_pos (by simpa using hc), if_pos (by simpa using hc)]
            rfl
          | cons e rest =>
            simp only [run, put, LRUCacheV4.run, LRUCacheV4.put, hf]
            rw [if_pos (by simp only [List.length_cons] at hc ⊢; omega),
              if_pos (by simpa using hc)]
            simp only [Option.some_bind, ih, Option.map_map]
            rfl
        · simp only [run, put, LRUCacheV4.run, LRUCacheV4.put, hf]
          rw [if_neg (by omega), if_neg (by simpa using hc)]
          simp only [Option.some_bind, ih, Option.map_map]
          rfl

end LRUCacheV2

namespace LRUCacheV3

variable {K V : Type} [DecidableEq K]

/-- LRUCacheV3 is the sequenced model with the queue as the entry list,
for states whose arena is not over capacity: its eviction test
entries.size() == maxCacheSize coincides with the model's
maxCacheSize <= entries.size() because the arena never exceeds the
capacity, and every other step is identical. -/
theorem run_eq_sequenced_model_arena :
    ∀ (ops : List (CacheOp K V)) (q : List (K × V)) (cap : Nat),
      q.length ≤ cap →
      run { lruQueue := q, arenaSize := q.length, maxCacheSize := cap } ops =
        (LRUCacheV4.run { entries := q, maxCacheSize := cap } ops).map
          (fun s => (s.1,
            { lruQueue := s.2.entries, arenaSize := s.2.entries.length,
              maxCacheSize := s.2.maxCacheSize })) := by
  intro ops
  induction ops with
  | nil =>
    intro q cap hlen
    rfl
  | cons op ops ih =>
    intro q cap hlen
    cases op with
    | get k =>
      cases hf : q.find? (fun p => p.1 == k) with
      | none =>
        simp only [run, get, LRUCacheV4.run, LRUCacheV4.get, hf,
          ih _ _ hlen, Option.map_map]
        rfl
      | some it =>
        have hql : (q.eraseP (fun p => p.1 == k) ++ [it]).length =
            q.length := by
          have h1 := KeyedList.eraseP_length_of_find? hf
          simp only [List.length_append, List.length_cons, List.length_nil]
          omega
        simp only [run, get, LRUCacheV4.run, LRUCacheV4.get, hf]
        rw [← hql]
        rw [ih _ _ (by rw [hql]; exact hlen)]
        simp only [Option.map_map]
        rfl
    | put k v =>
      cases hf : q.find? (fun p => p.1 == k) with
      | some it =>
        have hql : (q.eraseP (fun p => p.1 == k) ++ [(k, v)]).length =
            q.length := by
          have h1 := KeyedList.eraseP_length_of_find? hf
          simp only [List.length_append, List.length_cons, List.length_nil]
          omega
        simp only [run, put, LRUCacheV4.run, LRUCacheV4.put, hf,
          Option.some_bind]
        rw [← hql]
        rw [ih _ _ (by rw [hql]; exact hlen)]
        simp only [Option.map_map]
        rfl
      | none =>
        by_cases hc : cap ≤ q.length
        · have hfull : q.length = cap := Nat.le_antisymm hlen hc
          cases q with
          | nil =>
            simp only [run, put, LRUCacheV4.run, LRUCacheV4.put, hf]
            rw [if_pos (by simpa using hfull), if_pos (by simpa using hc)]
            rfl
          | cons e rest =>
            have hql : (rest ++ [(k, v)]).length = (e :: rest).length := by
              simp
            simp only [run, put, LRUCacheV4.run, LRUCacheV4.put, hf]
            rw [if_pos (by simpa using hfull), if_pos (by simpa using hc)]
            simp only [Option.some_bind]
            rw [← hql]
            rw [ih _ _ (by rw [hql]; exact hlen)]
            simp only [Option.map_map]
            rfl
        · have hne : ¬ q.length = cap := by omega
          have hql : q.length + 1 = (q ++ [(k, v)]).length := by simp
          simp only [run, put, LRUCacheV4.run, LRUCacheV4.put, hf]
          rw [if_neg (by simpa using hne), if_neg (by simpa using hc)]
          simp only [Option.some_bind]
          rw [hql]
          rw [ih _ _ (by rw [← hql]; omega)]
          simp only [Option.map_map]
          rfl

end LRUCacheV3

namespace LRUCacheV6

variable {K V : Type} [DecidableEq K]

/-- An LRUCacheV6 state whose hash map holds the pairs of the model list q
and whose intrusive queue lists q's keys from LRU to MRU. -/
def stateOf (m q : List (K × V)) (cap : Nat) : Cache K V :=
  { keyMap := m, lruQueue := KeyedList.keys q, maxCacheSize := cap }

/-- The sequenced-model state with entry list q. -/
def modelState (q : List (K × V)) (cap : Nat) : LRUCacheV4.Cache K V :=
  { entries := q, maxCacheSize := cap }

set_option maxHeartbeats 1000000 in
/-- LRUCacheV6 simulates the sequenced model: the hash map holds exactly
the model's key/value pairs (in insertion order rather than recency
order) and the intrusive queue lists the model's keys from LRU to MRU;
both runs succeed together and produce the same outcomes for every
capacity of at least 1. -/
theorem run_sim_model :
    ∀ (ops : List (CacheOp K V)) (m q : List (K × V)) (cap : Nat),
      1 ≤ cap →
      m.length = q.length →
      (KeyedList.keys m).Nodup →
      (KeyedList.keys q).Nodup →
      (∀ k', m.find? (fun p => p.1 == k') = q.find? (fun p => p.1 == k')) →
      ∃ outs c6' d',
        run (stateOf m q cap) ops = some (outs, c6') ∧
        LRUCacheV4.run (modelState q cap) ops = some (outs, d') := by
  intro ops
  induction ops with
  | nil =>
    intro m q cap hcap hlen hnm hnq hagree
    exact ⟨[], _, _, rfl, rfl⟩
  | cons op ops ih =>
    intro m q cap hcap hlen hnm hnq hagree
    cases op with
    | get k =>
      cases hfq : q.find? (fun p => p.1 == k) with
      | none =>
        have hm : m.find? (fun p => p.1 == k) = none :=
          (hagree k).trans hfq
        have hget6 : get (stateOf m q cap) k = (none, stateOf m q cap) := by
          simp only [get, stateOf, hm]
        have hget4 : LRUCacheV4.get (modelState q cap) k =
            (none, modelState q cap) := by
          simp only [LRUCacheV4.get, modelState, hfq]
        obtain ⟨outs, c6', d', h6, h4⟩ := ih m q cap hcap hlen hnm hnq hagree
        refine ⟨CacheOut.got none :: outs, c6', d', ?_, ?_⟩
        · simp only [run, hget6, h6, Option.map_some']
        · simp only [LRUCacheV4.run, hget4, h4, Option.map_some']
      | some it =>
        have hm : m.find? (fun p => p.1 == k) = some it :=
          (hagree k).trans hfq
        obtain ⟨hk1, l₁, l₂, hsplit, hnotin⟩ := KeyedList.split_of_find? hfq
        have hpr : it = (k, it.2) := by rw [← hk1]
        have hkndsplit : (KeyedList.keys (l₁ ++ (k, it.2) :: l₂)).Nodup := by
          rw [← hpr, ← hsplit]
          exact hnq
        have herase : q.eraseP (fun p => p.1 == k) = l₁ ++ l₂ := by
          rw [hsplit, hpr]
          exact KeyedList.eraseP_of_split
            (KeyedList.not_mem_keys_left_of_nodup hkndsplit)
        have hqk' : (KeyedList.keys q).eraseP (fun x => x == k) ++ [k] =
            KeyedList.keys (q.eraseP (fun p => p.1 == k) ++ [it]) := by
          rw [KeyedList.keys_append, KeyedList.keys_eraseP]
          rw [show KeyedList.keys [it] = [k] by rw [hpr]; rfl]
        have hget6 : get (stateOf m q cap) k = (some it.2,
            stateOf m (q.eraseP (fun p => p.1 == k) ++ [it]) cap) := by
          simp only [get, stateOf, hm]
          rw [hqk']
        have hget4 : LRUCacheV4.get (modelState q cap) k = (some it.2,
            modelState (q.eraseP (fun p => p.1 == k) ++ [it]) cap) := by
          simp only [LRUCacheV4.get, modelState, hfq]
        have hlen' : m.length =
            (q.eraseP (fun p => p.1 == k) ++ [it]).length := by
          have h1 := KeyedList.eraseP_length_of_find? hfq
          simp only [List.length_append, List.length_cons, List.length_nil]
          omega
        have hnq' : (KeyedList.keys
            (q.eraseP (fun p => p.1 == k) ++ [it])).Nodup := by
          rw [herase, hpr]
          exact KeyedList.nodup_keys_promote hkndsplit
        have hagree' : ∀ k', m.find? (fun p => p.1 == k') =
            (q.eraseP (fun p => p.1 == k) ++ [it]).find?
              (fun p => p.1 == k') := by
          intro k'
          have hq' : (q.eraseP (fun p => p.1 == k) ++ [it]).find?
              (fun p => p.1 == k') =
              if k' = k then some (k, it.2)
              else q.find? (fun p => p.1 == k') := by
            rw [show (q.eraseP (fun p => p.1 == k) ++ [it]) =
              (q.eraseP (fun p => p.1 == k) ++ [(k, it.2)]) by rw [← hpr]]
            exact KeyedList.find?_promote hnq hfq k'
          rw [hq']
          by_cases hk : k' = k
          · rw [if_pos hk, hk, hm, hpr]
          · rw [if_neg hk]
            exact hagree k'
        obtain ⟨outs, c6', d', h6, h4⟩ := ih m _ cap hcap hlen' hnm hnq'
          hagree'
        refine ⟨CacheOut.got (some it.2) :: outs, c6', d', ?_, ?_⟩
        · simp only [run, hget6, h6, Option.map_some']
        · simp only [LRUCacheV4.run, hget4, h4, Option.map_some']
    | put k v =>
      cases hfq : q.find? (fun p => p.1 == k) with
      | some it =>
        have hm : m.find? (fun p => p.1 == k) = some it :=
          (hagree k).trans hfq
        obtain ⟨hk1, l₁, l₂, hsplit, hnotin⟩ := KeyedList.split_of_find? hfq
        have hpr : it = (k, it.2) := by rw [← hk1]
        have hkndsplit : (KeyedList.keys (l₁ ++ (k, it.2) :: l₂)).Nodup := by
          rw [← hpr, ← hsplit]
          exact hnq
        have herase : q.eraseP (fun p => p.1 == k) = l₁ ++ l₂ := by
          rw [hsplit, hpr]
          exact KeyedList.eraseP_of_split
            (KeyedList.not_mem_keys_left_of_nodup hkndsplit)
        have hqk' : (KeyedList.keys q).eraseP (fun x => x == k) ++ [k] =
            KeyedList.keys (q.eraseP (fun p => p.1 == k) ++ [(k, v)]) := by
          rw [KeyedList.keys_append, KeyedList.keys_eraseP]
          rfl
        have hput6 : put (stateOf m q cap) k v = some (false,
            stateOf (m.map (fun p => if p.1 == k then (p.1, v) else p))
              (q.eraseP (fun p => p.1 == k) ++ [(k, v)]) cap) := by
          simp only [put, stateOf, hm]
          rw [hqk']
        have hput4 : LRUCacheV4.put (modelState q cap) k v = some (false,
            modelState (q.eraseP (fun p => p.1 == k) ++ [(k, v)]) cap) := by
          simp only [LRUCacheV4.put, modelState, hfq]
        have hlen' :
            (m.map (fun p => if p.1 == k then (p.1, v) else p)).length =
            (q.eraseP (fun p => p.1 == k) ++ [(k, v)]).length := by
          have h1 := KeyedList.eraseP_length_of_find? hfq
          simp only [List.length_append, List.length_cons, List.length_nil,
            List.length_map]
          omega
        have hnm' : (KeyedList.keys
            (m.map (fun p => if p.1 == k then (p.1, v) else p))).Nodup := by
          rw [KeyedList.keys_map_update]
          exact hnm
        have hnq' : (KeyedList.keys
            (q.eraseP (fun p => p.1 == k) ++ [(k, v)])).Nodup := by
          rw [herase]
          exact KeyedList.nodup_keys_promote hkndsplit
        have hagree' : ∀ k',
            (m.map (fun p => if p.1 == k then (p.1, v) else p)).find?
              (fun p => p.1 == k') =
            (q.eraseP (fun p => p.1 == k) ++ [(k, v)]).find?
              (fun p => p.1 == k') := by
          intro k'
          rw [KeyedList.find?_promote hnq hfq k']
          by_cases hk : k' = k
          · rw [if_pos hk, hk, KeyedList.find?_update, hm, hpr]
            rfl
          · rw [if_neg hk, KeyedList.find?_update_ne hk]
            exact hagree k'
        obtain ⟨outs, c6', d', h6, h4⟩ := ih _ _ cap hcap hlen' hnm' hnq'
          hagree'
        refine ⟨CacheOut.inserted false :: outs, c6', d', ?_, ?_⟩
        · simp only [run, hput6, Option.some_bind, h6, Option.map_some']
        · simp only [LRUCacheV4.run, hput4, Option.some_bind, h4,
            Option.map_some']
      | none =>
        have hmk : m.find? (fun p => p.1 == k) = none :=
          (hagree k).trans hfq
        have hknotinm : k ∉ KeyedList.keys m :=
          KeyedList.find?_eq_none_iff.1 hmk
        have hknotinq : k ∉ KeyedList.keys q :=
          KeyedList.find?_eq_none_iff.1 hfq
        have hnm1 : (KeyedList.keys (m ++ [(k, v)])).Nodup :=
          KeyedList.nodup_keys_append_singleton hnm hknotinm
        have hfm1 := KeyedList.find?_append_fresh (v := v) hmk
        by_cases hc : cap ≤ q.length
        · cases q with
          | nil =>
            exfalso
            simp at hc
            omega
          | cons pr0 qrest =>
            have hkeyscons : KeyedList.keys (pr0 :: qrest) =
                pr0.1 :: KeyedList.keys qrest := rfl
            have hkpr0 : k ≠ pr0.1 := by
              intro he
              exact hknotinq
                (by rw [hkeyscons, he]; exact List.mem_cons_self _ _)
            have hpr0rest : pr0.1 ∉ KeyedList.keys qrest := by
              have h1 : (pr0.1 :: KeyedList.keys qrest).Nodup := hnq
              exact (List.nodup_cons.1 h1).1
            have hknotrest : k ∉ KeyedList.keys qrest := by
              intro hcmem
              exact hknotinq
                (by rw [hkeyscons]; exact List.mem_cons_of_mem _ hcmem)
            have hfqrest : qrest.find? (fun p => p.1 == k) = none :=
              KeyedList.find?_eq_none_iff.2 hknotrest
            have hfmpr0 : m.find? (fun p => p.1 == pr0.1) = some pr0 := by
              rw [hagree pr0.1]
              exact List.find?_cons_of_pos _ (by simp)
            have hfm1pr0 : (m ++ [(k, v)]).find? (fun p => p.1 == pr0.1) =
                some pr0 := by
              rw [hfm1 pr0.1, if_neg (fun hc2 => hkpr0 hc2.symm)]
              exact hfmpr0
            have hput6 : put (stateOf m (pr0 :: qrest) cap) k v =
                some (true, stateOf
                  ((m ++ [(k, v)]).eraseP (fun p => p.1 == pr0.1))
                  (qrest ++ [(k, v)]) cap) := by
              simp only [put, stateOf, hmk]
              rw [if_pos (by
                simp only [List.length_append, List.length_cons,
                  List.length_nil]
                have h2 : m.length = (pr0 :: qrest).length := hlen
                simp only [List.length_cons] at h2
                omega)]
              rw [hkeyscons]
              rw [show KeyedList.keys (qrest ++ [(k, v)]) =
                KeyedList.keys qrest ++ [k] by
                  rw [KeyedList.keys_append]; rfl]
            have hput4 : LRUCacheV4.put (modelState (pr0 :: qrest) cap) k v =
                some (true, modelState (qrest ++ [(k, v)]) cap) := by
              simp only [LRUCacheV4.put, modelState, hfq]
              rw [if_pos (by simpa using hc)]
            have hlen' : ((m ++ [(k, v)]).eraseP
                (fun p => p.1 == pr0.1)).length =
                (qrest ++ [(k, v)]).length := by
              have h1 := KeyedList.eraseP_length_of_find? hfm1pr0
              have h2 : m.length = (pr0 :: qrest).length := hlen
              simp only [List.length_append, List.length_cons,
                List.length_nil] at h1 h2 ⊢
              omega
            have hnm' : (KeyedList.keys ((m ++ [(k, v)]).eraseP
                (fun p => p.1 == pr0.1))).Nodup :=
              KeyedList.nodup_keys_eraseP hnm1
            have hnq' : (KeyedList.keys (qrest ++ [(k, v)])).Nodup := by
              refine KeyedList.nodup_keys_append_singleton ?_ hknotrest
              have h1 : (pr0.1 :: KeyedList.keys qrest).Nodup := hnq
              exact (List.nodup_cons.1 h1).2
            have hagree' : ∀ k',
                ((m ++ [(k, v)]).eraseP (fun p => p.1 == pr0.1)).find?
                  (fun p => p.1 == k') =
                (qrest ++ [(k, v)]).find? (fun p => p.1 == k') := by
              intro k'
              rw [KeyedList.find?_append_fresh hfqrest k']
              by_cases h1 : k' = pr0.1
              · rw [h1]
                rw [KeyedList.find?_eraseP_self hnm1]
                rw [if_neg (fun hc2 => hkpr0 hc2.symm)]
                rw [KeyedList.find?_eq_none_iff.2 hpr0rest]
              · rw [KeyedList.find?_eraseP_ne hnm1 h1, hfm1 k']
                by_cases h2 : k' = k
                · rw [if_pos h2, if_pos h2]
                · rw [if_neg h2, if_neg h2, hagree k']
                  rw [List.find?_cons_of_neg _ (by simpa using Ne.symm h1)]
            obtain ⟨outs, c6', d', h6, h4⟩ := ih _ _ cap hcap hlen' hnm'
              hnq' hagree'
            refine ⟨CacheOut.inserted true :: outs, c6', d', ?_, ?_⟩
            · simp only [run, hput6, Option.some_bind, h6, Option.map_some']
            · simp only [LRUCacheV4.run, hput4, Option.some_bind, h4,
                Option.map_some']
        · have hput6 : put (stateOf m q cap) k v = some (true,
              stateOf (m ++ [(k, v)]) (q ++ [(k, v)]) cap) := by
            simp only [put, stateOf, hmk]
            rw [if_neg (by
              simp only [List.length_append, List.length_cons,
                List.length_nil]
              omega)]
            rw [show KeyedList.keys (q ++ [(k, v)]) =
              KeyedList.keys q ++ [k] by rw [KeyedList.keys_append]; rfl]
          have hput4 : LRUCacheV4.put (modelState q cap) k v = some (true,
              modelState (q ++ [(k, v)]) cap) := by
            simp only [LRUCacheV4.put, modelState, hfq]
            rw [if_neg (by simpa using hc)]
          have hlen' : (m ++ [(k, v)]).length = (q ++ [(k, v)]).length := by
            simp only [List.length_append]
            omega
          have hnq' : (KeyedList.keys (q ++ [(k, v)])).Nodup :=
            KeyedList.nodup_keys_append_singleton hnq hknotinq
          have hagree' : ∀ k', (m ++ [(k, v)]).find? (fun p => p.1 == k') =
              (q ++ [(k, v)]).find? (fun p => p.1 == k') := by
            intro k'
            rw [hfm1 k', KeyedList.find?_append_fresh hfq k']
            by_cases h2 : k' = k
            · rw [if_pos h2, if_pos h2]
            · rw [if_neg h2, if_neg h2, hagree k']
          obtain ⟨outs, c6', d', h6, h4⟩ := ih _ _ cap hcap hlen' hnm1
            hnq' hagree'
          refine ⟨CacheOut.inserted true :: outs, c6', d', ?_, ?_⟩
          · simp only [run, hput6, Option.some_bind, h6, Option.map_some']
          · simp only [LRUCacheV4.run, hput4, Option.some_bind, h4,
              Option.map_some']

end LRUCacheV6

/-- C9: after every sequence of public operations on an LRUCacheV1-style
cache (LRUCacheV1::LRUCache or the line-for-line identical
LRUCacheV5::LRUCacheV5) with capacity at least 1 and any lawful key-index
backend, the run completes and the entries array forms a single circular
doubly-linked list anchored at the sentinel index 0: some listing L of
the non-sentinel nodes satisfies the chain predicate RingOK (next
pointers run 0 -> L -> 0 with matching prev pointers), every linked index
x satisfies entries[entries[x].prev].next == x and
entries[entries[x].next].prev == x, the listing has no duplicates, and
its members are exactly the entry indices stored in the key map. -/
theorem recency_list_well_formed {K V : Type} [DecidableEq K] [Inhabited V]
    (M : LRUCacheV1.KeyIndex K) (hM : LRUCacheV1.LawfulKeyIndex M)
    (cap : Nat) (hcap : 1 ≤ cap) (ops : List (CacheOp K V)) :
    ∃ outs c',
      LRUCacheV1.run M (LRUCacheV1.mkCache M V cap) ops = some (outs, c') ∧
      ∃ L : List Nat,
        LRUCacheV1.RingOK c'.entries L ∧
        (0 :: L).Nodup ∧
        (∀ x ∈ 0 :: L,
          LRUCacheV1.nextIdx c'.entries (LRUCacheV1.prevIdx c'.entries x) = x ∧
          LRUCacheV1.prevIdx c'.entries (LRUCacheV1.nextIdx c'.entries x) = x) ∧
        (∀ j, j ∈ L ↔ ∃ k, M.find c'.keyMap k = some j) := by
  obtain ⟨outs, c', d', hr1, hr4, habs⟩ :=
    LRUCacheV1.run_sim hM ops (LRUCacheV1.abs_init M hM cap) hcap
  obtain ⟨-, -, -, -, L, hring, hnd, -, -, hfa, hmapc⟩ := habs
  refine ⟨outs, c', hr1, L, hring, hnd,
    LRUCacheV1.ring_involution hring, ?_⟩
  intro j
  constructor
  · intro hj
    obtain ⟨pr, -, habs2⟩ := LRUCacheV1.forall2_mem_left hfa hj
    exact ⟨pr.1, (hmapc pr.1 j).2 ⟨hj, habs2.1⟩⟩
  · intro hh
    obtain ⟨k, hk⟩ := hh
    exact ((hmapc k j).1 hk).1

/-- Witness for recency_list_well_formed: the association-list key index
is lawful, capacity 1 is at least 1, and the theorem instantiates on a
run of three operations. -/
theorem recency_list_well_formed_witness :
    LRUCacheV1.LawfulKeyIndex (LRUCacheV1.assocIndex Nat) ∧ 1 ≤ 1 ∧
    (∃ outs c',
      LRUCacheV1.run (LRUCacheV1.assocIndex Nat)
        (LRUCacheV1.mkCache (LRUCacheV1.assocIndex Nat) Nat 1)
        [CacheOp.put 1 10, CacheOp.get 1, CacheOp.put 2 20] =
        some (outs, c') ∧
      ∃ L : List Nat,
        LRUCacheV1.RingOK c'.entries L ∧
        (0 :: L).Nodup ∧
        (∀ x ∈ 0 :: L,
          LRUCacheV1.nextIdx c'.entries (LRUCacheV1.prevIdx c'.entries x) = x ∧
          LRUCacheV1.prevIdx c'.entries (LRUCacheV1.nextIdx c'.entries x) = x) ∧
        (∀ j, j ∈ L ↔ ∃ k,
          (LRUCacheV1.assocIndex Nat).find c'.keyMap k = some j)) :=
  ⟨LRUCacheV1.assocIndex_lawful Nat, by decide,
   recency_list_well_formed (LRUCacheV1.assocIndex Nat)
     (LRUCacheV1.assocIndex_lawful Nat) 1 (by decide)
     [CacheOp.put 1 10, CacheOp.get 1, CacheOp.put 2 20]⟩

/-- C8: all six cache implementations are observationally equivalent at
the public interface: for every capacity of at least 1 and every
operation sequence, LRUCacheV1 (with any lawful key-index backend),
LRUCacheV2, LRUCacheV3, LRUCacheV4, LRUCacheV5 (with any lawful
key-index backend) and LRUCacheV6, all freshly constructed, complete the
run and produce the identical sequence of get outcomes and put flags,
independent of the chosen key-index backends. -/
theorem implementations_observationally_equivalent {K V : Type}
    [DecidableEq K] [Inhabited V]
    (M₁ M₂ : LRUCacheV1.KeyIndex K)
    (h₁ : LRUCacheV1.LawfulKeyIndex M₁) (h₂ : LRUCacheV1.LawfulKeyIndex M₂)
    (cap : Nat) (hcap : 1 ≤ cap) (ops : List (CacheOp K V)) :
    ∃ outs c1 c2 c3 c4 c5 c6,
      LRUCacheV1.run M₁ (LRUCacheV1.mkCache M₁ V cap) ops = some (outs, c1) ∧
      LRUCacheV2.run (LRUCacheV2.mkCache K V cap) ops = some (outs, c2) ∧
      LRUCacheV3.run (LRUCacheV3.mkCache K V cap) ops = some (outs, c3) ∧
      LRUCacheV4.run (LRUCacheV4.mkCache K V cap) ops = some (outs, c4) ∧
      LRUCacheV5.run M₂ (LRUCacheV5.mkCache M₂ V cap) ops = some (outs, c5) ∧
      LRUCacheV6.run (LRUCacheV6.mkCache K V cap) ops = some (outs, c6) := by
  obtain ⟨outs, c1, d4, hr1, hr4, -⟩ :=
    LRUCacheV1.run_sim h₁ ops (LRUCacheV1.abs_init M₁ h₁ cap) hcap
  obtain ⟨outs5, c5, d5, hr5, hr45, -⟩ :=
    LRUCacheV1.run_sim h₂ ops (LRUCacheV1.abs_init M₂ h₂ cap) hcap
  rw [hr4] at hr45
  have h5eq := Option.some.inj hr45
  cases h5eq
  have hr4' : LRUCacheV4.run { entries := ([] : List (K × V)), maxCacheSize := cap } ops = some (outs, d4) := hr4
  have hr4'' : LRUCacheV4.run (LRUCacheV6.modelState ([] : List (K × V)) cap)
      ops = some (outs, d4) := hr4
  have hv2 := LRUCacheV2.run_eq_sequenced_model ops ([] : List (K × V)) cap
  rw [hr4', Option.map_some'] at hv2
  have hv3 := LRUCacheV3.run_eq_sequenced_model_arena ops ([] : List (K × V)) cap
    (by simp)
  rw [List.length_nil] at hv3
  rw [hr4', Option.map_some'] at hv3
  obtain ⟨outs6, c6, d6, hr6, hr46⟩ :=
    LRUCacheV6.run_sim_model ops ([] : List (K × V)) ([] : List (K × V))
      cap hcap rfl (by simp [KeyedList.keys]) (by simp [KeyedList.keys])
      (fun k' => rfl)
  rw [hr4''] at hr46
  have h6eq := Option.some.inj hr46
  cases h6eq
  exact ⟨outs, c1, _, _, d4, c5, c6, hr1, hv2, hv3, hr4, hr5, hr6⟩

/-- Witness for implementations_observationally_equivalent: both backends
are the association-list key index, capacity 1, four operations. -/
theorem implementations_observationally_equivalent_witness :
    LRUCacheV1.LawfulKeyIndex (LRUCacheV1.assocIndex Nat) ∧ 1 ≤ 1 ∧
    (∃ outs c1 c2 c3 c4 c5 c6,
      LRUCacheV1.run (LRUCacheV1.assocIndex Nat)
        (LRUCacheV1.mkCache (LRUCacheV1.assocIndex Nat) Nat 1)
        [CacheOp.put 1 5, CacheOp.get 1, CacheOp.put 2 6, CacheOp.get 1] =
        some (outs, c1) ∧
      LRUCacheV2.run (LRUCacheV2.mkCache Nat Nat 1)
        [CacheOp.put 1 5, CacheOp.get 1, CacheOp.put 2 6, CacheOp.get 1] =
        some (outs, c2) ∧
      LRUCacheV3.run (LRUCacheV3.mkCache Nat Nat 1)
        [CacheOp.put 1 5, CacheOp.get 1, CacheOp.put 2 6, CacheOp.get 1] =
        some (outs, c3) ∧
      LRUCacheV4.run (LRUCacheV4.mkCache Nat Nat 1)
        [CacheOp.put 1 5, CacheOp.get 1, CacheOp.put 2 6, CacheOp.get 1] =
        some (outs, c4) ∧
      LRUCacheV5.run (LRUCacheV1.assocIndex Nat)
        (LRUCacheV5.mkCache (LRUCacheV1.assocIndex Nat) Nat 1)
        [CacheOp.put 1 5, CacheOp.get 1, CacheOp.put 2 6, CacheOp.get 1] =
        some (outs, c5) ∧
      LRUCacheV6.run (LRUCacheV6.mkCache Nat Nat 1)
        [CacheOp.put 1 5, CacheOp.get 1, CacheOp.put 2 6, CacheOp.get 1] =
        some (outs, c6)) :=
  ⟨LRUCacheV1.assocIndex_lawful Nat, by decide,
   implementations_observationally_equivalent (LRUCacheV1.assocIndex Nat)
     (LRUCacheV1.assocIndex Nat) (LRUCacheV1.assocIndex_lawful Nat)
     (LRUCacheV1.assocIndex_lawful Nat) 1 (by decide)
     [CacheOp.put 1 5, CacheOp.get 1, CacheOp.put 2 6, CacheOp.get 1]⟩

set_option maxHeartbeats 1000000 in
/-- C4: populate an LRUCacheV1 cache of capacity N with N distinct keys
(here p1, p2 followed by ps), read the first key back with get, then put
one further distinct key.  The read promoted p1 to MRU, so the final put
evicts p2 (the least recently used entry after the read) and not p1:
afterwards get on p2's key misses while get on p1's key still returns
p1's value. -/
theorem promotion_on_read_protects_entry {K V : Type} [DecidableEq K]
    [Inhabited V] (M : LRUCacheV1.KeyIndex K)
    (hM : LRUCacheV1.LawfulKeyIndex M)
    (p1 p2 : K × V) (ps : List (K × V)) (pnew : K × V)
    (hnd : (KeyedList.keys (p1 :: p2 :: ps ++ [pnew])).Nodup) :
    ∃ outs c',
      LRUCacheV1.run M
        (LRUCacheV1.mkCache M V (p1 :: p2 :: ps).length)
        ((p1 :: p2 :: ps).map (fun p => CacheOp.put p.1 p.2) ++
          [CacheOp.get p1.1, CacheOp.put pnew.1 pnew.2]) = some (outs, c') ∧
      (LRUCacheV1.get M c' p2.1).1 = none ∧
      (LRUCacheV1.get M c' p1.1).1 = some p1.2 := by
  have hnd1 : (KeyedList.keys (p1 :: p2 :: ps) ++ [pnew.1]).Nodup := by
    have he : KeyedList.keys (p1 :: p2 :: ps ++ [pnew]) =
        KeyedList.keys (p1 :: p2 :: ps) ++ [pnew.1] := by
      simp [KeyedList.keys]
    exact he ▸ hnd
  obtain ⟨hndA, -, hdisjnew⟩ := List.nodup_append.1 hnd1
  have hnewA : pnew.1 ∉ KeyedList.keys (p1 :: p2 :: ps) := fun hc =>
    hdisjnew hc (List.mem_singleton.2 rfl)
  have hkeysA : KeyedList.keys (p1 :: p2 :: ps) =
      p1.1 :: p2.1 :: KeyedList.keys ps := rfl
  have hndA' : (p1.1 :: p2.1 :: KeyedList.keys ps).Nodup := hkeysA ▸ hndA
  obtain ⟨hp1notin, hndA2⟩ := List.nodup_cons.1 hndA'
  obtain ⟨hp2notin, hndps⟩ := List.nodup_cons.1 hndA2
  have hp1p2 : p1.1 ≠ p2.1 := fun hc => hp1notin (hc ▸ List.mem_cons_self _ _)
  have hp1ps : p1.1 ∉ KeyedList.keys ps := fun hc =>
    hp1notin (List.mem_cons_of_mem _ hc)
  have hp1new : p1.1 ≠ pnew.1 := fun hc => hnewA (by
    rw [hkeysA, ← hc]
    exact List.mem_cons_self _ _)
  have hp2new : p2.1 ≠ pnew.1 := fun hc => hnewA (by
    rw [hkeysA, ← hc]
    exact List.mem_cons_of_mem _ (List.mem_cons_self _ _))
  have hpsnew : pnew.1 ∉ KeyedList.keys ps := fun hc => hnewA (by
    rw [hkeysA]
    exact List.mem_cons_of_mem _ (List.mem_cons_of_mem _ hc))
  obtain ⟨outsP, hrunP⟩ := LRUCacheV4.run_new_puts (p1 :: p2 :: ps)
    (LRUCacheV4.mkCache K V (p1 :: p2 :: ps).length)
    (by simpa [LRUCacheV4.mkCache] using hndA)
    (by simp [LRUCacheV4.mkCache])
    (by simp [LRUCacheV4.mkCache])
  have hdrop : (((LRUCacheV4.mkCache K V (p1 :: p2 :: ps).length).entries ++
      (p1 :: p2 :: ps)).drop
      ((LRUCacheV4.mkCache K V (p1 :: p2 :: ps).length).entries.length +
        (p1 :: p2 :: ps).length -
        (LRUCacheV4.mkCache K V (p1 :: p2 :: ps).length).maxCacheSize)) =
      p1 :: p2 :: ps := by
    simp [LRUCacheV4.mkCache]
  rw [hdrop] at hrunP
  have htail : ∀ d : LRUCacheV4.Cache K V, d.entries = p1 :: p2 :: ps →
      d.maxCacheSize = (p1 :: p2 :: ps).length →
      LRUCacheV4.run d [CacheOp.get p1.1, CacheOp.put pnew.1 pnew.2] =
        some ([CacheOut.got (some p1.2), CacheOut.inserted true],
          { d with entries := (ps ++ [p1]) ++ [pnew] }) := by
    intro d hde hdm
    have hfind1 : d.entries.find? (fun p => p.1 == p1.1) = some p1 := by
      rw [hde]
      exact List.find?_cons_of_pos _ (by simp)
    have herase1 : d.entries.eraseP (fun p => p.1 == p1.1) = p2 :: ps := by
      rw [hde]
      exact List.eraseP_cons_of_pos (by simp)
    have hget : LRUCacheV4.get d p1.1 =
        (some p1.2, { d with entries := (p2 :: ps) ++ [p1] }) := by
      unfold LRUCacheV4.get
      rw [hfind1, herase1]
    have hfind2 : ((p2 :: ps) ++ [p1]).find? (fun p => p.1 == pnew.1) =
        none := by
      apply KeyedList.find?_eq_none_iff.2
      intro hc
      rw [KeyedList.keys_append] at hc
      rcases List.mem_append.1 hc with h1 | h2
      · rcases List.mem_cons.1 h1 with h3 | h4
        · exact hp2new h3.symm
        · exact hpsnew h4
      · exact hp1new (List.mem_singleton.1 h2).symm
    have hcond : d.maxCacheSize ≤ ((p2 :: ps) ++ [p1]).length := by
      rw [hdm]
      simp
    have hput : LRUCacheV4.put { d with entries := (p2 :: ps) ++ [p1] }
        pnew.1 pnew.2 =
        some (true, { d with entries := (ps ++ [p1]) ++ [pnew] }) := by
      simp only [LRUCacheV4.put]
      rw [hfind2, if_pos hcond]
      rfl
    simp only [LRUCacheV4.run, hget, hput, Option.some_bind,
      Option.map_some']
  have happend := LRUCacheV4.run_append
    ((p1 :: p2 :: ps).map (fun p => CacheOp.put p.1 p.2))
    [CacheOp.get p1.1, CacheOp.put pnew.1 pnew.2]
    (LRUCacheV4.mkCache K V (p1 :: p2 :: ps).length)
  rw [hrunP, Option.some_bind, htail _ rfl rfl, Option.map_some'] at happend
  dsimp only at happend
  obtain ⟨outs, c', d', hr1, hr4, habs⟩ :=
    LRUCacheV1.run_sim hM
      ((p1 :: p2 :: ps).map (fun p => CacheOp.put p.1 p.2) ++
        [CacheOp.get p1.1, CacheOp.put pnew.1 pnew.2])
      (LRUCacheV1.abs_init M hM (p1 :: p2 :: ps).length)
      (by simp [LRUCacheV1.mkCache])
  rw [happend] at hr4
  have heq := Option.some.inj hr4
  cases heq
  refine ⟨_, c', hr1, ?_, ?_⟩
  · have hfin : ((ps ++ [p1]) ++ [pnew]).find? (fun p => p.1 == p2.1) =
        none := by
      apply KeyedList.find?_eq_none_iff.2
      intro hc
      rw [KeyedList.keys_append, KeyedList.keys_append] at hc
      rcases List.mem_append.1 hc with h1 | h2
      · rcases List.mem_append.1 h1 with h3 | h4
        · exact hp2notin h3
        · exact hp1p2 (List.mem_singleton.1 h4).symm
      · exact hp2new (List.mem_singleton.1 h2)
    rw [(LRUCacheV1.get_sim habs p2.1).1]
    unfold LRUCacheV4.get
    dsimp only
    rw [hfin]
  · have hfin : ((ps ++ [p1]) ++ [pnew]).find? (fun p => p.1 == p1.1) =
        some p1 := by
      rw [show (ps ++ [p1]) ++ [pnew] = ps ++ p1 :: [pnew] by simp]
      exact KeyedList.find?_of_split hp1ps
    rw [(LRUCacheV1.get_sim habs p1.1).1]
    unfold LRUCacheV4.get
    dsimp only
    rw [hfin]

/-- Witness for promotion_on_read_protects_entry: capacity 2, keys 1 and
2 inserted, get(1), then put(3): key 2 is evicted and key 1 retains its
value. -/
theorem promotion_on_read_protects_entry_witness :
    LRUCacheV1.LawfulKeyIndex (LRUCacheV1.assocIndex Nat) ∧
    (KeyedList.keys ((1, 11) :: (2, 12) :: [] ++
      [((3 : Nat), (13 : Nat))])).Nodup ∧
    (∃ outs c',
      LRUCacheV1.run (LRUCacheV1.assocIndex Nat)
        (LRUCacheV1.mkCache (LRUCacheV1.assocIndex Nat) Nat 2)
        [CacheOp.put 1 11, CacheOp.put 2 12, CacheOp.get 1,
          CacheOp.put 3 13] = some (outs, c') ∧
      (LRUCacheV1.get (LRUCacheV1.assocIndex Nat) c' 2).1 = none ∧
      (LRUCacheV1.get (LRUCacheV1.assocIndex Nat) c' 1).1 = some 11) :=
  ⟨LRUCacheV1.assocIndex_lawful Nat, by decide,
   promotion_on_read_protects_entry (LRUCacheV1.assocIndex Nat)
     (LRUCacheV1.assocIndex_lawful Nat) (1, 11) (2, 12) [] (3, 13)
     (by decide)⟩
